import Mathlib

/-!
Verification development for the dietwise-renderer HTML reduction core.

The TypeScript sources under `src/cleaner/` are shallowly embedded here:

* `cleanHtmlForLLM-mod.ts` — the whitelist-based HTML reducer
  (`cleanDocumentForLLM` and its helper passes);
* `htmlToMinimalText.ts` — the minimal-text renderer;
* `extractJsonLdRecipes.ts` — the JSON-LD recipe extractor.

The DOM is modelled as an inductive tree of element / text / comment nodes.
Every node carries a numeric id, playing the role of JavaScript object
identity: the work queue of the breadth-first unwrap pass and all in-place
mutations are expressed through these ids.  JavaScript strings are modelled
as `String` (lists of characters); the concrete regular expressions used by
the source are embedded as executable character-list scanners.
-/

namespace DietWise

/-! ### Character and string helpers

These model the JavaScript string primitives used by the source: `trim`,
the `\s` character class, the zero-width characters stripped by the
cleaning code, and plain substring search. -/

/-- Model of the JavaScript whitespace class `\s` (the common members:
space, tab, newline, carriage return, vertical tab, form feed). -/
def isWsChar (c : Char) : Bool :=
  c == ' ' || c == '\t' || c == '\n' || c == '\r' || c == '\x0b' || c == '\x0c'

/-- The zero-width characters `U+200B`, `U+200C`, `U+200D` stripped by
`isMeaningful`, `textLength` and `cleanText`. -/
def isZeroWidth (c : Char) : Bool :=
  c.toNat == 0x200B || c.toNat == 0x200C || c.toNat == 0x200D

/-- `String.prototype.trim` on a character list. -/
def trimChars (l : List Char) : List Char :=
  ((l.dropWhile isWsChar).reverse.dropWhile isWsChar).reverse

/-- `String.prototype.trim`. -/
def jsTrim (s : String) : String :=
  String.mk (trimChars s.data)

/-- Is `pat` a leading segment of `l`? -/
def beginsWith : List Char → List Char → Bool
  | _, [] => true
  | [], _ :: _ => false
  | c :: cs, d :: ds => c == d && beginsWith cs ds

/-- Does `pat` occur anywhere inside `l`? -/
def containsSub : List Char → List Char → Bool
  | [], pat => pat.isEmpty
  | c :: cs, pat => beginsWith (c :: cs) pat || containsSub cs pat

/-- `containsSub` on strings. -/
def strContains (s pat : String) : Bool :=
  containsSub s.data pat.data

/-- Number of positions of `l` at which `pat` begins.  For the patterns used
below (such as `<li>`) occurrences cannot overlap, so this is exactly the
number of matches of the corresponding global regex. -/
def countOcc : List Char → List Char → Nat
  | [], _ => 0
  | c :: cs, pat => (if beginsWith (c :: cs) pat then 1 else 0) + countOcc cs pat

/-- `countOcc` on strings. -/
def strCountOcc (s pat : String) : Nat :=
  countOcc s.data pat.data

/-- Case folding for tag and attribute names (`toLowerCase` on ASCII). -/
def lowerAscii (s : String) : String :=
  String.mk (s.data.map Char.toLower)

/-- Scanner for the replace of `/\n\s*/g` by a newline: every newline is
emitted and the whitespace run following it is dropped.  The flag records
whether the scanner is inside such a run. -/
def collapseNlWsGo : Bool → List Char → List Char
  | _, [] => []
  | skipping, c :: cs =>
    if skipping && isWsChar c then collapseNlWsGo true cs
    else if c == '\n' then '\n' :: collapseNlWsGo true cs
    else c :: collapseNlWsGo false cs

/-- The replace of `/\n\s*/g` by `"\n"`. -/
def collapseNlWs (l : List Char) : List Char :=
  collapseNlWsGo false l

/-- The character class `[\t\r ]`. -/
def isTabCrSpace (c : Char) : Bool :=
  c == '\t' || c == '\r' || c == ' '

/-- Scanner for the replace of `/[\t\r ]+/g` by a single space. -/
def collapseSpacesGo : Bool → List Char → List Char
  | _, [] => []
  | inRun, c :: cs =>
    if isTabCrSpace c then
      (if inRun then collapseSpacesGo true cs else ' ' :: collapseSpacesGo true cs)
    else c :: collapseSpacesGo false cs

/-- The replace of `/[\t\r ]+/g` by `" "`. -/
def collapseSpaces (l : List Char) : List Char :=
  collapseSpacesGo false l

/-- Scanner for the replace of `/\n{2,}/g` by a single newline: each run of
newlines is emitted as one newline. -/
def collapseNlsGo : Bool → List Char → List Char
  | _, [] => []
  | prevNl, c :: cs =>
    if c == '\n' then
      (if prevNl then collapseNlsGo true cs else '\n' :: collapseNlsGo true cs)
    else c :: collapseNlsGo false cs

/-- The replace of `/\n{2,}/g` by `"\n"`. -/
def collapseNls (l : List Char) : List Char :=
  collapseNlsGo false l

/-- The replace of `/\n/g` by `"<br>"`. -/
def restoreBr : List Char → List Char
  | [] => []
  | c :: cs =>
    if c == '\n' then '<' :: 'b' :: 'r' :: '>' :: restoreBr cs
    else c :: restoreBr cs

/-- The replace of `/<li>/g` by `"\n<li>"`. -/
def newlineBeforeLi : List Char → List Char
  | '<' :: 'l' :: 'i' :: '>' :: rest => '\n' :: '<' :: 'l' :: 'i' :: '>' :: newlineBeforeLi rest
  | c :: cs => c :: newlineBeforeLi cs
  | [] => []

/-- After an opening `<ul>` or `<ol>`, the remainder of the input. -/
def afterOpenUlOl : List Char → Option (List Char)
  | '<' :: 'u' :: 'l' :: '>' :: rest => some rest
  | '<' :: 'o' :: 'l' :: '>' :: rest => some rest
  | _ => none

/-- After a closing `</ul>` or `</ol>`, the remainder of the input. -/
def afterCloseUlOl : List Char → Option (List Char)
  | '<' :: '/' :: 'u' :: 'l' :: '>' :: rest => some rest
  | '<' :: '/' :: 'o' :: 'l' :: '>' :: rest => some rest
  | _ => none

/-- Scanner for the replace of an empty-pair regex by the empty string: at
each position, if `openTag?` matches, whitespace may follow, and then
`closeTag?` matches, the whole match is dropped and scanning resumes after
it.  The fuel argument bounds the scan (it is called with the length of the
input, which suffices since every step consumes at least one character). -/
def removeEmptyPairGo (openTag? closeTag? : List Char → Option (List Char)) :
    Nat → List Char → List Char
  | 0, l => l
  | _ + 1, [] => []
  | fuel + 1, c :: cs =>
    match openTag? (c :: cs) with
    | some rest =>
      match closeTag? (rest.dropWhile isWsChar) with
      | some rest2 => removeEmptyPairGo openTag? closeTag? fuel rest2
      | none => c :: removeEmptyPairGo openTag? closeTag? fuel cs
    | none => c :: removeEmptyPairGo openTag? closeTag? fuel cs

/-- The replace of the empty `ul`/`ol` pair regex by the empty string
(the source regex does not require the two tags to agree). -/
def removeEmptyUlOl (l : List Char) : List Char :=
  removeEmptyPairGo afterOpenUlOl afterCloseUlOl l.length l

/-- After an opening `<li>`, the remainder. -/
def afterOpenLi : List Char → Option (List Char)
  | '<' :: 'l' :: 'i' :: '>' :: rest => some rest
  | _ => none

/-- After a closing `</li>`, the remainder. -/
def afterCloseLi : List Char → Option (List Char)
  | '<' :: '/' :: 'l' :: 'i' :: '>' :: rest => some rest
  | _ => none

/-- The replace of the empty `li` pair regex by the empty string. -/
def removeEmptyLi (l : List Char) : List Char :=
  removeEmptyPairGo afterOpenLi afterCloseLi l.length l

/-- After an opening `<p>`, the remainder. -/
def afterOpenP : List Char → Option (List Char)
  | '<' :: 'p' :: '>' :: rest => some rest
  | _ => none

/-- After a closing `</p>`, the remainder. -/
def afterCloseP : List Char → Option (List Char)
  | '<' :: '/' :: 'p' :: '>' :: rest => some rest
  | _ => none

/-- The replace of the empty `p` pair regex by the empty string. -/
def removeEmptyP (l : List Char) : List Char :=
  removeEmptyPairGo afterOpenP afterCloseP l.length l

/-- A heading digit `1`–`6`. -/
def isHeadingDigit (c : Char) : Bool :=
  c == '1' || c == '2' || c == '3' || c == '4' || c == '5' || c == '6'

/-- After an opening `<h1>`–`<h6>`, the remainder. -/
def afterOpenH : List Char → Option (List Char)
  | '<' :: 'h' :: d :: '>' :: rest => if isHeadingDigit d then some rest else none
  | _ => none

/-- After a closing `</h1>`–`</h6>`, the remainder (the digit is matched
independently of the opening digit, as in the source regex). -/
def afterCloseH : List Char → Option (List Char)
  | '<' :: '/' :: 'h' :: d :: '>' :: rest => if isHeadingDigit d then some rest else none
  | _ => none

/-- The replace of the empty heading pair regex by the empty string. -/
def removeEmptyH (l : List Char) : List Char :=
  removeEmptyPairGo afterOpenH afterCloseH l.length l

/-- After the character following a `<`, scan to the closing `>` of the
candidate tag (the tail of the regex `<[^>]+>`). -/
def tagEndCont : List Char → Option (List Char)
  | [] => none
  | '>' :: rest => some rest
  | _ :: rest => tagEndCont rest

/-- Given the input just after a `<`, the remainder after a full `[^>]+>`
match, if any. -/
def tagEnd? : List Char → Option (List Char)
  | [] => none
  | '>' :: _ => none
  | _ :: rest => tagEndCont rest

/-- Scanner for the replace of `/<[^>]+>/g` by the empty string (tag
stripping for the `textLength` statistic).  Fuel bounds the scan. -/
def stripTagsGo : Nat → List Char → List Char
  | 0, l => l
  | _ + 1, [] => []
  | fuel + 1, c :: cs =>
    if c == '<' then
      match tagEnd? cs with
      | some rest => stripTagsGo fuel rest
      | none => c :: stripTagsGo fuel cs
    else c :: stripTagsGo fuel cs

/-- The replace of `/<[^>]+>/g` by the empty string. -/
def stripTags (l : List Char) : List Char :=
  stripTagsGo l.length l

/-- Scanner for the replace of `/[\sU+200BU+200CU+200D]+/g` by a single
space (visible-text normalisation in `textLength`). -/
def collapseWsZwGo : Bool → List Char → List Char
  | _, [] => []
  | inRun, c :: cs =>
    if isWsChar c || isZeroWidth c then
      (if inRun then collapseWsZwGo true cs else ' ' :: collapseWsZwGo true cs)
    else c :: collapseWsZwGo false cs

/-- The replace of `/[\sU+200BU+200CU+200D]+/g` by `" "`. -/
def collapseWsZw (l : List Char) : List Char :=
  collapseWsZwGo false l

/-- The `textLength` helper of the source: strip tags, collapse whitespace
and zero-width characters to single spaces, trim, and count characters. -/
def textLengthOf (html : String) : Nat :=
  (trimChars (collapseWsZw (stripTags html.data))).length

/-- The visible text of a serialized fragment: tags stripped, whitespace
collapsed, trimmed.  Used to state the table-policy and pruning claims. -/
def visibleText (html : String) : String :=
  String.mk (trimChars (collapseWsZw (stripTags html.data)))

/-- The replace of `/[U+200BU+200CU+200D]/g` by the empty string. -/
def stripZeroWidth (l : List Char) : List Char :=
  l.filter (fun c => !isZeroWidth c)

/-! ### The DOM model

A document tree of element, text and comment nodes.  Tag and attribute
names are stored lowercase (the HTML parser normalises case and the source
always compares `tagName.toLowerCase()`).  The `id` field models
JavaScript object identity; it is what the breadth-first work queue of the
unwrap pass stores, and what the by-id mutation operations target. -/

inductive DNode where
  | elem (id : Nat) (tag : String) (attrs : List (String × String)) (children : List DNode)
  | text (id : Nat) (s : String)
  | comment (id : Nat) (s : String)
deriving Repr

/-- The id of a node. -/
def DNode.nid : DNode → Nat
  | .elem i _ _ _ => i
  | .text i _ => i
  | .comment i _ => i

/-- Is this an element node (`nodeType === 1`)? -/
def DNode.isElem : DNode → Bool
  | .elem _ _ _ _ => true
  | _ => false

/-- Is this a text node (`nodeType === 3`)? -/
def DNode.isText : DNode → Bool
  | .text _ _ => true
  | _ => false

/-- The children of a node (empty for text and comment nodes). -/
def DNode.childList : DNode → List DNode
  | .elem _ _ _ cs => cs
  | _ => []

/-- The tag of an element (empty string on non-elements). -/
def DNode.tagOf : DNode → String
  | .elem _ t _ _ => t
  | _ => ""

/-- `getAttribute`: the value of the first attribute with the given name. -/
def getAttr (n : DNode) (name : String) : Option String :=
  match n with
  | .elem _ _ attrs _ =>
    match attrs.find? (fun a => a.fst == name) with
    | some a => some a.snd
    | none => none
  | _ => none

mutual

/-- `textContent`: concatenation of all descendant text nodes. -/
def textContentN : DNode → String
  | .elem _ _ _ cs => textContentL cs
  | .text _ s => s
  | .comment _ _ => ""

/-- `textContentN` over a child list. -/
def textContentL : List DNode → String
  | [] => ""
  | n :: rest => textContentN n ++ textContentL rest

end

mutual

/-- All node ids of a tree, in pre-order. -/
def idsN : DNode → List Nat
  | .elem i _ _ cs => i :: idsL cs
  | .text i _ => [i]
  | .comment i _ => [i]

/-- `idsN` over a child list. -/
def idsL : List DNode → List Nat
  | [] => []
  | n :: rest => idsN n ++ idsL rest

end

mutual

/-- First node with the given id, in pre-order. -/
def findN : DNode → Nat → Option DNode
  | .elem i t a cs, j => if i == j then some (.elem i t a cs) else findL cs j
  | .text i s, j => if i == j then some (.text i s) else none
  | .comment i s, j => if i == j then some (.comment i s) else none

/-- `findN` over a child list. -/
def findL : List DNode → Nat → Option DNode
  | [], _ => none
  | n :: rest, j =>
    match findN n j with
    | some r => some r
    | none => findL rest j

end

mutual

/-- Number of descendant elements (the node itself included for `countElemsN`)
whose tag is `tag`; models `querySelectorAll(tag).length` counting from the
children. -/
def countTagN : DNode → String → Nat
  | .elem _ t _ cs, tag => (if t == tag then 1 else 0) + countTagL cs tag
  | _, _ => 0

/-- `countTagN` over a child list. -/
def countTagL : List DNode → String → Nat
  | [], _ => 0
  | n :: rest, tag => countTagN n tag + countTagL rest tag

end

/-- `querySelectorAll(tag).length` on an element: matching descendants only,
the element itself excluded. -/
def countTagDesc (n : DNode) (tag : String) : Nat :=
  countTagL n.childList tag

/-! ### Serialization (`innerHTML`)

Standard HTML fragment serialization: text escapes `&`, `<`, `>`;
attribute values are double-quoted and escape `&` and `"`; void elements
(such as `br` and `img`) render without a closing tag; comments render as
comment markup. -/

/-- The HTML void elements. -/
def voidTags : List String :=
  ["area", "base", "br", "col", "embed", "hr", "img", "input", "link",
   "meta", "param", "source", "track", "wbr"]

/-- Escape one character of a text node. -/
def escapeTextChar (c : Char) : List Char :=
  if c == '&' then "&amp;".data
  else if c == '<' then "&lt;".data
  else if c == '>' then "&gt;".data
  else [c]

/-- Escape a text-node payload. -/
def escapeText (s : String) : String :=
  String.mk (s.data.foldr (fun c acc => escapeTextChar c ++ acc) [])

/-- Escape one character of an attribute value. -/
def escapeAttrChar (c : Char) : List Char :=
  if c == '&' then "&amp;".data
  else if c == '"' then "&quot;".data
  else [c]

/-- Escape an attribute value. -/
def escapeAttrVal (s : String) : String :=
  String.mk (s.data.foldr (fun c acc => escapeAttrChar c ++ acc) [])

/-- Render an attribute list as ` name="value"` segments. -/
def serializeAttrs : List (String × String) → String
  | [] => ""
  | a :: rest => " " ++ a.fst ++ "=\"" ++ escapeAttrVal a.snd ++ "\"" ++ serializeAttrs rest

mutual

/-- Serialize a node to HTML. -/
def serializeN : DNode → String
  | .elem _ t attrs cs =>
    if voidTags.contains t then "<" ++ t ++ serializeAttrs attrs ++ ">"
    else "<" ++ t ++ serializeAttrs attrs ++ ">" ++ serializeL cs ++ "</" ++ t ++ ">"
  | .text _ s => escapeText s
  | .comment _ s => "<!--" ++ s ++ "-->"

/-- Serialize a child list. -/
def serializeL : List DNode → String
  | [] => ""
  | n :: rest => serializeN n ++ serializeL rest

end

/-- `innerHTML` of an element: its children serialized. -/
def innerHTMLOf (n : DNode) : String :=
  serializeL n.childList

/-! ### In-place mutation, by node id

The source mutates the document through node references.  Here every
mutation is a tree rewrite keyed by the id of the target node.  The root
of the tree under consideration is always the `body` element, which the
source never removes or unwraps, so the rewrites only ever fire inside
child lists. -/

mutual

/-- `node.remove()`: delete the subtree whose root has id `i`. -/
def removeByIdN : DNode → Nat → DNode
  | .elem a t at_ cs, i => .elem a t at_ (removeByIdL cs i)
  | n, _ => n

/-- `removeByIdN` over a child list. -/
def removeByIdL : List DNode → Nat → List DNode
  | [], _ => []
  | n :: rest, i =>
    if n.nid == i then rest else removeByIdN n i :: removeByIdL rest i

end

mutual

/-- Unwrap the element with id `i`: splice its children into the parent
child list at its position, optionally followed by a separator text node
(the source inserts the separator at `el.nextSibling` before moving the
children, so the separator lands after the spliced children). -/
def unwrapAtN : DNode → Nat → Option DNode → DNode
  | .elem a t at_ cs, i, sep => .elem a t at_ (unwrapAtL cs i sep)
  | n, _, _ => n

/-- `unwrapAtN` over a child list. -/
def unwrapAtL : List DNode → Nat → Option DNode → List DNode
  | [], _, _ => []
  | n :: rest, i, sep =>
    if n.nid == i then
      n.childList ++ (match sep with | some s => [s] | none => []) ++ rest
    else unwrapAtN n i sep :: unwrapAtL rest i sep

end

mutual

/-- Replace the attribute list of the element with id `i`. -/
def setAttrsAtN : DNode → Nat → List (String × String) → DNode
  | .elem a t at_ cs, i, new =>
    if a == i then .elem a t new cs else .elem a t at_ (setAttrsAtL cs i new)
  | n, _, _ => n

/-- `setAttrsAtN` over a child list. -/
def setAttrsAtL : List DNode → Nat → List (String × String) → List DNode
  | [], _, _ => []
  | n :: rest, i, new => setAttrsAtN n i new :: setAttrsAtL rest i new

end

/-! ### Comment removal (`removeComments`) -/

mutual

/-- Remove every comment node in a subtree; also counts the removals. -/
def removeCommentsN : DNode → DNode × Nat
  | .elem a t at_ cs =>
    let r := removeCommentsL cs
    (.elem a t at_ r.fst, r.snd)
  | n => (n, 0)

/-- `removeCommentsN` over a child list. -/
def removeCommentsL : List DNode → List DNode × Nat
  | [] => ([], 0)
  | .comment _ _ :: rest =>
    let r := removeCommentsL rest
    (r.fst, r.snd + 1)
  | n :: rest =>
    let rn := removeCommentsN n
    let rr := removeCommentsL rest
    (rn.fst :: rr.fst, rn.snd + rr.snd)

end

/-! ### Noise removal (pass 1)

`querySelectorAll` takes a static snapshot, and `remove()` is invoked on
every match, nested matches included; so the `removedNodes` counter counts
every matching descendant of `body`, while the tree ends up with all
top-most matches deleted. -/

mutual

/-- Count the elements satisfying `p` in a subtree (the root included),
descending into matching subtrees as well. -/
def countMatchesN : DNode → (DNode → Bool) → Nat
  | .elem a t at_ cs, p =>
    (if p (.elem a t at_ cs) then 1 else 0) + countMatchesL cs p
  | _, _ => 0

/-- `countMatchesN` over a child list. -/
def countMatchesL : List DNode → (DNode → Bool) → Nat
  | [], _ => 0
  | n :: rest, p => countMatchesN n p + countMatchesL rest p

end

mutual

/-- Remove every element satisfying `p` (whole subtree), top-most first. -/
def removeMatchingN : DNode → (DNode → Bool) → DNode
  | .elem a t at_ cs, p => .elem a t at_ (removeMatchingL cs p)
  | n, _ => n

/-- `removeMatchingN` over a child list. -/
def removeMatchingL : List DNode → (DNode → Bool) → List DNode
  | [], _ => []
  | n :: rest, p =>
    if n.isElem && p n then removeMatchingL rest p
    else removeMatchingN n p :: removeMatchingL rest p

end

/-- Tag list of the noise selector of pass 1. -/
def noiseTags : List String :=
  ["script", "style", "noscript", "template", "iframe", "frame", "frameset",
   "object", "embed", "form", "input", "textarea", "select", "button",
   "svg", "canvas", "picture", "source", "meta", "link", "header", "footer",
   "nav", "aside", "share", "ads"]

/-- The noise selector: one of the noise tags, or `aria-hidden="true"`. -/
def matchesNoise (n : DNode) : Bool :=
  noiseTags.contains n.tagOf || getAttr n "aria-hidden" == some "true"

/-- The media selector used when `dropMedia` is true. -/
def matchesMedia (n : DNode) : Bool :=
  n.tagOf == "img" || n.tagOf == "video" || n.tagOf == "audio" || n.tagOf == "figure"

/-- The residual media selector used when `dropMedia` is false: `video`,
`audio` and `figure` elements not present in the allowed-tag set. -/
def matchesMediaKept (allowed : List String) (n : DNode) : Bool :=
  (n.tagOf == "video" || n.tagOf == "audio" || n.tagOf == "figure")
    && !(allowed.contains n.tagOf)

/-! ### `collectElements` (pass 4 pre-collection)

Stack-based pre-order collection of element nodes with the same
node-budget guard as the source (`seen++ < max`). -/

/-- The element children of a node (`el.children`). -/
def elemChildren (n : DNode) : List DNode :=
  n.childList.filter DNode.isElem

/-- The stack loop of `collectElements`; the fuel is the node budget. -/
def collectGo : Nat → List DNode → List Nat
  | 0, _ => []
  | _ + 1, [] => []
  | fuel + 1, n :: stack => n.nid :: collectGo fuel (elemChildren n ++ stack)

/-- `collectElements(root, max)`: pre-order element ids, budget-bounded. -/
def collectElements (root : DNode) (max : Nat) : List Nat :=
  collectGo max [root]

/-! ### `sanitizeUrl`

The source resolves the raw value against the placeholder base
`https://example.invalid` with the WHATWG `URL` constructor.  That
constructor is host-library code; it is modelled here by `parseUrlModel`:
a valid scheme (letter followed by letters, digits, `+`, `-`, `.`, then a
colon) makes the input absolute; a special scheme (`http`, `https`, `ws`,
`wss`, `ftp`) requires a non-empty host and yields the origin
`scheme://host`, other schemes have the opaque origin `"null"`; inputs
with no scheme resolve against the base and inherit its origin.  The
`href` of an absolute input is the input itself and that of a relative
input is the base followed by the slash-prefixed input (path
normalisation is not modelled; no theorem below depends on it). -/

/-- May a character start a URL scheme? -/
def isSchemeStart (c : Char) : Bool :=
  c.isAlpha

/-- May a character continue a URL scheme? -/
def isSchemeChar (c : Char) : Bool :=
  c.isAlphanum || c == '+' || c == '-' || c == '.'

/-- Scan the remainder of a scheme up to the colon. -/
def schemeSplitGo : List Char → List Char → Option (List Char × List Char)
  | _, [] => none
  | acc, c :: rest =>
    if c == ':' then some (acc.reverse, rest)
    else if isSchemeChar c then schemeSplitGo (c :: acc) rest
    else none

/-- Split a candidate URL into its scheme (lowercased) and remainder. -/
def schemeSplit (l : List Char) : Option (String × List Char) :=
  match l with
  | c :: rest =>
    if isSchemeStart c then
      (schemeSplitGo [c] rest).map (fun p => (String.mk (p.fst.map Char.toLower), p.snd))
    else none
  | [] => none

/-- The WHATWG special schemes that require a host (`file` excluded; its
origin is opaque anyway). -/
def specialSchemes : List String :=
  ["http", "https", "ws", "wss", "ftp"]

/-- A character ending the host portion of an authority. -/
def hostDelim (c : Char) : Bool :=
  c == '/' || c == '?' || c == '#'

/-- Result of the modelled URL parse. -/
structure ParsedUrl where
  scheme : String
  origin : String
  href : String
deriving Repr

/-- Model of `new URL(val, base)` with base `https://example.invalid`;
`none` models the constructor throwing. -/
def parseUrlModel (val : String) : Option ParsedUrl :=
  match schemeSplit val.data with
  | some (sch, rest) =>
    if specialSchemes.contains sch then
      let host := (rest.dropWhile (fun c => c == '/')).takeWhile (fun c => !hostDelim c)
      if host.isEmpty then none
      else some { scheme := sch, origin := sch ++ "://" ++ String.mk host, href := val }
    else some { scheme := sch, origin := "null", href := val }
  | none =>
    some { scheme := "https", origin := "https://example.invalid",
           href := "https://example.invalid" ++
             (if val.data.isEmpty then "/"
              else if val.data.head? == some '/' then val else "/" ++ val) }

/-- Remove the first occurrence of `pat` from `l` (the string `replace`
with a plain-string pattern).  Fuel bounds the scan. -/
def removeFirstSubGo (pat : List Char) : Nat → List Char → List Char
  | 0, l => l
  | _ + 1, [] => []
  | fuel + 1, c :: cs =>
    if beginsWith (c :: cs) pat then (c :: cs).drop pat.length
    else c :: removeFirstSubGo pat fuel cs

/-- Remove the first occurrence of `pat` from `l`. -/
def removeFirstSub (pat l : List Char) : List Char :=
  removeFirstSubGo pat l.length l

/-- A character admitted by the bare-relative fallback class
(`\w`, `#`, `/`, `?`, `=`, `&`, `.`, `+`, `%`, `-`). -/
def isBareRelChar (c : Char) : Bool :=
  c.isAlphanum || c == '_' || c == '#' || c == '/' || c == '?' || c == '=' ||
  c == '&' || c == '.' || c == '+' || c == '%' || c == '-'

/-- The bare-relative fallback regex: optional leading slash then one or
more class characters; since the slash is itself in the class this is
exactly nonemptiness plus the character test. -/
def bareRelative (s : String) : Bool :=
  !s.data.isEmpty && s.data.all isBareRelChar

/-- `sanitizeUrl` of the source, over the modelled URL parser. -/
def sanitizeUrl (raw : String) (strict : Bool) : Option String :=
  let val := jsTrim raw
  match parseUrlModel val with
  | some u =>
    let scheme := u.scheme
    let normalized := String.mk (removeFirstSub "https://example.invalid".data u.href.data)
    if !strict then some normalized
    else if scheme == "http" || scheme == "https" then some normalized
    else if u.origin == "https://example.invalid" then some normalized
    else none
  | none =>
    if !strict && bareRelative val then some val
    else if bareRelative val then some val
    else none

/-! ### Options -/

/-- `DEFAULT_ALLOWED_TAGS` of the source. -/
def DEFAULT_ALLOWED_TAGS : List String :=
  ["h1", "h2", "h3", "h4", "h5", "h6", "p", "ul", "ol", "li", "strong",
   "em", "b", "i", "u", "sup", "sub", "br", "time", "a"]

/-- `TABLE_TAGS` of the source. -/
def TABLE_TAGS : List String :=
  ["table", "thead", "tbody", "tfoot", "tr", "th", "td", "caption",
   "colgroup", "col"]

/-- `RECIPE_MINIMAL_TAGS` of the source. -/
def RECIPE_MINIMAL_TAGS : List String :=
  ["h1", "h2", "h3", "p", "ul", "ol", "li", "a", "strong", "em", "br", "time"]

/-- `CleanOptions`, fully merged (the option-merging itself, and its effect
on a caller-supplied set, are modelled separately below). -/
structure CleanOptions where
  allowedTags : List String
  dropMedia : Bool
  strictUrls : Bool
  keepTables : Bool
  maxDepth : Nat
deriving Repr

/-- The defaults of the merge at the top of `cleanDocumentForLLM`. -/
def defaultCleanOptions : CleanOptions :=
  { allowedTags := DEFAULT_ALLOWED_TAGS, dropMedia := true, strictUrls := true,
    keepTables := false, maxDepth := 2000 }

/-- `Set.add`: append the tag unless already present. -/
def addTag (l : List String) (t : String) : List String :=
  if l.contains t then l else l ++ [t]

/-- The allowed-tag set actually consulted by every pass: the option set,
plus the table tags when `keepTables` is true, plus `html` and `body`. -/
def effectiveAllowedTags (o : CleanOptions) : List String :=
  let l1 := if o.keepTables then TABLE_TAGS.foldl addTag o.allowedTags else o.allowedTags
  addTag (addTag l1 "html") "body"

/-- The members of a caller-supplied `allowedTags` set after
`cleanDocumentForLLM` returns.  The merge spreads the caller options over
the defaults, so a caller-supplied set becomes `opts.allowedTags` itself
(the same object, not a copy); the table-tag additions and the
`html`/`body` additions therefore land in the set owned by the caller. -/
def callerAllowedTagsAfter (caller : List String) (keepTables : Bool) : List String :=
  let l1 := if keepTables then TABLE_TAGS.foldl addTag caller else caller
  addTag (addTag l1 "html") "body"

/-! ### The breadth-first unwrap / attribute pass (pass 2 and 3) -/

/-- The state of the BFS loop.  `dequeued` records every id taken off the
queue and `touched` every id targeted by a tree mutation (both are
observers used by the theorems, written by the loop only). -/
structure BfsState where
  tree : DNode
  queue : List Nat
  nextId : Nat
  dequeued : List Nat
  touched : List Nat
  unwrappedNodes : Nat
  removedNodes : Nat
  removedAttrs : Nat
  strippedLinks : Nat
deriving Repr

/-- Outcome of the attribute loop over one element. -/
structure AttrScan where
  acc : List (String × String)
  keptHref : Bool
  keptSrc : Bool
  removed : Nat
  imgKill : Bool
deriving Repr

/-- The attribute loop of the BFS pass, over the snapshot of the attribute
list.  `imgKill` models the `break` taken when a `src` is seen on an
image that is not in the allowed set. -/
def processAttrsGo (tag : String) (strict imgAllowed : Bool) :
    List (String × String) → AttrScan → AttrScan
  | [], st => st
  | (name, value) :: restA, st =>
    let nameL := lowerAscii name
    if tag == "a" && nameL == "href" then
      match sanitizeUrl value strict with
      | some safe =>
        processAttrsGo tag strict imgAllowed restA
          { st with acc := st.acc ++ [("href", safe)], keptHref := true }
      | none =>
        processAttrsGo tag strict imgAllowed restA
          { st with acc := st.acc ++ [(name, value)], keptHref := false }
    else if tag == "img" && nameL == "src" then
      if !imgAllowed then { st with imgKill := true }
      else
        match sanitizeUrl value strict with
        | some safe =>
          processAttrsGo tag strict imgAllowed restA
            { st with acc := st.acc ++ [("src", safe)], keptSrc := true }
        | none =>
          processAttrsGo tag strict imgAllowed restA
            { st with acc := st.acc ++ [(name, value)], keptSrc := false }
    else
      processAttrsGo tag strict imgAllowed restA { st with removed := st.removed + 1 }

/-- Run the attribute loop from the initial scan state. -/
def processAttrs (tag : String) (strict imgAllowed : Bool)
    (attrs : List (String × String)) : AttrScan :=
  processAttrsGo tag strict imgAllowed attrs ⟨[], false, false, 0, false⟩

/-- The separator text node inserted when a table-structure element is
unwrapped while `keepTables` is false. -/
def bfsTableSep (keepTables : Bool) (tag : String) (nid : Nat) : Option DNode :=
  if keepTables then none
  else if tag == "tr" then some (.text nid "\n")
  else if tag == "td" || tag == "th" then some (.text nid " ")
  else none

/-- One iteration of the BFS loop body: dequeue `i`, then either skip a
non-element, unwrap a non-whitelisted element (re-enqueueing its moved
children), or run the attribute pass with its post-attribute enforcement
(anchor stripping, image removal) and enqueue the children. -/
def bfsStep (allowed : List String) (strict keepTables : Bool)
    (i : Nat) (rest : List Nat) (st0 : BfsState) : BfsState :=
  let st := { st0 with queue := rest, dequeued := st0.dequeued ++ [i] }
  match findN st.tree i with
  | none => st
  | some (.text _ _) => st
  | some (.comment _ _) => st
  | some (.elem _ tag attrs children) =>
    if i != st.tree.nid && !(allowed.contains tag) then
      let sep := bfsTableSep keepTables tag st.nextId
      { st with tree := unwrapAtN st.tree i sep,
                nextId := if sep.isSome then st.nextId + 1 else st.nextId,
                unwrappedNodes := st.unwrappedNodes + 1,
                queue := rest ++ children.map DNode.nid,
                touched := st.touched ++ [i] }
    else
      let imgAllowed := allowed.contains "img"
      let r := processAttrs tag strict imgAllowed attrs
      if r.imgKill then
        { st with tree := removeByIdN st.tree i,
                  removedNodes := st.removedNodes + 2,
                  removedAttrs := st.removedAttrs + r.removed,
                  touched := st.touched ++ [i] }
      else if tag == "a" && !r.keptHref then
        { st with tree := unwrapAtN (setAttrsAtN st.tree i r.acc) i none,
                  strippedLinks := st.strippedLinks + 1,
                  removedAttrs := st.removedAttrs + r.removed,
                  touched := st.touched ++ [i] }
      else if tag == "img" && (!imgAllowed || !r.keptSrc) then
        { st with tree := removeByIdN (setAttrsAtN st.tree i r.acc) i,
                  removedNodes := st.removedNodes + 1,
                  removedAttrs := st.removedAttrs + r.removed,
                  touched := st.touched ++ [i] }
      else
        { st with tree := setAttrsAtN st.tree i r.acc,
                  removedAttrs := st.removedAttrs + r.removed,
                  queue := rest ++ children.map DNode.nid,
                  touched := st.touched ++ [i] }

/-- The BFS loop: `while (queue.length && processed++ < maxDepth)`.  The
fuel is exactly the remaining budget, so the body runs at most `maxDepth`
times. -/
def bfsRun (allowed : List String) (strict keepTables : Bool) :
    Nat → BfsState → BfsState
  | 0, st => st
  | fuel + 1, st =>
    match st.queue with
    | [] => st
    | i :: rest => bfsRun allowed strict keepTables fuel (bfsStep allowed strict keepTables i rest st)

mutual

/-- The largest id occurring in a subtree. -/
def maxIdN : DNode → Nat
  | .elem i _ _ cs => Nat.max i (maxIdL cs)
  | .text i _ => i
  | .comment i _ => i

/-- `maxIdN` over a child list. -/
def maxIdL : List DNode → Nat
  | [] => 0
  | n :: rest => Nat.max (maxIdN n) (maxIdL rest)

end

/-! ### Empty-node pruning (pass 4) -/

/-- `isMeaningful` of the source: `br` always; `ul`/`ol` when an `li`
descendant remains; `img` when allowed and carrying a non-empty `src`;
anything else when its zero-width-stripped, trimmed text is non-empty. -/
def isMeaningful (allowed : List String) (n : DNode) : Bool :=
  let tag := n.tagOf
  if tag == "br" then true
  else if tag == "ul" || tag == "ol" then countTagDesc n "li" != 0
  else if tag == "img" then
    allowed.contains "img" &&
      (match getAttr n "src" with
       | some v => !(v == "")
       | none => false)
  else !(trimChars (stripZeroWidth (textContentN n).data)).isEmpty

/-- Pass 4: collect elements budget-bounded, then walk the collected list
in reverse document order, removing each still-present whitelisted element
that is not meaningful (children are thereby evaluated before their
parents).  Non-whitelisted survivors are skipped.  Returns the tree and
the `emptyNodes` count. -/
def prunePass (allowed : List String) (root : DNode) (max : Nat) : DNode × Nat :=
  (collectElements root max).reverse.foldl
    (fun st i =>
      match findN st.fst i with
      | some n =>
        if !(allowed.contains n.tagOf) then st
        else if isMeaningful allowed n then st
        else (removeByIdN st.fst i, st.snd + 1)
      | none => st)
    (root, 0)

/-! ### Whitespace normalisation (pass 5) -/

mutual

/-- Replace every `br` element by a literal newline text node (the id of
the created node is immaterial after pass 4; `0` is used). -/
def replaceBrN : DNode → DNode
  | .elem a t at_ cs => .elem a t at_ (replaceBrL cs)
  | n => n

/-- `replaceBrN` over a child list. -/
def replaceBrL : List DNode → List DNode
  | [] => []
  | n :: rest =>
    if n.tagOf == "br" then .text 0 "\n" :: replaceBrL rest
    else replaceBrN n :: replaceBrL rest

end

/-- Ensure a leading and trailing newline text node around the content of
one block element whose first or last child is not already text. -/
def blockNewlineFix (cs : List DNode) : List DNode :=
  let cs1 :=
    match cs with
    | [] => []
    | first :: _ => if first.isText then cs else DNode.text 0 "\n" :: cs
  match cs1.getLast? with
  | none => cs1
  | some last => if last.isText then cs1 else cs1 ++ [DNode.text 0 "\n"]

mutual

/-- Apply `blockNewlineFix` to every element with the given tag. -/
def addBlockNewlinesN : String → DNode → DNode
  | tag, .elem a t at_ cs =>
    let cs2 := addBlockNewlinesL tag cs
    .elem a t at_ (if t == tag then blockNewlineFix cs2 else cs2)
  | _, n => n

/-- `addBlockNewlinesN` over a child list. -/
def addBlockNewlinesL : String → List DNode → List DNode
  | _, [] => []
  | tag, n :: rest => addBlockNewlinesN tag n :: addBlockNewlinesL tag rest

end

/-- The block-level tags of pass 5 (`div` deliberately excluded). -/
def blockTagsList : List String :=
  ["p", "ul", "ol", "li", "h1", "h2", "h3", "h4", "h5", "h6",
   "table", "thead", "tbody", "tr", "th", "td"]

/-! ### The reducer -/

/-- The fixed statistics counters of `PageCleaningResult`. -/
structure CleanStats where
  removedNodes : Nat
  unwrappedNodes : Nat
  removedAttrs : Nat
  strippedLinks : Nat
  emptyNodes : Nat
  removedComments : Nat
deriving Repr

/-- `PageCleaningResult` of the source (the `html` field is the reduced
fragment; minimal-text output is a separate entry point here, as in the
module under verification). -/
structure PageCleaningResult where
  html : String
  textLength : Nat
  stats : CleanStats
deriving Repr

/-- `cleanDocumentForLLM`, over the body element of the parsed document
and fully merged options.  The passes mirror the source in order:
comment removal; noise and media removal; the breadth-first
unwrap / attribute pass; empty-node pruning; comment removal again;
`br`-to-newline conversion and block-boundary newline insertion;
serialization with whitespace collapsing, `<br>` restoration, empty-pair
removal and the `<li>` line break; and the `textLength` statistic. -/
def cleanDocumentForLLM (body : DNode) (o : CleanOptions) : PageCleaningResult :=
  let allowed := effectiveAllowedTags o
  let rc1 := removeCommentsN body
  let noiseCount := countMatchesL rc1.fst.childList matchesNoise
  let body2 := removeMatchingN rc1.fst matchesNoise
  let mediaPred := if o.dropMedia then matchesMedia else matchesMediaKept allowed
  let mediaCount := countMatchesL body2.childList mediaPred
  let body3 := removeMatchingN body2 mediaPred
  let st0 : BfsState := ⟨body3, [body3.nid], maxIdN body3 + 1, [], [], 0, 0, 0, 0⟩
  let stF := bfsRun allowed o.strictUrls o.keepTables o.maxDepth st0
  let pp := prunePass allowed stF.tree o.maxDepth
  let rc2 := removeCommentsN pp.fst
  let body5 := blockTagsList.foldl (fun t tag => addBlockNewlinesN tag t) (replaceBrN rc2.fst)
  let out0 := innerHTMLOf body5
  let out1 := trimChars (collapseNls (collapseSpaces (collapseNlWs out0.data)))
  let out2 := restoreBr out1
  let out3 := newlineBeforeLi (removeEmptyH (removeEmptyP (removeEmptyLi (removeEmptyUlOl out2))))
  let outF := String.mk (trimChars out3)
  { html := outF,
    textLength := textLengthOf outF,
    stats :=
      { removedNodes := noiseCount + mediaCount + stF.removedNodes,
        unwrappedNodes := stF.unwrappedNodes,
        removedAttrs := stF.removedAttrs,
        strippedLinks := stF.strippedLinks,
        emptyNodes := pp.snd,
        removedComments := rc1.snd + rc2.snd } }

/-! ### The minimal-text renderer (`htmlToMinimalText.ts`)

The renderer only reads the document, so it is embedded in state-passing
style: the document is a store threaded through every walker alongside the
node being walked (nodes double as references, which is sound because no
walker mutates).  Each walker returns its value together with the store as
it leaves it; the frame theorem for the renderer states that the final
store is the input document. -/

/-- `headingStyle` of `MinimalTextOptions` (the source strings `hash` and
`prefix`). -/
inductive HeadingStyle where
  | hash
  | fixed
deriving Repr, DecidableEq

/-- `MinimalTextOptions`, fully merged with its defaults.  The source
field `headingPrefix` is called `headingPrefixStr` here. -/
structure MinimalTextOptions where
  headingStyle : HeadingStyle
  headingPrefixStr : String
  listMarker : String
  tableCellSeparator : String
deriving Repr

/-- `DEFAULT_OPTIONS` of the renderer. -/
def defaultMinimalTextOptions : MinimalTextOptions :=
  ⟨.hash, "#", "-", "\t"⟩

/-- `BLOCK_TAGS` of the renderer. -/
def rendererBlockTags : List String :=
  ["h1", "h2", "h3", "h4", "h5", "h6", "p", "ul", "ol", "li",
   "table", "thead", "tbody", "tfoot", "tr", "th", "td"]

/-- `isBlockElement`. -/
def isBlockElement (n : DNode) : Bool :=
  n.isElem && rendererBlockTags.contains n.tagOf

/-- `isListElement`. -/
def isListElement (n : DNode) : Bool :=
  n.tagOf == "ul" || n.tagOf == "ol"

/-- Scanner for the replace of `/\s+/g` by a single space. -/
def collapseWsRunsGo : Bool → List Char → List Char
  | _, [] => []
  | inRun, c :: cs =>
    if isWsChar c then
      (if inRun then collapseWsRunsGo true cs else ' ' :: collapseWsRunsGo true cs)
    else c :: collapseWsRunsGo false cs

/-- `normalizeInline`: collapse whitespace runs to single spaces, trim. -/
def normalizeInline (s : String) : String :=
  jsTrim (String.mk (collapseWsRunsGo false s.data))

/-- Split a character list on newlines. -/
def splitNlGo (acc : List Char) : List Char → List (List Char)
  | [] => [acc.reverse]
  | c :: cs => if c == '\n' then acc.reverse :: splitNlGo [] cs else splitNlGo (c :: acc) cs

/-- `splitAndNormalize`: split on newlines, normalise each line, drop the
empty ones. -/
def splitAndNormalize (s : String) : List String :=
  ((splitNlGo [] s.data).map
    (fun l => String.mk (trimChars (collapseWsRunsGo false l)))).filter
    (fun p => !p.isEmpty)

/-- `pushSeparator`: push one empty line unless the output is empty or
already ends with an empty line. -/
def pushSeparator (lines : List String) : List String :=
  if lines.isEmpty then lines
  else if lines.getLast? == some "" then lines
  else lines ++ [""]

/-- `appendTextLines`: push the normalised lines of `text`, the first one
carrying the given marker text. -/
def appendTextLines (lines : List String) (text : String) (pre : String) : List String :=
  match splitAndNormalize text with
  | [] => lines
  | p :: rest => (lines ++ [pre ++ p]) ++ rest

/-- `#`.repeat of the clamped heading level. -/
def hashesFor (level : Nat) : String :=
  String.mk (List.replicate (Nat.min (Nat.max level 1) 6) '#')

/-- `headingLine`. -/
def headingLine (opts : MinimalTextOptions) (lines : List String)
    (level : Nat) (text : String) : List String :=
  let cleaned := normalizeInline text
  if cleaned.isEmpty then lines
  else
    match opts.headingStyle with
    | .fixed => lines ++ [opts.headingPrefixStr ++ " " ++ cleaned]
    | .hash => lines ++ [hashesFor level ++ " " ++ cleaned]

mutual

/-- Descendant elements (pre-order) with one of the given tags. -/
def collectByTagsN : DNode → List String → List DNode
  | .elem a t at_ cs, tags =>
    (if tags.contains t then [.elem a t at_ cs] else []) ++ collectByTagsL cs tags
  | _, _ => []

/-- `collectByTagsN` over a child list. -/
def collectByTagsL : List DNode → List String → List DNode
  | [], _ => []
  | n :: rest, tags => collectByTagsN n tags ++ collectByTagsL rest tags

end

/-- The digit of a heading tag (`Number(tag[1])`). -/
def headingLevelOf (tag : String) : Nat :=
  match tag.data with
  | _ :: d :: _ => d.toNat - '0'.toNat
  | _ => 0

/-- Join strings with a separator (`Array.prototype.join`). -/
def joinSep (sep : String) : List String → String
  | [] => ""
  | [l] => l
  | l :: rest => l ++ sep ++ joinSep sep rest

mutual

/-- `textFromInline` in state-passing style: text nodes yield their
content, `br` yields a newline, other elements concatenate their
children, everything else yields the empty string. -/
def textFromInlineM : DNode → DNode → String × DNode
  | .text _ s, store => (s, store)
  | .comment _ _, store => ("", store)
  | .elem _ t _ cs, store =>
    if t == "br" then ("\n", store)
    else
      let r := textFromInlineLM cs store
      (r.fst, r.snd)

/-- `textFromInlineM` over a child list. -/
def textFromInlineLM : List DNode → DNode → String × DNode
  | [], store => ("", store)
  | n :: rest, store =>
    let r1 := textFromInlineM n store
    let r2 := textFromInlineLM rest r1.snd
    (r1.fst ++ r2.fst, r2.snd)

end

/-- One table row: the normalised texts of its `th`/`td` descendants, the
non-empty ones joined with the cell separator; an empty row yields no
line. -/
def tableRowLineM (opts : MinimalTextOptions) (row : DNode) (store : DNode) :
    String × DNode :=
  let cells := collectByTagsL row.childList ["th", "td"]
  let r := cells.foldl
    (fun (acc : List String × DNode) cell =>
      let rc := textFromInlineM cell acc.snd
      (acc.fst ++ [normalizeInline rc.fst], rc.snd))
    ([], store)
  (joinSep opts.tableCellSeparator (r.fst.filter (fun s => !s.isEmpty)), r.snd)

/-- `handleTable`: one line per non-empty row. -/
def handleTableM (opts : MinimalTextOptions) (lines : List String)
    (tableEl : DNode) (store : DNode) : List String × DNode :=
  (collectByTagsL tableEl.childList ["tr"]).foldl
    (fun (acc : List String × DNode) row =>
      let rl := tableRowLineM opts row acc.snd
      (if rl.fst.isEmpty then acc.fst else acc.fst ++ [rl.fst], rl.snd))
    (lines, store)

/-- The first loop of `handleListItem`: concatenate the inline text of the
child nodes, skipping nested list elements. -/
def inlineOfItemM : List DNode → DNode → String × DNode
  | [], store => ("", store)
  | child :: rest, store =>
    if child.isElem && isListElement child then inlineOfItemM rest store
    else
      let r1 := textFromInlineM child store
      let r2 := inlineOfItemM rest r1.snd
      (r1.fst ++ r2.fst, r2.snd)

mutual

/-- `handleList`: handle each `li` element child.  The loop over
`listEl.children` is realised by walking the child list and skipping
non-`li` nodes (text and comment nodes have no tag, so the `li` check
also excludes them, as `children` does in the source). -/
def handleListM : MinimalTextOptions → List String → DNode → DNode → List String × DNode
  | opts, lines, .elem _ _ _ cs, store => handleListChildrenM opts lines cs store
  | _, lines, _, store => (lines, store)
termination_by structural _ _ el _ => el

/-- The `li` loop of `handleListM`. -/
def handleListChildrenM : MinimalTextOptions → List String → List DNode → DNode → List String × DNode
  | _, lines, [], store => (lines, store)
  | opts, lines, li :: rest, store =>
    if li.tagOf == "li" then
      let r := handleListItemM opts lines li store
      handleListChildrenM opts r.fst rest r.snd
    else handleListChildrenM opts lines rest store
termination_by structural _ _ cs _ => cs

/-- `handleListItem`: the direct inline text of the item (nested lists
excluded) as a marker-prefixed line group, then recursion into the nested
lists among the children (the `isListElement` test excludes the non-list
and non-element children). -/
def handleListItemM : MinimalTextOptions → List String → DNode → DNode → List String × DNode
  | opts, lines, .elem _ _ _ cs, store =>
    let ri := inlineOfItemM cs store
    let lines1 := appendTextLines lines ri.fst (opts.listMarker ++ " ")
    nestedListsM opts lines1 cs ri.snd
  | _, lines, _, store => (lines, store)
termination_by structural _ _ li _ => li

/-- The second loop of `handleListItem`: recurse into nested lists. -/
def nestedListsM : MinimalTextOptions → List String → List DNode → DNode → List String × DNode
  | _, lines, [], store => (lines, store)
  | opts, lines, child :: rest, store =>
    if isListElement child then
      let r := handleListM opts lines child store
      nestedListsM opts r.fst rest r.snd
    else nestedListsM opts lines rest store
termination_by structural _ _ cs _ => cs

end

/-- `handleBlock`: dispatch on the block tag. -/
def handleBlockM (opts : MinimalTextOptions) (lines : List String)
    (el : DNode) (store : DNode) : List String × DNode :=
  let tag := el.tagOf
  if tag == "h1" || tag == "h2" || tag == "h3" || tag == "h4" || tag == "h5" || tag == "h6" then
    let r := textFromInlineM el store
    (headingLine opts lines (headingLevelOf tag) r.fst, r.snd)
  else if tag == "p" then
    let r := textFromInlineM el store
    (appendTextLines lines r.fst "", r.snd)
  else if tag == "ul" || tag == "ol" then
    handleListM opts lines el store
  else if tag == "li" then
    handleListItemM opts lines el store
  else if tag == "table" then
    handleTableM opts lines el store
  else
    let r := textFromInlineM el store
    (appendTextLines lines r.fst "", r.snd)

/-- `processChildrenAsBlocks`: walk the child nodes of the body, buffering
runs of inline content and flushing them at block boundaries. -/
def processBlocksM (opts : MinimalTextOptions) :
    List DNode → String → List String → DNode → List String × DNode
  | [], buffer, lines, store =>
    (if !(jsTrim buffer).isEmpty then appendTextLines lines buffer "" else lines, store)
  | child :: rest, buffer, lines, store =>
    if isBlockElement child then
      let lines1 :=
        if !(jsTrim buffer).isEmpty then pushSeparator (appendTextLines lines buffer "")
        else lines
      let r := handleBlockM opts lines1 child store
      processBlocksM opts rest "" (pushSeparator r.fst) r.snd
    else
      let rt := textFromInlineM child store
      processBlocksM opts rest (buffer ++ rt.fst) lines rt.snd

/-- `collapseBlankLines`. -/
def collapseBlankLinesGo (out : List String) : List String → List String
  | [] => out
  | line :: rest =>
    if line == "" then
      if out.isEmpty || out.getLast? == some "" then collapseBlankLinesGo out rest
      else collapseBlankLinesGo (out ++ [""]) rest
    else collapseBlankLinesGo (out ++ [line]) rest

/-- Join lines with newlines. -/
def joinLines : List String → String
  | [] => ""
  | [l] => l
  | l :: rest => l ++ "\n" ++ joinLines rest

/-- `documentToMinimalText` in state-passing style: the rendered string
together with the document as the renderer leaves it. -/
def documentToMinimalTextM (body : DNode) (opts : MinimalTextOptions) :
    String × DNode :=
  let r := processBlocksM opts body.childList "" [] body
  (jsTrim (joinLines (collapseBlankLinesGo [] r.fst)), r.snd)

/-- `documentToMinimalText`: the rendered string. -/
def documentToMinimalText (body : DNode) (opts : MinimalTextOptions) : String :=
  (documentToMinimalTextM body opts).fst

/-! ### JSON values (`extractJsonLdRecipes.ts`)

Parsed JSON-LD blocks.  `JSON.parse` itself is host-library code, so the
extractor below is parametrised by an arbitrary parser
`String → Option Json`, with `none` modelling a parse exception.  The
recursive walks of the source have no explicit bound (they recurse on the
call stack); they are embedded with a fuel argument instantiated with the
size of the value, which dominates every recursion depth, and every
theorem about them holds for every fuel. -/

inductive Json where
  | null
  | bool (b : Bool)
  | num (n : Int)
  | str (s : String)
  | arr (items : List Json)
  | obj (fields : List (String × Json))
deriving Repr

/-- JavaScript falsiness of a JSON value (`!node`). -/
def isFalsy : Json → Bool
  | .null => true
  | .bool b => !b
  | .num n => n == 0
  | .str s => s.isEmpty
  | _ => false

/-- Property access on an object (`record[key]`); `none` is `undefined`.
Objects produced by `JSON.parse` have unique keys, so the first match is
the match. -/
def getField (fields : List (String × Json)) (key : String) : Option Json :=
  match fields.find? (fun f => f.fst == key) with
  | some f => some f.snd
  | none => none

mutual

/-- `String(x)` on a JSON value (arrays join their members with commas,
null members becoming empty; objects print as `[object Object]`). -/
def jsToString : Json → String
  | .null => "null"
  | .bool b => cond b "true" "false"
  | .num n => toString n
  | .str s => s
  | .arr items => jsToStringArr items
  | .obj _ => "[object Object]"

/-- The comma join of `Array.prototype.toString`. -/
def jsToStringArr : List Json → String
  | [] => ""
  | [j] => jsToStringElem j
  | j :: rest => jsToStringElem j ++ "," ++ jsToStringArr rest

/-- One array member under `join`: null prints empty. -/
def jsToStringElem : Json → String
  | .null => ""
  | j => jsToString j

end

/-- A brace character, kept out of string literals. -/
def openBrace : String := String.mk [Char.ofNat 123]

/-- The closing brace character. -/
def closeBrace : String := String.mk [Char.ofNat 125]

mutual

/-- Model of `JSON.stringify` (compact form; string escaping limited to
quotes and backslashes, which is all the fallback path below ever
serialises in practice). -/
def jsonStringify : Json → String
  | .null => "null"
  | .bool b => cond b "true" "false"
  | .num n => toString n
  | .str s => "\"" ++ String.mk (s.data.foldr (fun c acc =>
      (if c == '"' || c == '\\' then ['\\', c] else [c]) ++ acc) []) ++ "\""
  | .arr items => "[" ++ jsonStringifyL items ++ "]"
  | .obj fields => openBrace ++ jsonStringifyF fields ++ closeBrace

/-- Stringify array members. -/
def jsonStringifyL : List Json → String
  | [] => ""
  | [j] => jsonStringify j
  | j :: rest => jsonStringify j ++ "," ++ jsonStringifyL rest

/-- Stringify object fields. -/
def jsonStringifyF : List (String × Json) → String
  | [] => ""
  | [f] => "\"" ++ f.fst ++ "\":" ++ jsonStringify f.snd
  | f :: rest => "\"" ++ f.fst ++ "\":" ++ jsonStringify f.snd ++ "," ++ jsonStringifyF rest

end

mutual

/-- Size of a JSON value; used as fuel for the extractor walks. -/
def jsonSizeN : Json → Nat
  | .arr items => 1 + jsonSizeL items
  | .obj fields => 1 + jsonSizeF fields
  | _ => 1

/-- Size of a member list. -/
def jsonSizeL : List Json → Nat
  | [] => 0
  | j :: rest => jsonSizeN j + jsonSizeL rest

/-- Size of a field list. -/
def jsonSizeF : List (String × Json) → Nat
  | [] => 0
  | f :: rest => 1 + jsonSizeN f.snd + jsonSizeF rest

end

/-- `normalizeType`: falsy types yield no names, arrays stringify their
members, anything else stringifies alone. -/
def normalizeType (t : Option Json) : List String :=
  match t with
  | none => []
  | some j =>
    if isFalsy j then []
    else match j with
      | .arr items => items.map jsToString
      | _ => [jsToString j]

/-- One of the four admissible Schema.org context URLs. -/
def isSchemaOrgString (j : Json) : Bool :=
  match j with
  | .str s =>
    s == "https://schema.org" || s == "https://schema.org/" ||
    s == "http://schema.org" || s == "http://schema.org/"
  | _ => false

/-- `isSchemaOrgContext`: absent or falsy contexts are allowed; a matching
string, an array holding a matching string or an object whose `@vocab`
matches, or a lone object whose `@vocab` matches. -/
def isSchemaOrgContext (context : Option Json) : Bool :=
  match context with
  | none => true
  | some c =>
    if isFalsy c then true
    else if isSchemaOrgString c then true
    else match c with
      | .arr entries =>
        entries.any (fun entry =>
          isSchemaOrgString entry ||
          (match entry with
           | .obj fields =>
             (match getField fields "@vocab" with
              | some v => isSchemaOrgString v
              | none => false)
           | .arr _ => false
           | _ => false))
      | .obj fields =>
        (match getField fields "@vocab" with
         | some v => isSchemaOrgString v
         | none => false)
      | _ => false

/-- `arrayHasSchemaOrgContext`: some member that is object-shaped (array
members included, whose missing `@context` counts as allowed). -/
def arrayHasSchemaOrgContext (nodes : List Json) : Bool :=
  nodes.any (fun entry =>
    match entry with
    | .obj fields => isSchemaOrgContext (getField fields "@context")
    | .arr _ => isSchemaOrgContext none
    | _ => false)

/-- `cleanText`: drop zero-width characters, collapse whitespace runs,
strip a leading run of dashes, bullets and whitespace, trim. -/
def cleanText (t : String) : String :=
  let s1 := stripZeroWidth t.data
  let s2 := collapseWsRunsGo false s1
  let s3 := s2.dropWhile (fun c =>
    c == '-' || c.toNat == 0x2013 || c.toNat == 0x2022 || isWsChar c)
  String.mk (trimChars s3)

/-- The structural keys searched for nested recipes. -/
def nestedKeys : List String :=
  ["mainEntity", "mainEntityOfPage", "hasPart", "subjectOf", "about",
   "itemListElement", "itemList", "isPartOf"]

/-- The extractor state: found recipe nodes and the seen `@id` strings. -/
structure ExtractState where
  recipes : List Json
  seenIds : List String
deriving Repr

/-- `addRecipe`: push unless a string `@id` was already seen; record a
string `@id` once pushed. -/
def addRecipe (recipe : Json) (st : ExtractState) : ExtractState :=
  let idv :=
    match recipe with
    | .obj fields => getField fields "@id"
    | _ => none
  match idv with
  | some (.str s) =>
    if st.seenIds.contains s then st
    else { recipes := st.recipes ++ [recipe], seenIds := st.seenIds ++ [s] }
  | _ => { st with recipes := st.recipes ++ [recipe] }

/-- `addIfRecipe` (with `addNestedIfRecipe` inlined as the final fold):
walk a JSON value, tracking whether a Schema.org context has been seen,
and add every Recipe-typed node encountered.  The fuel dominates the
recursion depth; `findJsonLdRecipesFromTexts` instantiates it with the
size of the value. -/
def addIfRecipe : Nat → Json → Bool → ExtractState → ExtractState
  | 0, _, _, st => st
  | fuel + 1, node, ctxAllowed, st =>
    if isFalsy node then st
    else match node with
    | .arr items =>
      let inherited := ctxAllowed || arrayHasSchemaOrgContext items
      items.foldl (fun s n => addIfRecipe fuel n inherited s) st
    | .obj fields =>
      let allowCtx := ctxAllowed || isSchemaOrgContext (getField fields "@context")
      if !allowCtx then st
      else
        let st1 :=
          if (normalizeType (getField fields "@type")).contains "Recipe" then
            addRecipe (.obj fields) st
          else st
        let st2 :=
          match getField fields "@graph" with
          | some (.arr gs) => gs.foldl (fun s g => addIfRecipe fuel g allowCtx s) st1
          | _ => st1
        nestedKeys.foldl
          (fun s key =>
            match getField fields key with
            | some (.arr entries) => entries.foldl (fun s2 e => addIfRecipe fuel e allowCtx s2) s
            | some (.obj f2) => addIfRecipe fuel (.obj f2) allowCtx s
            | _ => s)
          st2
    | _ => st

/-! ### Recipe normalisation -/

/-- The normalised `Recipe` record. -/
structure Recipe where
  name : Option String
  recipeYield : Option String
  recipeIngredients : List String
  recipeInstructions : List String
deriving Repr, DecidableEq

/-- `record[k]` exists (the JavaScript `in` test). -/
def hasField (fields : List (String × Json)) (key : String) : Bool :=
  (getField fields key).isSome

/-- Or-chain over strings: the first operand unless it is empty. -/
def firstNonEmpty (a b : String) : String :=
  if a.isEmpty then b else a

/-- `ingredientFromNamedObject`: a string `text` field, else a string
`name` field, else empty. -/
def ingredientFromNamedObject (item : Json) : String :=
  match item with
  | .obj fields =>
    (match getField fields "text" with
     | some (.str s) => cleanText s
     | _ =>
       match getField fields "name" with
       | some (.str s) => cleanText s
       | _ => "")
  | _ => ""

/-- `ingredientFromUnknownObject`: a string `@id`, else the JSON
serialisation. -/
def ingredientFromUnknownObject (item : Json) : String :=
  match item with
  | .obj fields =>
    (match getField fields "@id" with
     | some (.str s) => cleanText s
     | _ => cleanText (jsonStringify (.obj fields)))
  | .arr items => cleanText (jsonStringify (.arr items))
  | _ => ""

mutual

/-- `normalizeRecipeIngredientItem`.  Object-shaped items run through the
`ingredientFromRole`, named-object and unknown-object fallbacks in order,
the first non-empty result winning (the JavaScript string-or chain). -/
def normalizeItem : Nat → Json → String
  | 0, _ => ""
  | fuel + 1, item =>
    if isFalsy item then ""
    else match item with
    | .str s => cleanText s
    | .arr items =>
      firstNonEmpty (ingredientFromRoleF fuel (.arr items))
        (firstNonEmpty (ingredientFromNamedObject (.arr items))
          (ingredientFromUnknownObject (.arr items)))
    | .obj fields =>
      firstNonEmpty (ingredientFromRoleF fuel (.obj fields))
        (firstNonEmpty (ingredientFromNamedObject (.obj fields))
          (ingredientFromUnknownObject (.obj fields)))
    | other => cleanText (jsToString other)

/-- `ingredientFromRole`: when the item is Role-typed or carries a
`recipeIngredient` key, extract from that key (string, array joined by a
space, or named object). -/
def ingredientFromRoleF : Nat → Json → String
  | 0, _ => ""
  | fuel + 1, item =>
    match item with
    | .obj fields =>
      let type := normalizeType (getField fields "@type")
      if type.contains "Role" || hasField fields "recipeIngredient" then
        match getField fields "recipeIngredient" with
        | some (.str s) => cleanText s
        | some (.arr parts) =>
          cleanText (joinSep " "
            ((parts.map (fun entry => normalizeItem fuel entry)).filter (fun p => !p.isEmpty)))
        | some (.obj f2) =>
          if isFalsy (.obj f2) then "" else ingredientFromNamedObject (.obj f2)
        | _ => ""
      else ""
    | _ => ""

end

/-- `normalizeRecipeIngredients`. -/
def normalizeRecipeIngredients (v : Option Json) : List String :=
  match v with
  | none => []
  | some j =>
    if isFalsy j then []
    else match j with
    | .arr items =>
      (items.map (fun item => normalizeItem (jsonSizeN item + 1) item)).filter
        (fun s => !s.isEmpty)
    | single =>
      let s := normalizeItem (jsonSizeN single + 1) single
      if s.isEmpty then [] else [s]

/-- Cleaned instruction push: empty-after-cleaning strings are dropped. -/
def pushClean (s : String) : List String :=
  let t := cleanText s
  if t.isEmpty then [] else [t]

/-- `x.text || x.name || ''` over one `itemListElement` member of a
`HowToStep`. -/
def entryTextOrName (j : Json) : String :=
  match j with
  | .obj fields =>
    (match getField fields "text" with
     | some t =>
       if !isFalsy t then jsToString t
       else
         (match getField fields "name" with
          | some n => if !isFalsy n then jsToString n else ""
          | none => "")
     | none =>
       match getField fields "name" with
       | some n => if !isFalsy n then jsToString n else ""
       | none => "")
  | _ => ""

/-- The `walk` of `flattenInstructions`. -/
def walkInstr : Nat → Json → List String
  | 0, _ => []
  | fuel + 1, node =>
    if isFalsy node then []
    else match node with
    | .str s => pushClean s
    | .arr items => items.flatMap (fun n => walkInstr fuel n)
    | .obj fields =>
      let type := normalizeType (getField fields "@type")
      let ile := getField fields "itemListElement"
      let ileTruthy :=
        match ile with
        | some j => !isFalsy j
        | none => false
      if ileTruthy && (type.contains "HowToSection" || type.contains "ItemList" || type.isEmpty) then
        match ile with
        | some (.arr items) => items.flatMap (fun n => walkInstr fuel n)
        | some j => walkInstr fuel j
        | none => []
      else
        match getField fields "text" with
        | some (.str s) => pushClean s
        | _ =>
          let name := getField fields "name"
          let nameTruthy :=
            match name with
            | some j => !isFalsy j
            | none => false
          if type.contains "HowToStep" && nameTruthy && ileTruthy then
            pushClean
              ((match name with | some n => jsToString n | none => "") ++ ": " ++
               (match ile with
                | some (.arr items) => joinSep " " (items.map entryTextOrName)
                | some j => jsToString j
                | none => ""))
          else
            match name with
            | some (.str s) => pushClean s
            | _ => []
    | _ => []

/-- `flattenInstructions`. -/
def flattenInstructions (v : Option Json) : List String :=
  match v with
  | none => []
  | some j => walkInstr (jsonSizeN j + 1) j

/-- `name?.toString()`: absent and null yield nothing, everything else its
string form. -/
def optionalToString (v : Option Json) : Option String :=
  match v with
  | none => none
  | some .null => none
  | some j => some (jsToString j)

/-- `normalizeJsonLdRecipe`. -/
def normalizeJsonLdRecipe (r : Json) : Recipe :=
  let fields :=
    match r with
    | .obj fs => fs
    | _ => []
  let recipeIngredients := normalizeRecipeIngredients (getField fields "recipeIngredient")
  let legacyIngredients := normalizeRecipeIngredients (getField fields "ingredients")
  { name := optionalToString (getField fields "name"),
    recipeYield := optionalToString (getField fields "recipeYield"),
    recipeIngredients :=
      if recipeIngredients.length != 0 then recipeIngredients else legacyIngredients,
    recipeInstructions := flattenInstructions (getField fields "recipeInstructions") }

/-! ### Script selection and the extractor entry points -/

/-- Is this a JSON-LD script element
(`script[type^="application/ld+json" i]`)? -/
def isJsonLdScript (n : DNode) : Bool :=
  n.tagOf == "script" &&
    (match getAttr n "type" with
     | some v => beginsWith (lowerAscii v).data "application/ld+json".data
     | none => false)

mutual

/-- The JSON-LD script elements of a document in document order, as their
text contents. -/
def scriptTextsN : DNode → List String
  | .elem a t at_ cs =>
    (if isJsonLdScript (.elem a t at_ cs) then [textContentL cs] else []) ++ scriptTextsL cs
  | _ => []

/-- `scriptTextsN` over a child list. -/
def scriptTextsL : List DNode → List String
  | [] => []
  | n :: rest => scriptTextsN n ++ scriptTextsL rest

end

/-- The per-block step of `findJsonLdRecipes`: trim the block text, skip
empty blocks, parse, skip blocks whose parse fails, and walk the parsed
value with no context seen yet. -/
def jsonLdBlockStep (parse : String → Option Json) (st : ExtractState) (text : String) :
    ExtractState :=
  let t := jsTrim text
  if t.isEmpty then st
  else
    match parse t with
    | none => st
    | some j => addIfRecipe (jsonSizeN j + 1) j false st

/-- `findJsonLdRecipes` over the list of script block texts. -/
def findJsonLdRecipesFromTexts (parse : String → Option Json) (texts : List String) :
    List Json :=
  (texts.foldl (jsonLdBlockStep parse) ⟨[], []⟩).recipes

/-- `extractJsonLdRecipes`: find the recipe nodes of the document and
normalise each. -/
def extractJsonLdRecipes (parse : String → Option Json) (doc : DNode) : List Recipe :=
  (findJsonLdRecipesFromTexts parse (scriptTextsN doc)).map normalizeJsonLdRecipe

/-! ### Candidate collection and first-wins deduplication

To state the deduplication claim, the traversal of `addIfRecipe` is
replayed without its seen-set: `collectRecipeNodes` lists, in encounter
order, exactly the nodes on which `addRecipe` is invoked, and `dedupGo`
is the first-occurrence-wins filter of `addRecipe`.  The theorems below
prove that the extractor equals this collect-then-dedup composition. -/

/-- The string `@id` of a node, when it has one. -/
def jidOf (j : Json) : Option String :=
  match j with
  | .obj fields =>
    (match getField fields "@id" with
     | some (.str s) => some s
     | _ => none)
  | _ => none

/-- The traversal of `addIfRecipe`, collecting the would-be `addRecipe`
arguments in order instead of threading the extractor state. -/
def collectRecipeNodes : Nat → Json → Bool → List Json
  | 0, _, _ => []
  | fuel + 1, node, ctxAllowed =>
    if isFalsy node then []
    else match node with
    | .arr items =>
      let inherited := ctxAllowed || arrayHasSchemaOrgContext items
      items.flatMap (fun n => collectRecipeNodes fuel n inherited)
    | .obj fields =>
      let allowCtx := ctxAllowed || isSchemaOrgContext (getField fields "@context")
      if !allowCtx then []
      else
        (if (normalizeType (getField fields "@type")).contains "Recipe" then
          [Json.obj fields]
         else []) ++
        (match getField fields "@graph" with
         | some (.arr gs) => gs.flatMap (fun g => collectRecipeNodes fuel g allowCtx)
         | _ => []) ++
        nestedKeys.flatMap
          (fun key =>
            match getField fields key with
            | some (.arr entries) => entries.flatMap (fun e => collectRecipeNodes fuel e allowCtx)
            | some (.obj f2) => collectRecipeNodes fuel (.obj f2) allowCtx
            | _ => [])
    | _ => []

/-- First-occurrence-wins deduplication by string `@id` (nodes without a
string `@id` always kept), together with the final seen set. -/
def dedupGo (seen : List String) : List Json → List Json × List String
  | [] => ([], seen)
  | n :: rest =>
    match jidOf n with
    | some s =>
      if seen.contains s then dedupGo seen rest
      else
        let r := dedupGo (seen ++ [s]) rest
        (n :: r.fst, r.snd)
    | none =>
      let r := dedupGo seen rest
      (n :: r.fst, r.snd)

/-- `addRecipe` folded over a list of found nodes. -/
def addRecipeFold (st : ExtractState) (ns : List Json) : ExtractState :=
  ns.foldl (fun s n => addRecipe n s) st

/-- All candidate recipe nodes of a block list, in document order. -/
def candidatesOfTexts (parse : String → Option Json) (texts : List String) : List Json :=
  texts.flatMap (fun text =>
    let t := jsTrim text
    if t.isEmpty then []
    else
      match parse t with
      | none => []
      | some j => collectRecipeNodes (jsonSizeN j + 1) j false)

/-- The successfully parsed blocks, in document order (empty and
unparsable blocks dropped). -/
def parsedBlocks (parse : String → Option Json) (texts : List String) : List Json :=
  texts.filterMap (fun text =>
    let t := jsTrim text
    if t.isEmpty then none else parse t)

/-- Extraction over a list of already-parsed values. -/
def findFromParsed (js : List Json) : List Json :=
  (js.foldl (fun st j => addIfRecipe (jsonSizeN j + 1) j false st) ⟨[], []⟩).recipes

/-! ### Observers for the budget and frame claims -/

/-- The data of a node apart from its children: kind, tag, attributes or
text payload. -/
inductive NodeData where
  | elemD (tag : String) (attrs : List (String × String))
  | textD (s : String)
  | commentD (s : String)
deriving Repr, DecidableEq

/-- The data of a node. -/
def dataOf : DNode → NodeData
  | .elem _ t a _ => .elemD t a
  | .text _ s => .textD s
  | .comment _ s => .commentD s

/-- The data of the node with id `j`, if present. -/
def findData (t : DNode) (j : Nat) : Option NodeData :=
  (findN t j).map dataOf

/-- The initial BFS state of `cleanDocumentForLLM` for a given tree. -/
def initBfsState (tree : DNode) : BfsState :=
  ⟨tree, [tree.nid], maxIdN tree + 1, [], [], 0, 0, 0, 0⟩

/-- A string with no newline characters. -/
def noNlB (s : String) : Bool :=
  s.data.all (fun c => !(c == '\n'))

/-- Three consecutive newlines: the character form of two or more
consecutive blank lines. -/
def tripleNl : List Char :=
  ['\n', '\n', '\n']

/-! ### Concrete documents for the claims -/

/-- Text-node shorthand. -/
def tn (i : Nat) (s : String) : DNode := .text i s

/-- Attribute-free-element shorthand. -/
def en (i : Nat) (t : String) (cs : List DNode) : DNode := .elem i t [] cs

/-- `<body><a href="javascript:alert(1)"><div>hi</div></a></body>`. -/
def anchorChildDoc : DNode :=
  en 0 "body" [.elem 1 "a" [("href", "javascript:alert(1)")] [en 2 "div" [tn 3 "hi"]]]

/-- `<body><a href="javascript:alert(1)">text</a></body>`. -/
def anchorTextDoc : DNode :=
  en 0 "body" [.elem 1 "a" [("href", "javascript:alert(1)")] [tn 2 "text"]]

/-- `<body><section><h2> </h2><p></p><ul><li> </li><li>Item</li></ul></section></body>`. -/
def pruningDoc : DNode :=
  en 0 "body" [en 1 "section"
    [en 2 "h2" [tn 3 " "], en 4 "p" [],
     en 5 "ul" [en 6 "li" [tn 7 " "], en 8 "li" [tn 9 "Item"]]]]

/-- The nutrition table of the table-policy scenario. -/
def tableDoc : DNode :=
  en 0 "body" [en 1 "table"
    [en 2 "thead" [en 3 "tr" [en 4 "th" [tn 5 "Nutrient"], en 6 "th" [tn 7 "Value"]]],
     en 8 "tbody" [en 9 "tr" [en 10 "td" [tn 11 "Calories"], en 12 "td" [tn 13 "100"]]]]]

/-- A one-row, two-cell table for the minimal-text renderer. -/
def smallTableDoc : DNode :=
  en 0 "body" [en 1 "table" [en 2 "tr" [en 3 "th" [tn 4 "A"], en 5 "td" [tn 6 "B"]]]]

/-- The structural minimal-text scenario document: heading, paragraph,
two-item list with a nested sublist, one-row table. -/
def minimalTextDoc : DNode :=
  en 0 "body" [
    tn 1 "\n ", en 2 "h1" [tn 3 "Title"], tn 4 "\n ",
    en 5 "p" [tn 6 "Intro"], tn 7 "\n ",
    en 8 "ul" [tn 9 "\n ",
      en 10 "li" [tn 11 "Item 1"], tn 12 "\n ",
      en 13 "li" [tn 14 "Item 2\n ", en 15 "ul" [en 16 "li" [tn 17 "Sub"]], tn 18 "\n "],
      tn 19 "\n "],
    tn 20 "\n ",
    en 21 "table" [en 22 "tr" [en 23 "th" [tn 24 "Key"], en 25 "td" [tn 26 "Value"]]],
    tn 27 "\n "]

/-- `<body><div>x</div></body>`, used to exhibit the node budget. -/
def budgetDoc : DNode :=
  en 0 "body" [en 1 "div" [tn 2 "x"]]

/-- No two adjacent empty lines. -/
def noAdjEmptyB : List String → Bool
  | a :: b :: rest => !(a == "" && b == "") && noAdjEmptyB (b :: rest)
  | _ => true

/-! ### Observers for the node-budget claim -/

/-- The ids of the subtree rooted at the node with id `j` (empty when `j`
is absent): the nodes that live below `j`, `j` included. -/
def descIdsN (t : DNode) (j : Nat) : List Nat :=
  match findN t j with
  | some n => idsN n
  | none => []

/-- `descIdsN` over a child list. -/
def descIdsL (cs : List DNode) (j : Nat) : List Nat :=
  match findL cs j with
  | some n => idsN n
  | none => []

/-- The loop invariant of the BFS pass, relative to the initial tree `t0`:
ids stay duplicate-free and below the fresh-id counter; every queued id
denotes the same subtree in the current tree as in `t0`; queued subtrees
are pairwise disjoint; no dequeued id lies in a queued subtree; and every
mutation target was dequeued. -/
def BfsInv (t0 : DNode) (st : BfsState) : Prop :=
  (idsN st.tree).Nodup ∧
  (∀ j ∈ idsN st.tree, j < st.nextId) ∧
  (∀ j ∈ st.queue, findN st.tree j = findN t0 j ∧ (findN t0 j).isSome = true) ∧
  st.queue.Pairwise (fun j k => ∀ x, x ∈ descIdsN t0 j → x ∈ descIdsN t0 k → False) ∧
  (∀ j ∈ st.queue, ∀ d ∈ st.dequeued, d ∉ descIdsN t0 j) ∧
  (∀ x ∈ st.touched, x ∈ st.dequeued)

/-! ## Theorems -/

set_option maxRecDepth 200000
set_option maxHeartbeats 1000000

/-- **C1.** Whitelist closure fails on the code: for the input
`<a href="javascript:alert(1)"><div>hi</div></a>` under default options
the anchor is stripped but its children are never re-enqueued, so the
`div` — a tag outside the effective allowed-tag set — survives into the
output unchanged (the whole output is `<div>hi</div>`).  The node budget
is nowhere near exhausted (the default is 2000 and the document has four
nodes), so this is the stripped-anchor slip itself, contradicting both
the specified whitelist-closure property and the source comment that
non-whitelisted survivors were `already unwrapped`. -/
theorem c1_whitelist_closure_violated :
    (cleanDocumentForLLM anchorChildDoc defaultCleanOptions).html = "<div>hi</div>" ∧
    strContains (cleanDocumentForLLM anchorChildDoc defaultCleanOptions).html "<div" = true ∧
    (effectiveAllowedTags defaultCleanOptions).contains "div" = false := by
  refine ⟨by decide, by decide, by decide⟩

/-- **C3.** Option processing mutates caller state: the merge makes
`opts.allowedTags` the very set supplied by the caller, and the
invocation then inserts `html` and `body` (and the table tags when
`keepTables` is true) into it.  A caller set `{p}` therefore does not
hold the same members after the call: it has gained `html` and `body`,
and gains `table` when `keepTables` is true. -/
theorem c3_caller_set_mutated :
    callerAllowedTagsAfter ["p"] false = ["p", "html", "body"] ∧
    (callerAllowedTagsAfter ["p"] false).contains "html" = true ∧
    (["p"] : List String).contains "html" = false ∧
    (callerAllowedTagsAfter ["p"] true).contains "table" = true := by
  refine ⟨by decide, by decide, by decide, by decide⟩

/-- **C5.** Empty-node pruning on
`<section><h2> </h2><p></p><ul><li> </li><li>Item</li></ul></section>`
with default options: the output contains exactly one `<li>` element,
that element is exactly `<li>Item</li>`, and the visible text of the
whole output is exactly `Item` — the blank `li`, the blank `h2` and the
empty `p` are pruned (children before parents, so the `ul` keeps its
surviving `li`), and the emptyNodes counter records the three removals. -/
theorem c5_empty_pruning :
    strCountOcc (cleanDocumentForLLM pruningDoc defaultCleanOptions).html "<li>" = 1 ∧
    strContains (cleanDocumentForLLM pruningDoc defaultCleanOptions).html "<li>Item</li>" = true ∧
    visibleText (cleanDocumentForLLM pruningDoc defaultCleanOptions).html = "Item" ∧
    (cleanDocumentForLLM pruningDoc defaultCleanOptions).stats.emptyNodes = 3 := by
  refine ⟨by decide, by decide, by decide, by decide⟩

/-- **C6.** Table policy on the nutrition table: with default options
(`keepTables = false`) no table-structure tag survives into the output
and the tag-stripped, whitespace-collapsed visible text is exactly
`Nutrient Value Calories 100` (the synthetic newline-per-row and
space-per-cell separators keep the cells apart); with `keepTables = true`
the output retains `<table>` and `<td>` tags. -/
theorem c6_table_policy :
    (TABLE_TAGS.all (fun t =>
      !strContains (cleanDocumentForLLM tableDoc defaultCleanOptions).html ("<" ++ t)) = true) ∧
    visibleText (cleanDocumentForLLM tableDoc defaultCleanOptions).html =
      "Nutrient Value Calories 100" ∧
    strContains
      (cleanDocumentForLLM tableDoc { defaultCleanOptions with keepTables := true }).html
      "<table" = true ∧
    strContains
      (cleanDocumentForLLM tableDoc { defaultCleanOptions with keepTables := true }).html
      "<td" = true := by
  refine ⟨by decide, by decide, by decide, by decide⟩

/-- A string of bare-relative characters contains no colon, so the
scheme scanner never fires on it. -/
theorem schemeSplitGo_none_of_bareRel (l : List Char) :
    ∀ acc, (∀ c ∈ l, isBareRelChar c = true) → schemeSplitGo acc l = none := by
  induction l with
  | nil => intro acc _; simp [schemeSplitGo]
  | cons c rest ih =>
    intro acc h
    have hc := h c (List.mem_cons_self c rest)
    have hne : (c == ':') = false := by
      cases hb : c == ':'
      · rfl
      · exact absurd (eq_of_beq hb ▸ hc) (by decide)
    simp only [schemeSplitGo, hne, Bool.false_eq_true, if_false]
    by_cases hs : isSchemeChar c = true
    · simp only [hs, if_true]
      exact ih (c :: acc) (fun d hd => h d (List.mem_cons_of_mem c hd))
    · simp [hs]

/-- A bare-relative string has no scheme. -/
theorem schemeSplit_none_of_bareRel (s : String) (h : bareRelative s = true) :
    schemeSplit s.data = none := by
  unfold bareRelative at h
  rcases Bool.and_eq_true_iff.mp h with ⟨_, hall⟩
  match hd : s.data with
  | [] => simp [schemeSplit]
  | c :: rest =>
    rw [hd] at hall
    simp only [schemeSplit]
    by_cases hstart : isSchemeStart c = true
    · rw [if_pos hstart,
        schemeSplitGo_none_of_bareRel rest [c]
          (fun d hdm => by
            have := List.all_eq_true.mp hall d (List.mem_cons_of_mem c hdm)
            simpa using this)]
      rfl
    · simp [hstart]

/-- **C2.** Anchor safety: for the body
`<a href="javascript:alert(1)">text</a>` under default options (which
have `strictUrls = true`), the output contains no `<a>` element and is
exactly the literal text `text`, the rejected anchor being unwrapped and
counted as one strippedLink; and in strict mode `sanitizeUrl` keeps a
value only when it carries the scheme `http` or `https` or carries no
scheme at all — that is, when it is relative (the bare-relative fallback
class contains no colon, so fallback-accepted values are also
scheme-free). -/
theorem c2_anchor_safety :
    ((cleanDocumentForLLM anchorTextDoc defaultCleanOptions).html = "text" ∧
     strContains (cleanDocumentForLLM anchorTextDoc defaultCleanOptions).html "<a" = false ∧
     strContains (cleanDocumentForLLM anchorTextDoc defaultCleanOptions).html "text" = true ∧
     (cleanDocumentForLLM anchorTextDoc defaultCleanOptions).stats.strippedLinks = 1) ∧
    ∀ raw s, sanitizeUrl raw true = some s →
      (∃ sch rest, schemeSplit (jsTrim raw).data = some (sch, rest) ∧
        (sch = "http" ∨ sch = "https")) ∨
      schemeSplit (jsTrim raw).data = none := by
  refine ⟨⟨by decide, by decide, by decide, by decide⟩, ?_⟩
  intro raw s h
  unfold sanitizeUrl at h
  cases hp : parseUrlModel (jsTrim raw) with
  | none =>
    simp only [hp, Bool.not_true, Bool.false_and, Bool.false_eq_true, if_false] at h
    by_cases hb : bareRelative (jsTrim raw) = true
    · exact Or.inr (schemeSplit_none_of_bareRel _ hb)
    · rw [if_neg (by simpa using hb)] at h
      exact absurd h (by simp)
  | some u =>
    simp only [hp] at h
    cases hs : schemeSplit (jsTrim raw).data with
    | none => exact Or.inr rfl
    | some p =>
      obtain ⟨sch, rest⟩ := p
      unfold parseUrlModel at hp
      rw [hs] at hp
      by_cases hsch : (sch == "http" || sch == "https") = true
      · rcases Bool.or_eq_true_iff.mp hsch with h1 | h1
        · exact Or.inl ⟨sch, rest, rfl, Or.inl (eq_of_beq h1)⟩
        · exact Or.inl ⟨sch, rest, rfl, Or.inr (eq_of_beq h1)⟩
      · exfalso
        by_cases hspec : specialSchemes.contains sch = true
        · simp only [hspec, if_true] at hp
          by_cases hh :
              ((rest.dropWhile (fun c => c == '/')).takeWhile (fun c => !hostDelim c)).isEmpty = true
          · rw [if_pos hh] at hp
            exact Option.noConfusion hp
          · rw [if_neg (by simpa using hh)] at hp
            rw [Option.some_inj] at hp
            rw [← hp] at h
            simp only [Bool.not_true, Bool.false_eq_true, if_false, hsch] at h
            by_cases horg :
                ((sch ++ "://" ++
                  String.mk ((rest.dropWhile (fun c => c == '/')).takeWhile (fun c => !hostDelim c)))
                    == "https://example.invalid") = true
            · have heq := eq_of_beq horg
              have hmem : sch = "http" ∨ sch = "https" ∨ sch = "ws" ∨ sch = "wss" ∨ sch = "ftp" := by
                simp [specialSchemes, List.contains] at hspec
                rcases hspec with h1 | h1 | h1 | h1 | h1 <;> simp [h1]
              rcases hmem with rfl | rfl | rfl | rfl | rfl
              · exact hsch (by decide)
              · exact hsch (by decide)
              · have h2 := congrArg String.data heq
                simp [String.data_append] at h2
              · have h2 := congrArg String.data heq
                simp [String.data_append] at h2
              · have h2 := congrArg String.data heq
                simp [String.data_append] at h2
            · simp only [horg, Bool.false_eq_true, if_false] at h
              exact Option.noConfusion h
        · simp only [hspec, Bool.false_eq_true, if_false] at hp
          rw [Option.some_inj] at hp
          rw [← hp] at h
          simp only [Bool.not_true, Bool.false_eq_true, if_false, hsch] at h
          simp only [show (("null" : String) == "https://example.invalid") = false from by decide,
            Bool.false_eq_true, if_false] at h
          exact Option.noConfusion h

/-- Concrete instance of the strict-mode half of the anchor-safety
theorem: the accepted value `https://a/b` indeed carries an
`http`/`https` scheme or none. -/
theorem c2_anchor_safety_witness :
    (∃ sch rest, schemeSplit (jsTrim "https://a/b").data = some (sch, rest) ∧
      (sch = "http" ∨ sch = "https")) ∨
    schemeSplit (jsTrim "https://a/b").data = none :=
  c2_anchor_safety.2 "https://a/b" "https://a/b" (by decide)

/-- `addRecipe` through the `jidOf` observer. -/
theorem addRecipe_eq_jid (n : Json) (st : ExtractState) :
    addRecipe n st =
      match jidOf n with
      | some s =>
        if st.seenIds.contains s then st
        else ⟨st.recipes ++ [n], st.seenIds ++ [s]⟩
      | none => ⟨st.recipes ++ [n], st.seenIds⟩ := by
  cases n with
  | obj fields =>
    simp only [addRecipe, jidOf]
    cases hg : getField fields "@id" with
    | none => rfl
    | some j => cases j <;> rfl
  | null => rfl
  | bool b => rfl
  | num n => rfl
  | str s => rfl
  | arr items => rfl

/-- Folding `addRecipe` is appending first-wins-deduplicated nodes. -/
theorem addRecipeFold_eq_dedup (ns : List Json) :
    ∀ st : ExtractState,
      addRecipeFold st ns =
        ⟨st.recipes ++ (dedupGo st.seenIds ns).fst, (dedupGo st.seenIds ns).snd⟩ := by
  induction ns with
  | nil => intro st; simp [addRecipeFold, dedupGo]
  | cons n rest ih =>
    intro st
    have hstep : addRecipeFold st (n :: rest) = addRecipeFold (addRecipe n st) rest := rfl
    rw [hstep, addRecipe_eq_jid]
    cases hj : jidOf n with
    | none =>
      simp only [dedupGo, hj]
      rw [ih]
      simp
    | some s =>
      by_cases hc : st.seenIds.contains s = true
      · simp only [dedupGo, hj, hc, if_true]
        exact ih st
      · simp only [dedupGo, hj, hc, Bool.false_eq_true, if_false]
        rw [ih]
        simp

/-- `addRecipeFold` over an append. -/
theorem addRecipeFold_append (st : ExtractState) (a b : List Json) :
    addRecipeFold st (a ++ b) = addRecipeFold (addRecipeFold st a) b := by
  simp [addRecipeFold, List.foldl_append]

/-- The extractor walk equals its stateless candidate collection folded
through `addRecipe`. -/
theorem addIfRecipe_eq_collect (fuel : Nat) :
    ∀ (node : Json) (ctx : Bool) (st : ExtractState),
      addIfRecipe fuel node ctx st = addRecipeFold st (collectRecipeNodes fuel node ctx) := by
  induction fuel with
  | zero => intro node ctx st; simp [addIfRecipe, collectRecipeNodes, addRecipeFold]
  | succ fuel ih =>
    have hlist : ∀ (l : List Json) (b : Bool) (s0 : ExtractState),
        l.foldl (fun s n => addIfRecipe fuel n b s) s0 =
          addRecipeFold s0 (l.flatMap (fun n => collectRecipeNodes fuel n b)) := by
      intro l b
      induction l with
      | nil => intro s0; simp [addRecipeFold]
      | cons x xs ihl =>
        intro s0
        simp only [List.foldl_cons, List.flatMap_cons]
        rw [ih x b s0, ihl, addRecipeFold_append]
    intro node ctx st
    cases node with
    | arr items =>
      simp only [addIfRecipe, collectRecipeNodes, isFalsy]
      exact hlist items _ st
    | obj fields =>
      by_cases hctx : (ctx || isSchemaOrgContext (getField fields "@context")) = true
      · have hseg1 :
            addRecipeFold st
              (if (normalizeType (getField fields "@type")).contains "Recipe" then
                [Json.obj fields] else []) =
            (if (normalizeType (getField fields "@type")).contains "Recipe" then
              addRecipe (.obj fields) st else st) := by
          split <;> simp [addRecipeFold]
        have hkeys : ∀ (keys : List String) (s2 : ExtractState),
            keys.foldl
              (fun s key =>
                match getField fields key with
                | some (.arr entries) => entries.foldl (fun s2 e => addIfRecipe fuel e true s2) s
                | some (.obj f2) => addIfRecipe fuel (.obj f2) true s
                | _ => s) s2 =
            addRecipeFold s2
              (keys.flatMap
                (fun key =>
                  match getField fields key with
                  | some (.arr entries) =>
                    entries.flatMap (fun e => collectRecipeNodes fuel e true)
                  | some (.obj f2) => collectRecipeNodes fuel (.obj f2) true
                  | _ => [])) := by
          intro keys
          induction keys with
          | nil => intro s2; simp [addRecipeFold]
          | cons k ks ihk =>
            intro s2
            simp only [List.foldl_cons, List.flatMap_cons]
            rw [addRecipeFold_append, ← ihk]
            congr 1
            cases hk : getField fields k with
            | none => simp [addRecipeFold]
            | some j =>
              cases j with
              | arr entries => exact hlist entries true s2
              | obj f2 => exact ih (.obj f2) true s2
              | null => simp [addRecipeFold]
              | bool b => simp [addRecipeFold]
              | num n => simp [addRecipeFold]
              | str s => simp [addRecipeFold]
        simp only [addIfRecipe, collectRecipeNodes, isFalsy, hctx, Bool.not_true,
          Bool.false_eq_true, if_false]
        rw [addRecipeFold_append, addRecipeFold_append, hseg1, hkeys]
        congr 1
        cases hg : getField fields "@graph" with
        | none => simp [addRecipeFold]
        | some j =>
          cases j with
          | arr gs => exact hlist gs true _
          | null => simp [addRecipeFold]
          | bool b => simp [addRecipeFold]
          | num n => simp [addRecipeFold]
          | str s => simp [addRecipeFold]
          | obj f2 => simp [addRecipeFold]
      · simp [addIfRecipe, collectRecipeNodes, isFalsy, hctx, addRecipeFold]
    | null => simp [addIfRecipe, collectRecipeNodes, isFalsy, addRecipeFold]
    | bool b =>
      cases b <;> simp [addIfRecipe, collectRecipeNodes, isFalsy, addRecipeFold]
    | num n =>
      by_cases hz : (n == 0) = true
      · simp [addIfRecipe, collectRecipeNodes, isFalsy, hz, addRecipeFold]
      · simp [addIfRecipe, collectRecipeNodes, isFalsy, hz, addRecipeFold]
    | str s =>
      by_cases hz : s.isEmpty = true
      · simp [addIfRecipe, collectRecipeNodes, isFalsy, hz, addRecipeFold]
      · simp [addIfRecipe, collectRecipeNodes, isFalsy, hz, addRecipeFold]

/-- `dedupGo` over an append: process the first segment, then the second
from the accumulated seen set. -/
theorem dedupGo_append (a : List Json) :
    ∀ (b : List Json) (seen : List String),
      dedupGo seen (a ++ b) =
        ((dedupGo seen a).fst ++ (dedupGo (dedupGo seen a).snd b).fst,
         (dedupGo (dedupGo seen a).snd b).snd) := by
  induction a with
  | nil => intro b seen; simp [dedupGo]
  | cons n rest ih =>
    intro b seen
    simp only [List.cons_append, dedupGo]
    cases hj : jidOf n with
    | none => simp [ih]
    | some s =>
      by_cases hc : seen.contains s = true
      · simp only [hc, if_true]
        exact ih b seen
      · simp only [hc, Bool.false_eq_true, if_false]
        simp [ih]

/-- The block fold of `findJsonLdRecipes` in collect-then-dedup form. -/
theorem blockFold_eq_dedup (parse : String → Option Json) (texts : List String) :
    ∀ st : ExtractState,
      texts.foldl (jsonLdBlockStep parse) st =
        ⟨st.recipes ++ (dedupGo st.seenIds (candidatesOfTexts parse texts)).fst,
         (dedupGo st.seenIds (candidatesOfTexts parse texts)).snd⟩ := by
  induction texts with
  | nil => intro st; simp [candidatesOfTexts, dedupGo]
  | cons t rest ih =>
    intro st
    simp only [List.foldl_cons]
    have hcand : candidatesOfTexts parse (t :: rest) =
        (let s := jsTrim t
         if s.isEmpty then []
         else match parse s with
           | none => []
           | some j => collectRecipeNodes (jsonSizeN j + 1) j false) ++
        candidatesOfTexts parse rest := by
      simp [candidatesOfTexts]
    rw [hcand]
    by_cases he : (jsTrim t).isEmpty = true
    · have hstep : jsonLdBlockStep parse st t = st := by
        unfold jsonLdBlockStep
        simp [he]
      rw [hstep, ih st]
      simp [he]
    · cases hp : parse (jsTrim t) with
      | none =>
        have hstep : jsonLdBlockStep parse st t = st := by
          unfold jsonLdBlockStep
          simp [he, hp]
        rw [hstep, ih st]
        simp [he, hp]
      | some j =>
        have hstep : jsonLdBlockStep parse st t =
            addRecipeFold st (collectRecipeNodes (jsonSizeN j + 1) j false) := by
          unfold jsonLdBlockStep
          simp [he, hp, addIfRecipe_eq_collect]
        rw [hstep, addRecipeFold_eq_dedup, ih]
        simp only [he, Bool.false_eq_true, if_false, hp]
        rw [dedupGo_append]
        simp

/-- Deduplicated nodes with a given string `@id`: the first candidate
with that id if the id is yet unseen, nothing otherwise. -/
theorem dedupGo_filter_id (id : String) :
    ∀ (cs : List Json) (seen : List String),
      (dedupGo seen cs).fst.filter (fun j => jidOf j == some id) =
        if seen.contains id then []
        else (cs.filter (fun j => jidOf j == some id)).take 1 := by
  intro cs
  induction cs with
  | nil => intro seen; simp [dedupGo]
  | cons n rest ih =>
    intro seen
    simp only [dedupGo]
    cases hj : jidOf n with
    | none =>
      have hne : (jidOf n == some id) = false := by rw [hj]; rfl
      simp only [List.filter_cons, hne, Bool.false_eq_true, if_false]
      exact ih seen
    | some s =>
      by_cases hsid : s = id
      · subst hsid
        have heq : (jidOf n == some s) = true := by rw [hj]; simp
        by_cases hc : seen.contains s = true
        · simp only [hc, if_true, ih seen, hc]
        · simp only [hc, Bool.false_eq_true, if_false]
          simp only [List.filter_cons, heq, if_true]
          rw [ih (seen ++ [s])]
          have hc2 : (seen ++ [s]).contains s = true := by simp
          simp [hc2, hc]
      · have hne : (jidOf n == some id) = false := by
          rw [hj]
          simp [hsid]
        by_cases hc : seen.contains s = true
        · simp only [hc, if_true, List.filter_cons, hne, Bool.false_eq_true, if_false]
          exact ih seen
        · simp only [hc, Bool.false_eq_true, if_false, List.filter_cons, hne]
          rw [ih (seen ++ [s])]
          have hne2 : ¬ id = s := fun h => hsid h.symm
          by_cases hmem : seen.contains id = true
          · simp [hmem, hne2]
          · simp [hmem, hne2]

/-- Nodes without a string `@id` are never deduplicated. -/
theorem dedupGo_filter_noid :
    ∀ (cs : List Json) (seen : List String),
      (dedupGo seen cs).fst.filter (fun j => (jidOf j).isNone) =
        cs.filter (fun j => (jidOf j).isNone) := by
  intro cs
  induction cs with
  | nil => intro seen; simp [dedupGo]
  | cons n rest ih =>
    intro seen
    simp only [dedupGo, List.filter_cons]
    cases hj : jidOf n with
    | none =>
      have ht : ((jidOf n).isNone : Bool) = true := by rw [hj]; rfl
      simp only [List.filter_cons, ht, if_true]
      simp [ih]
    | some s =>
      have hne : (jidOf n).isNone = false := by rw [hj]; rfl
      simp only [hne, Bool.false_eq_true, if_false]
      by_cases hc : seen.contains s = true
      · simp only [hc, if_true]
        exact ih seen
      · simp only [hc, Bool.false_eq_true, if_false, List.filter_cons, hne]
        simp [ih]

/-- **C7.** Deduplication by `@id`: the extractor equals normalisation
mapped over the first-occurrence-wins deduplication of the candidate
recipe nodes met by the traversal (across all blocks, in document
order); among the deduplicated nodes, those carrying any given string
`@id` are exactly the first such candidate (so one Recipe per `@id`,
normalised from the first node encountered); and candidates without a
string `@id` all survive, in order — they are never deduplicated. -/
theorem c7_dedup_by_id (parse : String → Option Json) (doc : DNode) (id : String) :
    extractJsonLdRecipes parse doc =
      ((dedupGo [] (candidatesOfTexts parse (scriptTextsN doc))).fst).map
        normalizeJsonLdRecipe ∧
    (dedupGo [] (candidatesOfTexts parse (scriptTextsN doc))).fst.filter
        (fun j => jidOf j == some id) =
      ((candidatesOfTexts parse (scriptTextsN doc)).filter
        (fun j => jidOf j == some id)).take 1 ∧
    (dedupGo [] (candidatesOfTexts parse (scriptTextsN doc))).fst.filter
        (fun j => (jidOf j).isNone) =
      (candidatesOfTexts parse (scriptTextsN doc)).filter
        (fun j => (jidOf j).isNone) := by
  refine ⟨?_, ?_, ?_⟩
  · unfold extractJsonLdRecipes findJsonLdRecipesFromTexts
    rw [blockFold_eq_dedup]
    simp
  · rw [dedupGo_filter_id]
    simp
  · exact dedupGo_filter_noid _ []

/-- **C8.** Malformed JSON-LD isolation: a block whose trimmed content
fails to parse contributes nothing — extraction over blocks surrounding
it equals extraction with the block deleted — and in general the
extractor result is a function of the successfully parsed blocks alone,
in document order (the parse failure is absorbed per block, modelled by
the `Option`-valued parser, and never aborts the remaining blocks). -/
theorem c8_malformed_isolation (parse : String → Option Json)
    (pre post : List String) (bad : String)
    (hbad : parse (jsTrim bad) = none) :
    findJsonLdRecipesFromTexts parse (pre ++ bad :: post) =
      findJsonLdRecipesFromTexts parse (pre ++ post) ∧
    ∀ texts, findJsonLdRecipesFromTexts parse texts =
      findFromParsed (parsedBlocks parse texts) := by
  have hstep : ∀ st, jsonLdBlockStep parse st bad = st := by
    intro st
    unfold jsonLdBlockStep
    by_cases he : (jsTrim bad).isEmpty = true
    · simp [he]
    · simp [he, hbad]
  have hgen : ∀ (texts : List String) (st : ExtractState),
      texts.foldl (jsonLdBlockStep parse) st =
        (parsedBlocks parse texts).foldl
          (fun st j => addIfRecipe (jsonSizeN j + 1) j false st) st := by
    intro texts
    induction texts with
    | nil => intro st; simp [parsedBlocks]
    | cons t rest ih =>
      intro st
      simp only [List.foldl_cons, parsedBlocks, List.filterMap_cons]
      by_cases he : (jsTrim t).isEmpty = true
      · have : jsonLdBlockStep parse st t = st := by
          unfold jsonLdBlockStep; simp [he]
        rw [this]
        simp only [he, if_true]
        exact ih st
      · cases hp : parse (jsTrim t) with
        | none =>
          have : jsonLdBlockStep parse st t = st := by
            unfold jsonLdBlockStep; simp [he, hp]
          rw [this]
          simp only [he, Bool.false_eq_true, if_false, hp]
          exact ih st
        | some j =>
          have : jsonLdBlockStep parse st t = addIfRecipe (jsonSizeN j + 1) j false st := by
            unfold jsonLdBlockStep; simp [he, hp]
          rw [this]
          simp only [he, Bool.false_eq_true, if_false, hp, List.foldl_cons]
          exact ih _
  constructor
  · unfold findJsonLdRecipesFromTexts
    rw [List.foldl_append, List.foldl_cons, hstep, ← List.foldl_append]
  · intro texts
    unfold findJsonLdRecipesFromTexts findFromParsed
    rw [hgen]

/-- Concrete instance of the isolation theorem: with a parser recognising
only the block `R` as a Recipe object, splicing an unparsable block
between blocks changes nothing. -/
theorem c8_malformed_isolation_witness :
    (findJsonLdRecipesFromTexts
        (fun s => if s == "R" then some (.obj [("@type", Json.str "Recipe")]) else none)
        (["R"] ++ "x" :: ["R2"]) =
      findJsonLdRecipesFromTexts
        (fun s => if s == "R" then some (.obj [("@type", Json.str "Recipe")]) else none)
        (["R"] ++ ["R2"])) ∧
    ∀ texts, findJsonLdRecipesFromTexts
        (fun s => if s == "R" then some (.obj [("@type", Json.str "Recipe")]) else none)
        texts =
      findFromParsed (parsedBlocks
        (fun s => if s == "R" then some (.obj [("@type", Json.str "Recipe")]) else none)
        texts) :=
  c8_malformed_isolation
    (fun s => if s == "R" then some (.obj [("@type", Json.str "Recipe")]) else none)
    ["R"] ["R2"] "x" (by rfl)

/-! ### Blank-line analysis for the minimal-text renderer -/

/-- Whitespace-collapsing leaves no newline behind. -/
theorem collapseWsRuns_no_nl (l : List Char) :
    ∀ b, '\n' ∉ collapseWsRunsGo b l := by
  induction l with
  | nil => intro b; simp [collapseWsRunsGo]
  | cons c cs ih =>
    intro b
    simp only [collapseWsRunsGo]
    by_cases hw : isWsChar c = true
    · simp only [hw, if_true]
      by_cases hb : b = true
      · simp only [hb, if_true]
        exact ih true
      · simp only [eq_false_of_ne_true hb, Bool.false_eq_true, if_false]
        intro hmem
        rcases List.mem_cons.mp hmem with h | h
        · exact absurd h.symm (by decide)
        · exact ih true h
    · simp only [hw, Bool.false_eq_true, if_false]
      intro hmem
      rcases List.mem_cons.mp hmem with h | h
      · rw [← h] at hw
        exact hw (by decide)
      · exact ih false h

/-- Members survive trimming. -/
theorem mem_of_mem_trimChars (l : List Char) (c : Char) (h : c ∈ trimChars l) : c ∈ l := by
  unfold trimChars at h
  rw [List.mem_reverse] at h
  have h1 := (List.dropWhile_sublist isWsChar (l := (l.dropWhile isWsChar).reverse)).mem h
  rw [List.mem_reverse] at h1
  exact (List.dropWhile_sublist isWsChar (l := l)).mem h1

/-- `noNlB` through `String.mk`. -/
theorem noNlB_mk (l : List Char) (h : '\n' ∉ l) : noNlB (String.mk l) = true := by
  simp only [noNlB, List.all_eq_true]
  intro c hc
  cases hb : c == '\n'
  · rw [Bool.not_false]
  · exact absurd ((eq_of_beq hb) ▸ hc) h

/-- `normalizeInline` output has no newline. -/
theorem noNlB_normalizeInline (s : String) : noNlB (normalizeInline s) = true := by
  unfold normalizeInline jsTrim
  apply noNlB_mk
  intro hmem
  exact collapseWsRuns_no_nl _ false (mem_of_mem_trimChars _ _ hmem)

/-- The pieces of `splitAndNormalize` are nonempty and newline-free. -/
theorem splitAndNormalize_pieces (s : String) :
    ∀ p ∈ splitAndNormalize s, noNlB p = true ∧ p.isEmpty = false := by
  intro p hp
  unfold splitAndNormalize at hp
  rcases List.mem_filter.mp hp with ⟨hmem, hne⟩
  rcases List.mem_map.mp hmem with ⟨piece, _, rfl⟩
  constructor
  · apply noNlB_mk
    intro hnl
    exact collapseWsRuns_no_nl _ false (mem_of_mem_trimChars _ _ hnl)
  · simpa using hne

/-- `noNlB` over append. -/
theorem noNlB_append (a b : String) (ha : noNlB a = true) (hb : noNlB b = true) :
    noNlB (a ++ b) = true := by
  simp only [noNlB, List.all_eq_true] at ha hb ⊢
  intro c hc
  rw [String.data_append] at hc
  rcases List.mem_append.mp hc with h | h
  · exact ha c h
  · exact hb c h

/-- `noNlB` over `joinSep`. -/
theorem noNlB_joinSep (sep : String) (hsep : noNlB sep = true) :
    ∀ parts : List String, (∀ p ∈ parts, noNlB p = true) → noNlB (joinSep sep parts) = true := by
  intro parts
  induction parts with
  | nil => intro _; rfl
  | cons p rest ih =>
    intro h
    cases rest with
    | nil => exact h p (List.mem_cons_self p [])
    | cons q qs =>
      show noNlB (p ++ sep ++ joinSep sep (q :: qs)) = true
      apply noNlB_append
      · exact noNlB_append _ _ (h p (List.mem_cons_self p _)) hsep
      · exact ih (fun r hr => h r (List.mem_cons_of_mem p hr))

/-- `hashesFor` has no newline. -/
theorem noNlB_hashesFor (k : Nat) : noNlB (hashesFor k) = true := by
  unfold hashesFor
  apply noNlB_mk
  intro h
  have := List.eq_of_mem_replicate h
  exact absurd this (by decide)

/-- `appendTextLines` preserves the newline-free line invariant when its
marker text is newline-free. -/
theorem appendTextLines_noNl (lines : List String) (text pre : String)
    (hl : ∀ l ∈ lines, noNlB l = true) (hpre : noNlB pre = true) :
    ∀ l ∈ appendTextLines lines text pre, noNlB l = true := by
  unfold appendTextLines
  cases hsp : splitAndNormalize text with
  | nil => exact hl
  | cons p rest =>
    intro l hmem
    rcases List.mem_append.mp hmem with h | h
    · rcases List.mem_append.mp h with h1 | h1
      · exact hl l h1
      · rcases List.mem_singleton.mp h1 with rfl
        apply noNlB_append _ _ hpre
        exact (splitAndNormalize_pieces text p (hsp ▸ List.mem_cons_self p rest)).1
    · exact (splitAndNormalize_pieces text l (hsp ▸ List.mem_cons_of_mem p h)).1

/-- `pushSeparator` preserves the line invariant. -/
theorem pushSeparator_noNl (lines : List String)
    (hl : ∀ l ∈ lines, noNlB l = true) :
    ∀ l ∈ pushSeparator lines, noNlB l = true := by
  unfold pushSeparator
  by_cases h1 : lines.isEmpty = true
  · simp only [h1, if_true]
    exact hl
  · simp only [h1, Bool.false_eq_true, if_false]
    by_cases h2 : lines.getLast? == some ""
    · simp only [h2, if_true]
      exact hl
    · simp only [h2, Bool.false_eq_true, if_false]
      intro l hmem
      rcases List.mem_append.mp hmem with h | h
      · exact hl l h
      · rcases List.mem_singleton.mp h with rfl
        rfl

/-- `headingLine` preserves the line invariant when the heading marker is
newline-free. -/
theorem headingLine_noNl (opts : MinimalTextOptions) (lines : List String)
    (level : Nat) (text : String)
    (hl : ∀ l ∈ lines, noNlB l = true) (hpre : noNlB opts.headingPrefixStr = true) :
    ∀ l ∈ headingLine opts lines level text, noNlB l = true := by
  unfold headingLine
  by_cases hc : (normalizeInline text).isEmpty = true
  · simp only [hc, if_true]
    exact hl
  · simp only [hc, Bool.false_eq_true, if_false]
    cases opts.headingStyle with
    | fixed =>
      intro l hmem
      rcases List.mem_append.mp hmem with h | h
      · exact hl l h
      · rcases List.mem_singleton.mp h with rfl
        exact noNlB_append _ _ (noNlB_append _ _ hpre (by rfl)) (noNlB_normalizeInline text)
    | hash =>
      intro l hmem
      rcases List.mem_append.mp hmem with h | h
      · exact hl l h
      · rcases List.mem_singleton.mp h with rfl
        exact noNlB_append _ _ (noNlB_append _ _ (noNlB_hashesFor level) (by rfl))
          (noNlB_normalizeInline text)

/-- A table row line has no newline when the cell separator has none. -/
theorem tableRowLineM_noNl (opts : MinimalTextOptions) (row store : DNode)
    (hsep : noNlB opts.tableCellSeparator = true) :
    noNlB (tableRowLineM opts row store).fst = true := by
  unfold tableRowLineM
  apply noNlB_joinSep _ hsep
  intro p hp
  have hmem := List.mem_of_mem_filter hp
  have hfold : ∀ (cells : List DNode) (acc : List String × DNode),
      (∀ q ∈ acc.fst, noNlB q = true) →
      ∀ q ∈ (cells.foldl
        (fun (acc : List String × DNode) cell =>
          let rc := textFromInlineM cell acc.snd
          (acc.fst ++ [normalizeInline rc.fst], rc.snd)) acc).fst, noNlB q = true := by
    intro cells
    induction cells with
    | nil => intro acc h; exact h
    | cons cell rest ih =>
      intro acc h
      apply ih
      intro q hq
      rcases List.mem_append.mp hq with h1 | h1
      · exact h q h1
      · rcases List.mem_singleton.mp h1 with rfl
        exact noNlB_normalizeInline _
  exact hfold _ _ (by intro q hq; cases hq) p hmem

/-- `handleTableM` preserves the line invariant. -/
theorem handleTableM_noNl (opts : MinimalTextOptions) (lines : List String)
    (tableEl store : DNode)
    (hl : ∀ l ∈ lines, noNlB l = true)
    (hsep : noNlB opts.tableCellSeparator = true) :
    ∀ l ∈ (handleTableM opts lines tableEl store).fst, noNlB l = true := by
  unfold handleTableM
  have hfold : ∀ (rows : List DNode) (acc : List String × DNode),
      (∀ q ∈ acc.fst, noNlB q = true) →
      ∀ q ∈ (rows.foldl
        (fun (acc : List String × DNode) row =>
          let rl := tableRowLineM opts row acc.snd
          (if rl.fst.isEmpty then acc.fst else acc.fst ++ [rl.fst], rl.snd)) acc).fst,
        noNlB q = true := by
    intro rows
    induction rows with
    | nil => intro acc h; exact h
    | cons row rest ih =>
      intro acc h
      apply ih
      by_cases he : (tableRowLineM opts row acc.snd).fst.isEmpty = true
      · simp only [he, if_true]
        exact h
      · simp only [he, Bool.false_eq_true, if_false]
        intro q hq
        rcases List.mem_append.mp hq with h1 | h1
        · exact h q h1
        · rcases List.mem_singleton.mp h1 with rfl
          exact tableRowLineM_noNl opts row acc.snd hsep
  exact hfold _ _ hl

mutual

/-- `handleListM` preserves the line invariant. -/
theorem handleListM_noNl (opts : MinimalTextOptions) (hm : noNlB opts.listMarker = true) :
    ∀ (lines : List String) (el store : DNode),
      (∀ l ∈ lines, noNlB l = true) →
      ∀ l ∈ (handleListM opts lines el store).fst, noNlB l = true := by
  intro lines el store hl
  cases el with
  | elem i t a cs => exact handleListChildrenM_noNl opts hm lines cs store hl
  | text i s => exact hl
  | comment i s => exact hl

/-- The `li` loop preserves the line invariant. -/
theorem handleListChildrenM_noNl (opts : MinimalTextOptions) (hm : noNlB opts.listMarker = true) :
    ∀ (lines : List String) (cs : List DNode) (store : DNode),
      (∀ l ∈ lines, noNlB l = true) →
      ∀ l ∈ (handleListChildrenM opts lines cs store).fst, noNlB l = true := by
  intro lines cs store hl
  cases cs with
  | nil => exact hl
  | cons li rest =>
    show ∀ l ∈ (handleListChildrenM opts lines (li :: rest) store).fst, noNlB l = true
    unfold handleListChildrenM
    by_cases hli : (li.tagOf == "li") = true
    · simp only [hli, if_true]
      exact handleListChildrenM_noNl opts hm _ rest _
        (handleListItemM_noNl opts hm lines li store hl)
    · simp only [hli, Bool.false_eq_true, if_false]
      exact handleListChildrenM_noNl opts hm lines rest store hl

/-- `handleListItem` preserves the line invariant. -/
theorem handleListItemM_noNl (opts : MinimalTextOptions) (hm : noNlB opts.listMarker = true) :
    ∀ (lines : List String) (li store : DNode),
      (∀ l ∈ lines, noNlB l = true) →
      ∀ l ∈ (handleListItemM opts lines li store).fst, noNlB l = true := by
  intro lines li store hl
  cases li with
  | elem i t a cs =>
    show ∀ l ∈ (nestedListsM opts
        (appendTextLines lines (inlineOfItemM cs store).fst (opts.listMarker ++ " ")) cs
        (inlineOfItemM cs store).snd).fst, noNlB l = true
    exact nestedListsM_noNl opts hm _ cs _
      (appendTextLines_noNl lines _ _ hl (noNlB_append _ _ hm (by rfl)))
  | text i s => exact hl
  | comment i s => exact hl

/-- The nested-list loop preserves the line invariant. -/
theorem nestedListsM_noNl (opts : MinimalTextOptions) (hm : noNlB opts.listMarker = true) :
    ∀ (lines : List String) (cs : List DNode) (store : DNode),
      (∀ l ∈ lines, noNlB l = true) →
      ∀ l ∈ (nestedListsM opts lines cs store).fst, noNlB l = true := by
  intro lines cs store hl
  cases cs with
  | nil => exact hl
  | cons child rest =>
    show ∀ l ∈ (nestedListsM opts lines (child :: rest) store).fst, noNlB l = true
    unfold nestedListsM
    by_cases hc : isListElement child = true
    · simp only [hc, if_true]
      exact nestedListsM_noNl opts hm _ rest _
        (handleListM_noNl opts hm lines child store hl)
    · simp only [hc, Bool.false_eq_true, if_false]
      exact nestedListsM_noNl opts hm lines rest store hl

end

/-- `handleBlockM` preserves the line invariant for newline-free option
strings. -/
theorem handleBlockM_noNl (opts : MinimalTextOptions) (lines : List String)
    (el store : DNode)
    (hl : ∀ l ∈ lines, noNlB l = true)
    (hpre : noNlB opts.headingPrefixStr = true)
    (hm : noNlB opts.listMarker = true)
    (hsep : noNlB opts.tableCellSeparator = true) :
    ∀ l ∈ (handleBlockM opts lines el store).fst, noNlB l = true := by
  unfold handleBlockM
  set tag := el.tagOf with htag
  by_cases h1 : (tag == "h1" || tag == "h2" || tag == "h3" || tag == "h4" ||
      tag == "h5" || tag == "h6") = true
  · simp only [h1, if_true]
    exact headingLine_noNl opts lines _ _ hl hpre
  · simp only [h1, Bool.false_eq_true, if_false]
    by_cases h2 : (tag == "p") = true
    · simp only [h2, if_true]
      exact appendTextLines_noNl lines _ _ hl (by rfl)
    · simp only [h2, Bool.false_eq_true, if_false]
      by_cases h3 : (tag == "ul" || tag == "ol") = true
      · simp only [h3, if_true]
        exact handleListM_noNl opts hm lines el store hl
      · simp only [h3, Bool.false_eq_true, if_false]
        by_cases h4 : (tag == "li") = true
        · simp only [h4, if_true]
          exact handleListItemM_noNl opts hm lines el store hl
        · simp only [h4, Bool.false_eq_true, if_false]
          by_cases h5 : (tag == "table") = true
          · simp only [h5, if_true]
            exact handleTableM_noNl opts lines el store hl hsep
          · simp only [h5, Bool.false_eq_true, if_false]
            exact appendTextLines_noNl lines _ _ hl (by rfl)

/-- `processBlocksM` preserves the line invariant. -/
theorem processBlocksM_noNl (opts : MinimalTextOptions)
    (hpre : noNlB opts.headingPrefixStr = true)
    (hm : noNlB opts.listMarker = true)
    (hsep : noNlB opts.tableCellSeparator = true) :
    ∀ (cs : List DNode) (buffer : String) (lines : List String) (store : DNode),
      (∀ l ∈ lines, noNlB l = true) →
      ∀ l ∈ (processBlocksM opts cs buffer lines store).fst, noNlB l = true := by
  intro cs
  induction cs with
  | nil =>
    intro buffer lines store hl
    unfold processBlocksM
    by_cases hb : (jsTrim buffer).isEmpty = true
    · simp only [hb]
      simpa using hl
    · simp only [hb]
      simp only [Bool.not_false, if_true]
      exact appendTextLines_noNl lines _ _ hl (by rfl)
  | cons child rest ih =>
    intro buffer lines store hl
    unfold processBlocksM
    by_cases hbl : isBlockElement child = true
    · simp only [hbl, if_true]
      apply ih
      apply pushSeparator_noNl
      apply handleBlockM_noNl opts _ child store _ hpre hm hsep
      by_cases hb : (jsTrim buffer).isEmpty = true
      · simp only [hb]
        simpa using hl
      · simp only [hb]
        simp only [Bool.not_false, if_true]
        exact pushSeparator_noNl _ (appendTextLines_noNl lines _ _ hl (by rfl))
    · simp only [hbl, Bool.false_eq_true, if_false]
      exact ih _ lines _ hl

/-- Membership in the collapsed line list comes from the input or is the
empty line. -/
theorem collapseBlankLinesGo_mem :
    ∀ (rest : List String) (acc : List String) (l : String),
      l ∈ collapseBlankLinesGo acc rest → l ∈ acc ∨ l = "" ∨ l ∈ rest := by
  intro rest
  induction rest with
  | nil =>
    intro acc l h
    exact Or.inl h
  | cons line rest2 ih =>
    intro acc l h
    unfold collapseBlankLinesGo at h
    by_cases he : (line == "") = true
    · simp only [he, if_true] at h
      by_cases hskip : (acc.isEmpty || acc.getLast? == some "") = true
      · simp only [hskip, if_true] at h
        rcases ih acc l h with h1 | h1 | h1
        · exact Or.inl h1
        · exact Or.inr (Or.inl h1)
        · exact Or.inr (Or.inr (List.mem_cons_of_mem line h1))
      · rw [Bool.or_eq_true_iff] at hskip
        push_neg at hskip
        simp only [Bool.or_eq_true_iff] at h
        rw [if_neg (by
          intro hcon
          rcases hcon with hc | hc
          · exact hskip.1 (by simpa using hc)
          · exact hskip.2 (by simpa using hc))] at h
        rcases ih (acc ++ [""]) l h with h1 | h1 | h1
        · rcases List.mem_append.mp h1 with h2 | h2
          · exact Or.inl h2
          · exact Or.inr (Or.inl (List.mem_singleton.mp h2))
        · exact Or.inr (Or.inl h1)
        · exact Or.inr (Or.inr (List.mem_cons_of_mem line h1))
    · simp only [he, Bool.false_eq_true, if_false] at h
      rcases ih (acc ++ [line]) l h with h1 | h1 | h1
      · rcases List.mem_append.mp h1 with h2 | h2
        · exact Or.inl h2
        · exact Or.inr (Or.inr (List.mem_cons.mpr (Or.inl (List.mem_singleton.mp h2))))
      · exact Or.inr (Or.inl h1)
      · exact Or.inr (Or.inr (List.mem_cons_of_mem line h1))

/-- Appending a line that is not empty next to an empty tail preserves
the no-adjacent-empties invariant. -/
theorem noAdjEmptyB_append (x : String) :
    ∀ (acc : List String), noAdjEmptyB acc = true →
      ¬(acc.getLast? = some "" ∧ x = "") → noAdjEmptyB (acc ++ [x]) = true := by
  intro acc
  induction acc with
  | nil => intro _ _; rfl
  | cons a rest ih =>
    intro hadj hlast
    cases rest with
    | nil =>
      show noAdjEmptyB [a, x] = true
      unfold noAdjEmptyB
      have : ¬(a = "" ∧ x = "") := by
        intro hc
        exact hlast ⟨by simp [hc.1], hc.2⟩
      simp only [noAdjEmptyB, Bool.and_eq_true]
      refine ⟨?_, trivial⟩
      cases ha : a == ""
      · rfl
      · cases hx : x == ""
        · rfl
        · exact absurd ⟨eq_of_beq ha, eq_of_beq hx⟩ this
    | cons b rest2 =>
      have hadj2 : noAdjEmptyB (b :: rest2) = true := by
        unfold noAdjEmptyB at hadj
        rw [Bool.and_eq_true] at hadj
        exact hadj.2
      have hab : (!(a == "" && b == "")) = true := by
        unfold noAdjEmptyB at hadj
        rw [Bool.and_eq_true] at hadj
        exact hadj.1
      have hlast2 : ¬((b :: rest2).getLast? = some "" ∧ x = "") := by
        intro hc
        exact hlast ⟨by rw [List.getLast?_cons_cons]; exact hc.1, hc.2⟩
      have := ih hadj2 hlast2
      show noAdjEmptyB (a :: (b :: rest2) ++ [x]) = true
      cases rest2 with
      | nil =>
        simp only [List.cons_append, List.nil_append, noAdjEmptyB, Bool.and_eq_true] at this ⊢
        exact ⟨hab, this⟩
      | cons c rest3 =>
        simp only [List.cons_append, noAdjEmptyB, Bool.and_eq_true] at this ⊢
        exact ⟨hab, this⟩

/-- The collapsed lines have no adjacent empties and no leading empty. -/
theorem collapseBlankLinesGo_good :
    ∀ (rest : List String) (acc : List String),
      noAdjEmptyB acc = true → acc.head? ≠ some "" →
      noAdjEmptyB (collapseBlankLinesGo acc rest) = true ∧
      (collapseBlankLinesGo acc rest).head? ≠ some "" := by
  intro rest
  induction rest with
  | nil => intro acc h1 h2; exact ⟨h1, h2⟩
  | cons line rest2 ih =>
    intro acc h1 h2
    unfold collapseBlankLinesGo
    by_cases he : (line == "") = true
    · simp only [he, if_true]
      by_cases hskip : (acc.isEmpty || acc.getLast? == some "") = true
      · simp only [hskip, if_true]
        exact ih acc h1 h2
      · rw [if_neg (by simpa using hskip)]
        rw [Bool.or_eq_true_iff] at hskip
        push_neg at hskip
        have hne : ¬ acc.isEmpty = true := hskip.1
        have hlast : ¬ acc.getLast? = some "" := by
          intro hc
          exact hskip.2 (by simp [hc])
        apply ih
        · exact noAdjEmptyB_append "" acc h1 (fun hc => hlast hc.1)
        · cases acc with
          | nil => exact absurd rfl hne
          | cons a r => simpa using h2
    · simp only [he, Bool.false_eq_true, if_false]
      apply ih
      · apply noAdjEmptyB_append line acc h1
        intro hc
        exact (by simpa using he : ¬ line = "") hc.2
      · cases acc with
        | nil =>
          simp only [List.nil_append, List.head?_cons]
          intro hc
          exact (by simpa using he : ¬ line = "") (by simpa using hc)
        | cons a r => simpa using h2

/-- Newline-free strings list all their characters as non-newlines. -/
theorem noNlB_forall (s : String) (h : noNlB s = true) : ∀ c ∈ s.data, ¬ c = '\n' := by
  simp only [noNlB, List.all_eq_true] at h
  intro c hc hcn
  have := h c hc
  rw [hcn] at this
  simp at this

/-- A newline-free list never contains the triple newline. -/
theorem containsSub_tripleNl_nlfree (l : List Char) (h : ∀ c ∈ l, ¬ c = '\n') :
    containsSub l tripleNl = false := by
  induction l with
  | nil => rfl
  | cons c cs ih =>
    simp only [containsSub]
    have hc : (c == '\n') = false := by
      cases hb : c == '\n'
      · rfl
      · exact absurd (eq_of_beq hb) (h c (List.mem_cons_self c cs))
    have hb : beginsWith (c :: cs) tripleNl = false := by
      simp only [tripleNl, beginsWith, hc, Bool.false_and]
    rw [hb, ih (fun d hd => h d (List.mem_cons_of_mem c hd))]
    rfl

/-- Scanning for the triple newline skips a newline-free first segment. -/
theorem containsSub_append_nlfree (a : List Char) (b : List Char)
    (h : ∀ c ∈ a, ¬ c = '\n') :
    containsSub (a ++ b) tripleNl = containsSub b tripleNl := by
  induction a with
  | nil => rfl
  | cons c cs ih =>
    have hc : (c == '\n') = false := by
      cases hb : c == '\n'
      · rfl
      · exact absurd (eq_of_beq hb) (h c (List.mem_cons_self c cs))
    simp only [List.cons_append, containsSub]
    have hb : beginsWith (c :: (cs ++ b)) tripleNl = false := by
      simp only [tripleNl, beginsWith, hc, Bool.false_and]
    change (beginsWith (c :: (cs ++ b)) tripleNl || containsSub (cs ++ b) tripleNl) =
      containsSub b tripleNl
    rw [hb, ih (fun d hd => h d (List.mem_cons_of_mem c hd))]
    rfl

/-- `beginsWith` of a one-newline pattern on a list headed by a
non-newline character is false. -/
theorem beginsWith_nl_false (l : List Char) (h : ∀ c, l.head? = some c → ¬ c = '\n') :
    beginsWith l ['\n'] = false := by
  cases l with
  | nil => rfl
  | cons c cs =>
    have hc : (c == '\n') = false := by
      cases hb : c == '\n'
      · rfl
      · exact absurd (eq_of_beq hb) (h c rfl)
    simp only [beginsWith, hc, Bool.false_and]

/-- The blank-line shape of the joined lines: no triple newline, a
newline head only under an empty head line, never a double-newline
head. -/
theorem joinLines_shape :
    ∀ (out : List String),
      (∀ l ∈ out, noNlB l = true) → noAdjEmptyB out = true →
      containsSub (joinLines out).data tripleNl = false ∧
      (out.head? ≠ some "" → beginsWith (joinLines out).data ['\n'] = false) ∧
      beginsWith (joinLines out).data ['\n', '\n'] = false := by
  intro out
  induction out with
  | nil => intro _ _; exact ⟨rfl, fun _ => rfl, rfl⟩
  | cons l rest ih =>
    intro hno hadj
    cases rest with
    | nil =>
      have hl := hno l (List.mem_cons_self l [])
      have hforall := noNlB_forall l hl
      refine ⟨containsSub_tripleNl_nlfree _ hforall, ?_, ?_⟩
      · intro _
        apply beginsWith_nl_false
        intro c hc
        have hje : (joinLines [l]).data = l.data := rfl
        rw [hje] at hc
        apply hforall
        cases hld : l.data with
        | nil => rw [hld] at hc; cases hc
        | cons x xs =>
          rw [hld] at hc
          simp only [List.head?_cons, Option.some_inj] at hc
          rw [← hc]
          exact List.mem_cons_self x xs
      · cases hld : (joinLines [l]).data with
        | nil => rfl
        | cons x xs =>
          have hx : ¬ x = '\n' := by
            apply hforall
            have : (joinLines [l]).data = l.data := rfl
            rw [this] at hld
            rw [hld]
            exact List.mem_cons_self x xs
          have hc : (x == '\n') = false := by
            cases hb : x == '\n'
            · rfl
            · exact absurd (eq_of_beq hb) hx
          simp only [beginsWith, hc, Bool.false_and]
    | cons r rest2 =>
      have hl := hno l (List.mem_cons_self l _)
      have hlf := noNlB_forall l hl
      have hadj2 : noAdjEmptyB (r :: rest2) = true := by
        unfold noAdjEmptyB at hadj
        rw [Bool.and_eq_true] at hadj
        exact hadj.2
      have hab : ¬(l = "" ∧ r = "") := by
        unfold noAdjEmptyB at hadj
        rw [Bool.and_eq_true] at hadj
        intro hc
        have := hadj.1
        rw [hc.1, hc.2] at this
        simp at this
      have hno2 : ∀ q ∈ r :: rest2, noNlB q = true :=
        fun q hq => hno q (List.mem_cons_of_mem l hq)
      obtain ⟨ih1, ih2, ih3⟩ := ih hno2 hadj2
      have hdata : (joinLines (l :: r :: rest2)).data =
          l.data ++ '\n' :: (joinLines (r :: rest2)).data := by
        show (l ++ "\n" ++ joinLines (r :: rest2)).data = _
        simp [String.data_append]
      refine ⟨?_, ?_, ?_⟩
      · rw [hdata, containsSub_append_nlfree _ _ hlf]
        show (beginsWith ('\n' :: (joinLines (r :: rest2)).data) tripleNl ||
          containsSub (joinLines (r :: rest2)).data tripleNl) = false
        rw [ih1]
        have : beginsWith ('\n' :: (joinLines (r :: rest2)).data) tripleNl =
            beginsWith (joinLines (r :: rest2)).data ['\n', '\n'] := by
          simp [tripleNl, beginsWith]
        rw [this, ih3]
        rfl
      · intro hne
        rw [hdata]
        cases hld : l.data with
        | nil =>
          exfalso
          apply hne
          have : l = "" := by
            cases l with
            | mk d => cases hld; rfl
          rw [this]
          rfl
        | cons x xs =>
          have hx : (x == '\n') = false := by
            cases hb : x == '\n'
            · rfl
            · exact absurd (eq_of_beq hb) (hlf x (by rw [hld]; exact List.mem_cons_self x xs))
          simp only [List.cons_append, beginsWith, hx, Bool.false_and]
      · rw [hdata]
        cases hld : l.data with
        | nil =>
          have hlempty : l = "" := by
            cases l with
            | mk d => cases hld; rfl
          have hrne : r ≠ "" := fun hc => hab ⟨hlempty, hc⟩
          simp only [List.nil_append]
          show (('\n' == '\n') && beginsWith (joinLines (r :: rest2)).data ['\n']) = false
          rw [ih2 (by simpa using hrne)]
          rfl
        | cons x xs =>
          have hx : (x == '\n') = false := by
            cases hb : x == '\n'
            · rfl
            · exact absurd (eq_of_beq hb) (hlf x (by rw [hld]; exact List.mem_cons_self x xs))
          simp only [List.cons_append, beginsWith, hx, Bool.false_and]

/-- Every list begins with the empty pattern. -/
theorem beginsWith_nil_pat : ∀ l : List Char, beginsWith l [] = true := by
  intro l
  cases l <;> rfl

/-- `beginsWith` survives extending the scanned list. -/
theorem beginsWith_append_mono (pat : List Char) :
    ∀ (a x : List Char), beginsWith a pat = true → beginsWith (a ++ x) pat = true := by
  induction pat with
  | nil => intro a x _; exact beginsWith_nil_pat _
  | cons d ds ih =>
    intro a x h
    cases a with
    | nil => cases h
    | cons c cs =>
      simp only [beginsWith, Bool.and_eq_true] at h
      simp only [List.cons_append, beginsWith, Bool.and_eq_true]
      exact ⟨h.1, ih cs x h.2⟩

/-- Every list contains the empty pattern. -/
theorem containsSub_nil_pat : ∀ l : List Char, containsSub l [] = true := by
  intro l
  cases l with
  | nil => rfl
  | cons c cs => rfl

/-- A substring of a prefix is a substring of the whole. -/
theorem containsSub_append_right (pat : List Char) :
    ∀ (a x : List Char), containsSub a pat = true → containsSub (a ++ x) pat = true := by
  intro a
  induction a with
  | nil =>
    intro x h
    simp only [containsSub] at h
    rw [List.isEmpty_iff] at h
    rw [h]
    exact containsSub_nil_pat _
  | cons c cs ih =>
    intro x h
    simp only [containsSub, Bool.or_eq_true] at h
    simp only [List.cons_append, containsSub, Bool.or_eq_true]
    rcases h with h | h
    · exact Or.inl (by
        have := beginsWith_append_mono pat (c :: cs) x h
        simpa using this)
    · exact Or.inr (ih x h)

/-- A substring of a suffix is a substring of the whole. -/
theorem containsSub_append_left (pat : List Char) :
    ∀ (t b : List Char), containsSub b pat = true → containsSub (t ++ b) pat = true := by
  intro t
  induction t with
  | nil => intro b h; exact h
  | cons c cs ih =>
    intro b h
    simp only [List.cons_append, containsSub, Bool.or_eq_true]
    exact Or.inr (ih b h)

/-- A substring of the trimmed list is a substring of the original. -/
theorem containsSub_trim (l pat : List Char)
    (h : containsSub (trimChars l) pat = true) : containsSub l pat = true := by
  unfold trimChars at h
  have hm : l.dropWhile isWsChar =
      ((l.dropWhile isWsChar).reverse.dropWhile isWsChar).reverse ++
      ((l.dropWhile isWsChar).reverse.takeWhile isWsChar).reverse := by
    have h1 := List.takeWhile_append_dropWhile
      (p := isWsChar) (l := (l.dropWhile isWsChar).reverse)
    have h2 := congrArg List.reverse h1
    rw [List.reverse_append, List.reverse_reverse] at h2
    exact h2.symm
  have h3 : containsSub (l.dropWhile isWsChar) pat = true := by
    rw [hm]
    exact containsSub_append_right pat _ _ h
  have h4 : l = l.takeWhile isWsChar ++ l.dropWhile isWsChar :=
    (List.takeWhile_append_dropWhile (p := isWsChar) (l := l)).symm
  rw [h4]
  exact containsSub_append_left pat _ _ h3

/-- The head of a `dropWhile` fails the predicate. -/
theorem dropWhile_head_not (p : Char → Bool) :
    ∀ (l : List Char) (c : Char), (l.dropWhile p).head? = some c → p c = false := by
  intro l
  induction l with
  | nil => intro c h; cases h
  | cons x xs ih =>
    intro c h
    by_cases hx : p x = true
    · rw [List.dropWhile_cons_of_pos hx] at h
      exact ih c h
    · rw [List.dropWhile_cons_of_neg hx] at h
      simp only [List.head?_cons, Option.some_inj] at h
      rw [← h]
      exact eq_false_of_ne_true hx

/-- The head of a trimmed list is not whitespace. -/
theorem trimChars_head (l : List Char) (c : Char)
    (h : (trimChars l).head? = some c) : isWsChar c = false := by
  have hm : l.dropWhile isWsChar =
      trimChars l ++ ((l.dropWhile isWsChar).reverse.takeWhile isWsChar).reverse := by
    unfold trimChars
    have h1 := List.takeWhile_append_dropWhile
      (p := isWsChar) (l := (l.dropWhile isWsChar).reverse)
    have h2 := congrArg List.reverse h1
    rw [List.reverse_append, List.reverse_reverse] at h2
    exact h2.symm
  cases ht : trimChars l with
  | nil => rw [ht] at h; cases h
  | cons h0 t0 =>
    rw [ht] at h
    simp only [List.head?_cons, Option.some_inj] at h
    apply dropWhile_head_not isWsChar l c
    rw [hm, ht, ← h]
    rfl

/-- The last element of a trimmed list is not whitespace. -/
theorem trimChars_getLast (l : List Char) (c : Char)
    (h : (trimChars l).getLast? = some c) : isWsChar c = false := by
  unfold trimChars at h
  rw [List.getLast?_reverse] at h
  exact dropWhile_head_not isWsChar _ c h

/-- **C9 counterexample.** A `MinimalTextOptions` whose cell separator is
itself a blank-line run defeats the blank-line policy: on a one-row
two-cell table the output is literally `A`, two blank lines, `B`. -/
theorem c9_blank_lines_counterexample :
    documentToMinimalText smallTableDoc
        { defaultMinimalTextOptions with tableCellSeparator := "\n\n\n" } = "A\n\n\nB" ∧
    containsSub ("A\n\n\nB" : String).data tripleNl = true :=
  ⟨by decide, by decide⟩

/-- **C9 (amended).** For every document and every `MinimalTextOptions`
whose `headingPrefix`, `listMarker` and `tableCellSeparator` contain no
newline character, the minimal-text output never contains two or more
consecutive blank lines (no three consecutive newline characters) and
its first and last lines are never blank (the output neither starts nor
ends with a newline). -/
theorem c9_blank_lines_amended (body : DNode) (opts : MinimalTextOptions)
    (hpre : noNlB opts.headingPrefixStr = true)
    (hm : noNlB opts.listMarker = true)
    (hsep : noNlB opts.tableCellSeparator = true) :
    containsSub (documentToMinimalText body opts).data tripleNl = false ∧
    (documentToMinimalText body opts).data.head? ≠ some '\n' ∧
    (documentToMinimalText body opts).data.getLast? ≠ some '\n' := by
  have hout := processBlocksM_noNl opts hpre hm hsep body.childList "" [] body
    (by intro l h; cases h)
  have hno0 : ∀ l ∈ collapseBlankLinesGo [] (processBlocksM opts body.childList "" [] body).fst,
      noNlB l = true := by
    intro l hmem
    rcases collapseBlankLinesGo_mem _ [] l hmem with h | h | h
    · cases h
    · rw [h]; rfl
    · exact hout l h
  have hgood := collapseBlankLinesGo_good
    (processBlocksM opts body.childList "" [] body).fst [] rfl (by simp)
  obtain ⟨hshape1, _, _⟩ := joinLines_shape _ hno0 hgood.1
  have hmain : documentToMinimalText body opts =
      jsTrim (joinLines (collapseBlankLinesGo []
        (processBlocksM opts body.childList "" [] body).fst)) := rfl
  refine ⟨?_, ?_, ?_⟩
  · rw [hmain]
    cases hcc : containsSub (jsTrim (joinLines (collapseBlankLinesGo []
        (processBlocksM opts body.childList "" [] body).fst))).data tripleNl
    · rfl
    · exfalso
      have h2 : containsSub (joinLines (collapseBlankLinesGo []
          (processBlocksM opts body.childList "" [] body).fst)).data tripleNl = true :=
        containsSub_trim _ _ hcc
      rw [hshape1] at h2
      cases h2
  · rw [hmain]
    intro hc
    have := trimChars_head _ '\n' hc
    exact absurd this (by decide)
  · rw [hmain]
    intro hc
    have := trimChars_getLast _ '\n' hc
    exact absurd this (by decide)

/-- Instance of the amended blank-line policy at the structural scenario
document under the default options, whose marker strings are
newline-free. -/
theorem c9_blank_lines_amended_witness :
    noNlB defaultMinimalTextOptions.headingPrefixStr = true ∧
    noNlB defaultMinimalTextOptions.listMarker = true ∧
    noNlB defaultMinimalTextOptions.tableCellSeparator = true ∧
    (containsSub (documentToMinimalText minimalTextDoc defaultMinimalTextOptions).data
        tripleNl = false ∧
     (documentToMinimalText minimalTextDoc defaultMinimalTextOptions).data.head? ≠ some '\n' ∧
     (documentToMinimalText minimalTextDoc defaultMinimalTextOptions).data.getLast? ≠ some '\n') :=
  ⟨by decide, by decide, by decide,
    c9_blank_lines_amended minimalTextDoc defaultMinimalTextOptions
      (by decide) (by decide) (by decide)⟩

/-! ### Read-only renderer: store preservation -/

mutual

/-- `textFromInlineM` leaves the store untouched. -/
theorem textFromInlineM_store : ∀ (n store : DNode), (textFromInlineM n store).snd = store := by
  intro n store
  cases n with
  | text i s => rfl
  | comment i s => rfl
  | elem i t a cs =>
    show (textFromInlineM (.elem i t a cs) store).snd = store
    unfold textFromInlineM
    by_cases ht : (t == "br") = true
    · simp only [ht, if_true]
    · simp only [ht, Bool.false_eq_true, if_false]
      exact textFromInlineLM_store cs store

/-- `textFromInlineLM` leaves the store untouched. -/
theorem textFromInlineLM_store :
    ∀ (cs : List DNode) (store : DNode), (textFromInlineLM cs store).snd = store := by
  intro cs store
  cases cs with
  | nil => rfl
  | cons n rest =>
    show (textFromInlineLM (n :: rest) store).snd = store
    unfold textFromInlineLM
    rw [textFromInlineLM_store rest, textFromInlineM_store n store]

end

/-- `inlineOfItemM` leaves the store untouched. -/
theorem inlineOfItemM_store :
    ∀ (cs : List DNode) (store : DNode), (inlineOfItemM cs store).snd = store := by
  intro cs
  induction cs with
  | nil => intro store; rfl
  | cons child rest ih =>
    intro store
    unfold inlineOfItemM
    by_cases hc : (child.isElem && isListElement child) = true
    · simp only [hc, if_true]
      exact ih store
    · simp only [hc, Bool.false_eq_true, if_false]
      rw [ih, textFromInlineM_store child store]

/-- `tableRowLineM` leaves the store untouched. -/
theorem tableRowLineM_store (opts : MinimalTextOptions) (row store : DNode) :
    (tableRowLineM opts row store).snd = store := by
  unfold tableRowLineM
  have hfold : ∀ (cells : List DNode) (acc : List String × DNode),
      (cells.foldl
        (fun (acc : List String × DNode) cell =>
          let rc := textFromInlineM cell acc.snd
          (acc.fst ++ [normalizeInline rc.fst], rc.snd)) acc).snd = acc.snd := by
    intro cells
    induction cells with
    | nil => intro acc; rfl
    | cons cell rest ih =>
      intro acc
      rw [List.foldl_cons, ih]
      show (textFromInlineM cell acc.snd).snd = acc.snd
      exact textFromInlineM_store cell acc.snd
  rw [hfold]

/-- `handleTableM` leaves the store untouched. -/
theorem handleTableM_store (opts : MinimalTextOptions) (lines : List String)
    (tableEl store : DNode) : (handleTableM opts lines tableEl store).snd = store := by
  unfold handleTableM
  have hfold : ∀ (rows : List DNode) (acc : List String × DNode),
      (rows.foldl
        (fun (acc : List String × DNode) row =>
          let rl := tableRowLineM opts row acc.snd
          (if rl.fst.isEmpty then acc.fst else acc.fst ++ [rl.fst], rl.snd)) acc).snd = acc.snd := by
    intro rows
    induction rows with
    | nil => intro acc; rfl
    | cons row rest ih =>
      intro acc
      rw [List.foldl_cons, ih]
      show (tableRowLineM opts row acc.snd).snd = acc.snd
      exact tableRowLineM_store opts row acc.snd
  rw [hfold]

mutual

/-- `handleListM` leaves the store untouched. -/
theorem handleListM_store (opts : MinimalTextOptions) :
    ∀ (lines : List String) (el store : DNode), (handleListM opts lines el store).snd = store := by
  intro lines el store
  cases el with
  | elem i t a cs => exact handleListChildrenM_store opts lines cs store
  | text i s => rfl
  | comment i s => rfl

/-- The `li` loop leaves the store untouched. -/
theorem handleListChildrenM_store (opts : MinimalTextOptions) :
    ∀ (lines : List String) (cs : List DNode) (store : DNode),
      (handleListChildrenM opts lines cs store).snd = store := by
  intro lines cs store
  cases cs with
  | nil => rfl
  | cons li rest =>
    show (handleListChildrenM opts lines (li :: rest) store).snd = store
    unfold handleListChildrenM
    by_cases hli : (li.tagOf == "li") = true
    · simp only [hli, if_true]
      rw [handleListChildrenM_store opts _ rest, handleListItemM_store opts lines li store]
    · simp only [hli, Bool.false_eq_true, if_false]
      exact handleListChildrenM_store opts lines rest store

/-- `handleListItem` leaves the store untouched. -/
theorem handleListItemM_store (opts : MinimalTextOptions) :
    ∀ (lines : List String) (li store : DNode),
      (handleListItemM opts lines li store).snd = store := by
  intro lines li store
  cases li with
  | elem i t a cs =>
    show (nestedListsM opts
        (appendTextLines lines (inlineOfItemM cs store).fst (opts.listMarker ++ " ")) cs
        (inlineOfItemM cs store).snd).snd = store
    rw [nestedListsM_store opts _ cs, inlineOfItemM_store cs store]
  | text i s => rfl
  | comment i s => rfl

/-- The nested-list loop leaves the store untouched. -/
theorem nestedListsM_store (opts : MinimalTextOptions) :
    ∀ (lines : List String) (cs : List DNode) (store : DNode),
      (nestedListsM opts lines cs store).snd = store := by
  intro lines cs store
  cases cs with
  | nil => rfl
  | cons child rest =>
    show (nestedListsM opts lines (child :: rest) store).snd = store
    unfold nestedListsM
    by_cases hc : isListElement child = true
    · simp only [hc, if_true]
      rw [nestedListsM_store opts _ rest, handleListM_store opts lines child store]
    · simp only [hc, Bool.false_eq_true, if_false]
      exact nestedListsM_store opts lines rest store

end

/-- `handleBlockM` leaves the store untouched. -/
theorem handleBlockM_store (opts : MinimalTextOptions) (lines : List String)
    (el store : DNode) : (handleBlockM opts lines el store).snd = store := by
  unfold handleBlockM
  set tag := el.tagOf with htag
  by_cases h1 : (tag == "h1" || tag == "h2" || tag == "h3" || tag == "h4" ||
      tag == "h5" || tag == "h6") = true
  · simp only [h1, if_true]
    exact textFromInlineM_store el store
  · simp only [h1, Bool.false_eq_true, if_false]
    by_cases h2 : (tag == "p") = true
    · simp only [h2, if_true]
      exact textFromInlineM_store el store
    · simp only [h2, Bool.false_eq_true, if_false]
      by_cases h3 : (tag == "ul" || tag == "ol") = true
      · simp only [h3, if_true]
        exact handleListM_store opts lines el store
      · simp only [h3, Bool.false_eq_true, if_false]
        by_cases h4 : (tag == "li") = true
        · simp only [h4, if_true]
          exact handleListItemM_store opts lines el store
        · simp only [h4, Bool.false_eq_true, if_false]
          by_cases h5 : (tag == "table") = true
          · simp only [h5, if_true]
            exact handleTableM_store opts lines el store
          · simp only [h5, Bool.false_eq_true, if_false]
            exact textFromInlineM_store el store

/-- `processBlocksM` leaves the store untouched. -/
theorem processBlocksM_store (opts : MinimalTextOptions) :
    ∀ (cs : List DNode) (buffer : String) (lines : List String) (store : DNode),
      (processBlocksM opts cs buffer lines store).snd = store := by
  intro cs
  induction cs with
  | nil => intro buffer lines store; rfl
  | cons child rest ih =>
    intro buffer lines store
    unfold processBlocksM
    by_cases hbl : isBlockElement child = true
    · simp only [hbl, if_true]
      rw [ih, handleBlockM_store]
    · simp only [hbl, Bool.false_eq_true, if_false]
      rw [ih, textFromInlineM_store child store]

/-- **C10.** The minimal-text renderer is read-only: the store-threading
embedding returns the document exactly as it received it, for every
document and every option record; consequently rendering the document a
second time — from the document the first call left behind — produces
the same string.  (The walkers use only the read operations of the
source; no mutation primitive occurs in them, and the theorem certifies
it.) -/
theorem c10_renderer_read_only (body : DNode) (opts : MinimalTextOptions) :
    (documentToMinimalTextM body opts).snd = body ∧
    (documentToMinimalTextM (documentToMinimalTextM body opts).snd opts).fst =
      (documentToMinimalTextM body opts).fst := by
  have hsnd : (documentToMinimalTextM body opts).snd = body := by
    show (processBlocksM opts body.childList "" [] body).snd = body
    exact processBlocksM_store opts body.childList "" [] body
  exact ⟨hsnd, by rw [hsnd]⟩

/-! ### C4: the node-processing budget -/

/-! ## Base lemmas about `findN` and `idsN` -/

theorem nid_mem_idsN (n : DNode) : n.nid ∈ idsN n := by
  cases n <;> simp [idsN, DNode.nid]

theorem findN_self (n : DNode) : findN n n.nid = some n := by
  cases n <;> simp [findN, DNode.nid]

mutual

theorem find_some_mem_N (t : DNode) (j : Nat) (n : DNode)
    (h : findN t j = some n) : j ∈ idsN t := by
  cases t with
  | elem a tag at_ cs =>
    simp only [findN] at h
    by_cases hc : (a == j) = true
    · simp only [idsN, List.mem_cons]
      exact Or.inl (eq_of_beq hc).symm
    · simp only [hc, Bool.false_eq_true, if_false] at h
      simp only [idsN, List.mem_cons]
      exact Or.inr (find_some_mem_L cs j n h)
  | text a s =>
    simp only [findN] at h
    by_cases hc : (a == j) = true
    · simp [idsN, (eq_of_beq hc).symm]
    · simp [hc] at h
  | comment a s =>
    simp only [findN] at h
    by_cases hc : (a == j) = true
    · simp [idsN, (eq_of_beq hc).symm]
    · simp [hc] at h

theorem find_some_mem_L (l : List DNode) (j : Nat) (n : DNode)
    (h : findL l j = some n) : j ∈ idsL l := by
  cases l with
  | nil => simp [findL] at h
  | cons m rest =>
    simp only [findL] at h
    cases hm : findN m j with
    | some r =>
      simp only [idsL, List.mem_append]
      exact Or.inl (find_some_mem_N m j r hm)
    | none =>
      simp only [hm] at h
      simp only [idsL, List.mem_append]
      exact Or.inr (find_some_mem_L rest j n h)

end

mutual

theorem mem_find_isSome_N (t : DNode) (j : Nat) (h : j ∈ idsN t) :
    (findN t j).isSome = true := by
  cases t with
  | elem a tag at_ cs =>
    simp only [findN]
    by_cases hc : (a == j) = true
    · simp [hc]
    · simp only [hc, Bool.false_eq_true, if_false]
      simp only [idsN, List.mem_cons] at h
      rcases h with h | h
      · exact absurd (beq_iff_eq.mpr h.symm) hc
      · exact mem_find_isSome_L cs j h
  | text a s =>
    simp only [idsN, List.mem_singleton] at h
    simp [findN, beq_iff_eq.mpr h.symm]
  | comment a s =>
    simp only [idsN, List.mem_singleton] at h
    simp [findN, beq_iff_eq.mpr h.symm]

theorem mem_find_isSome_L (l : List DNode) (j : Nat) (h : j ∈ idsL l) :
    (findL l j).isSome = true := by
  cases l with
  | nil => simp [idsL] at h
  | cons m rest =>
    simp only [idsL, List.mem_append] at h
    simp only [findL]
    cases hm : findN m j with
    | some r => simp
    | none =>
      rcases h with h | h
      · have := mem_find_isSome_N m j h
        rw [hm] at this
        simp at this
      · exact mem_find_isSome_L rest j h

end

theorem find_none_of_not_mem_N (t : DNode) (j : Nat) (h : j ∉ idsN t) :
    findN t j = none := by
  cases hf : findN t j with
  | none => rfl
  | some n => exact absurd (find_some_mem_N t j n hf) h

theorem find_none_of_not_mem_L (l : List DNode) (j : Nat) (h : j ∉ idsL l) :
    findL l j = none := by
  cases hf : findL l j with
  | none => rfl
  | some n => exact absurd (find_some_mem_L l j n hf) h

mutual

theorem find_nid_N (t : DNode) (j : Nat) (n : DNode)
    (h : findN t j = some n) : n.nid = j := by
  cases t with
  | elem a tag at_ cs =>
    simp only [findN] at h
    by_cases hc : (a == j) = true
    · simp only [hc, if_true] at h
      cases h
      exact eq_of_beq hc
    · simp only [hc, Bool.false_eq_true, if_false] at h
      exact find_nid_L cs j n h
  | text a s =>
    simp only [findN] at h
    by_cases hc : (a == j) = true
    · simp only [hc, if_true] at h
      cases h
      exact eq_of_beq hc
    · simp [hc] at h
  | comment a s =>
    simp only [findN] at h
    by_cases hc : (a == j) = true
    · simp only [hc, if_true] at h
      cases h
      exact eq_of_beq hc
    · simp [hc] at h

theorem find_nid_L (l : List DNode) (j : Nat) (n : DNode)
    (h : findL l j = some n) : n.nid = j := by
  cases l with
  | nil => simp [findL] at h
  | cons m rest =>
    simp only [findL] at h
    cases hm : findN m j with
    | some r =>
      simp only [hm] at h
      cases h
      exact find_nid_N m j n hm
    | none =>
      simp only [hm] at h
      exact find_nid_L rest j n h

end

mutual

theorem find_sublist_N (t : DNode) (j : Nat) (n : DNode)
    (h : findN t j = some n) : (idsN n).Sublist (idsN t) := by
  cases t with
  | elem a tag at_ cs =>
    simp only [findN] at h
    by_cases hc : (a == j) = true
    · simp only [hc, if_true] at h
      cases h
      exact List.Sublist.refl _
    · simp only [hc, Bool.false_eq_true, if_false] at h
      exact (find_sublist_L cs j n h).cons a
  | text a s =>
    simp only [findN] at h
    by_cases hc : (a == j) = true
    · simp only [hc, if_true] at h
      cases h
      exact List.Sublist.refl _
    · simp [hc] at h
  | comment a s =>
    simp only [findN] at h
    by_cases hc : (a == j) = true
    · simp only [hc, if_true] at h
      cases h
      exact List.Sublist.refl _
    · simp [hc] at h

theorem find_sublist_L (l : List DNode) (j : Nat) (n : DNode)
    (h : findL l j = some n) : (idsN n).Sublist (idsL l) := by
  cases l with
  | nil => simp [findL] at h
  | cons m rest =>
    simp only [findL] at h
    cases hm : findN m j with
    | some r =>
      simp only [hm] at h
      cases h
      exact (find_sublist_N m j n hm).trans (List.sublist_append_left _ _)
    | none =>
      simp only [hm] at h
      exact (find_sublist_L rest j n h).trans (List.sublist_append_right _ _)

end

theorem find_nodup_N (t : DNode) (j : Nat) (n : DNode)
    (hnd : (idsN t).Nodup) (h : findN t j = some n) : (idsN n).Nodup :=
  (find_sublist_N t j n h).nodup hnd

theorem ids_of_mem (cs : List DNode) (n : DNode) (h : n ∈ cs) :
    (idsN n).Sublist (idsL cs) := by
  induction cs with
  | nil => simp at h
  | cons m rest ih =>
    rcases List.mem_cons.mp h with h | h
    · subst h
      exact List.sublist_append_left _ _
    · exact (ih h).trans (List.sublist_append_right _ _)

mutual

theorem mem_le_maxId_N (t : DNode) (j : Nat) (h : j ∈ idsN t) : j ≤ maxIdN t := by
  cases t with
  | elem a tag at_ cs =>
    simp only [idsN, List.mem_cons] at h
    simp only [maxIdN]
    rcases h with h | h
    · subst h; exact Nat.le_max_left _ _
    · exact (mem_le_maxId_L cs j h).trans (Nat.le_max_right _ _)
  | text a s =>
    simp only [idsN, List.mem_singleton] at h
    subst h; exact Nat.le_refl _
  | comment a s =>
    simp only [idsN, List.mem_singleton] at h
    subst h; exact Nat.le_refl _

theorem mem_le_maxId_L (l : List DNode) (j : Nat) (h : j ∈ idsL l) : j ≤ maxIdL l := by
  cases l with
  | nil => simp [idsL] at h
  | cons m rest =>
    simp only [idsL, List.mem_append] at h
    simp only [maxIdL]
    rcases h with h | h
    · exact (mem_le_maxId_N m j h).trans (Nat.le_max_left _ _)
    · exact (mem_le_maxId_L rest j h).trans (Nat.le_max_right _ _)

end

theorem idsL_append (a b : List DNode) : idsL (a ++ b) = idsL a ++ idsL b := by
  induction a with
  | nil => simp [idsL]
  | cons m rest ih => simp [idsL, ih]

theorem findL_append (a b : List DNode) (j : Nat) :
    findL (a ++ b) j =
      match findL a j with
      | some r => some r
      | none => findL b j := by
  induction a with
  | nil => simp [findL]
  | cons m rest ih =>
    simp only [List.cons_append, findL]
    cases hm : findN m j with
    | some r => rfl
    | none => simpa using ih

theorem childList_ids_sublist (n : DNode) : (idsL n.childList).Sublist (idsN n) := by
  cases n with
  | elem a tag at_ cs => exact (List.Sublist.refl _).cons a
  | text a s => simp [DNode.childList, idsL]
  | comment a s => simp [DNode.childList, idsL]

theorem findL_nid_of_mem (cs : List DNode) (hnd : (idsL cs).Nodup) (n : DNode)
    (hm : n ∈ cs) : findL cs n.nid = some n := by
  induction cs with
  | nil => simp at hm
  | cons m rest ih =>
    simp only [idsL] at hnd
    have hparts := List.nodup_append.mp hnd
    rcases List.mem_cons.mp hm with h | h
    · subst h
      simp [findL, findN_self]
    · have hnm : n.nid ∉ idsN m := by
        intro hmem
        exact hparts.2.2 hmem ((ids_of_mem rest n h).subset (nid_mem_idsN n))
      simp only [findL, find_none_of_not_mem_N m n.nid hnm]
      exact ih hparts.2.1 h

theorem sibling_ids_disjoint (cs : List DNode) (hnd : (idsL cs).Nodup) :
    cs.Pairwise (fun n1 n2 => ∀ x, x ∈ idsN n1 → x ∈ idsN n2 → False) := by
  induction cs with
  | nil => exact List.Pairwise.nil
  | cons m rest ih =>
    simp only [idsL] at hnd
    have hparts := List.nodup_append.mp hnd
    refine List.Pairwise.cons ?_ (ih hparts.2.1)
    intro n hn x hx1 hx2
    exact hparts.2.2 hx1 ((ids_of_mem rest n hn).subset hx2)

theorem descIdsN_congr (t1 t2 : DNode) (j : Nat)
    (h : findN t1 j = findN t2 j) : descIdsN t1 j = descIdsN t2 j := by
  simp [descIdsN, h]

theorem descIdsN_eq_some (t : DNode) (j : Nat) (n : DNode)
    (h : findN t j = some n) : descIdsN t j = idsN n := by
  simp [descIdsN, h]

theorem descIdsN_eq_none (t : DNode) (j : Nat)
    (h : findN t j = none) : descIdsN t j = [] := by
  simp [descIdsN, h]

theorem descIdsN_elem (a : Nat) (tag : String) (at_ : List (String × String))
    (cs : List DNode) (j : Nat) (h : (a == j) = false) :
    descIdsN (.elem a tag at_ cs) j = descIdsL cs j := by
  simp [descIdsN, descIdsL, findN, h]

theorem descIdsL_cons_some (m : DNode) (rest : List DNode) (j : Nat) (r : DNode)
    (h : findN m j = some r) : descIdsL (m :: rest) j = descIdsN m j := by
  simp [descIdsL, descIdsN, findL, h]

theorem descIdsL_cons_none (m : DNode) (rest : List DNode) (j : Nat)
    (h : findN m j = none) : descIdsL (m :: rest) j = descIdsL rest j := by
  simp [descIdsL, findL, h]

theorem descIdsN_none_of_not_found (m : DNode) (j : Nat)
    (h : findN m j = none) : descIdsN m j = [] := by
  simp [descIdsN, h]

/-! ## Lookup localizes to a found subtree -/

mutual

theorem find_local_N (t : DNode) (i : Nat) (ni : DNode)
    (hnd : (idsN t).Nodup) (hi : findN t i = some ni)
    (j : Nat) (hj : j ∈ idsN ni) : findN t j = findN ni j := by
  cases t with
  | elem a tag at_ cs =>
    simp only [findN] at hi
    by_cases ha : (a == i) = true
    · simp only [ha, if_true] at hi
      cases hi
      rfl
    · simp only [ha, Bool.false_eq_true, if_false] at hi
      simp only [idsN] at hnd
      have hparts := List.nodup_cons.mp hnd
      by_cases haj : (a == j) = true
      · exfalso
        have hja : j = a := (eq_of_beq haj).symm
        have : j ∈ idsL cs := (find_sublist_L cs i ni hi).subset hj
        rw [hja] at this
        exact hparts.1 this
      · simp only [findN, haj, Bool.false_eq_true, if_false]
        exact find_local_L cs i ni hparts.2 hi j hj
  | text a s =>
    simp only [findN] at hi
    by_cases ha : (a == i) = true
    · simp only [ha, if_true] at hi
      cases hi
      rfl
    · simp [ha] at hi
  | comment a s =>
    simp only [findN] at hi
    by_cases ha : (a == i) = true
    · simp only [ha, if_true] at hi
      cases hi
      rfl
    · simp [ha] at hi

theorem find_local_L (cs : List DNode) (i : Nat) (ni : DNode)
    (hnd : (idsL cs).Nodup) (hi : findL cs i = some ni)
    (j : Nat) (hj : j ∈ idsN ni) : findL cs j = findN ni j := by
  cases cs with
  | nil => simp [findL] at hi
  | cons m rest =>
    simp only [idsL] at hnd
    have hparts := List.nodup_append.mp hnd
    simp only [findL] at hi ⊢
    cases hm : findN m i with
    | some r =>
      simp only [hm] at hi
      cases hi
      have hmj : findN m j = findN ni j := find_local_N m i ni hparts.1 hm j hj
      rw [hmj]
      have hsome := mem_find_isSome_N ni j hj
      cases hx : findN ni j with
      | some v => rfl
      | none => rw [hx] at hsome; simp at hsome
    | none =>
      simp only [hm] at hi
      have hmj : findN m j = none := by
        apply find_none_of_not_mem_N
        intro hmem
        have : j ∈ idsL rest := (find_sublist_L rest i ni hi).subset hj
        exact hparts.2.2 hmem this
      rw [hmj]
      exact find_local_L rest i ni hparts.2.1 hi j hj

end

/-! ## The rewrites are the identity away from their target -/

mutual

theorem setAttrs_id_N (t : DNode) (i : Nat) (a : List (String × String))
    (h : i ∉ idsN t) : setAttrsAtN t i a = t := by
  cases t with
  | elem b tag at_ cs =>
    simp only [idsN, List.mem_cons, not_or] at h
    have hb : (b == i) = false := by
      simp only [beq_eq_false_iff_ne, ne_eq]
      exact fun he => h.1 he.symm
    simp only [setAttrsAtN, hb, Bool.false_eq_true, if_false]
    rw [setAttrs_id_L cs i a h.2]
  | text b s => rfl
  | comment b s => rfl

theorem setAttrs_id_L (cs : List DNode) (i : Nat) (a : List (String × String))
    (h : i ∉ idsL cs) : setAttrsAtL cs i a = cs := by
  cases cs with
  | nil => rfl
  | cons m rest =>
    simp only [idsL, List.mem_append, not_or] at h
    simp only [setAttrsAtL]
    rw [setAttrs_id_N m i a h.1, setAttrs_id_L rest i a h.2]

end

mutual

theorem unwrap_id_N (t : DNode) (i : Nat) (sep : Option DNode)
    (h : i ∉ idsN t) : unwrapAtN t i sep = t := by
  cases t with
  | elem b tag at_ cs =>
    simp only [idsN, List.mem_cons, not_or] at h
    simp only [unwrapAtN]
    rw [unwrap_id_L cs i sep h.2]
  | text b s => rfl
  | comment b s => rfl

theorem unwrap_id_L (cs : List DNode) (i : Nat) (sep : Option DNode)
    (h : i ∉ idsL cs) : unwrapAtL cs i sep = cs := by
  cases cs with
  | nil => rfl
  | cons m rest =>
    simp only [idsL, List.mem_append, not_or] at h
    have hb : (m.nid == i) = false := by
      simp only [beq_eq_false_iff_ne, ne_eq]
      exact fun he => h.1 (he ▸ nid_mem_idsN m)
    simp only [unwrapAtL, hb, Bool.false_eq_true, if_false]
    rw [unwrap_id_N m i sep h.1, unwrap_id_L rest i sep h.2]

end

mutual

theorem remove_id_N (t : DNode) (i : Nat)
    (h : i ∉ idsN t) : removeByIdN t i = t := by
  cases t with
  | elem b tag at_ cs =>
    simp only [idsN, List.mem_cons, not_or] at h
    simp only [removeByIdN]
    rw [remove_id_L cs i h.2]
  | text b s => rfl
  | comment b s => rfl

theorem remove_id_L (cs : List DNode) (i : Nat)
    (h : i ∉ idsL cs) : removeByIdL cs i = cs := by
  cases cs with
  | nil => rfl
  | cons m rest =>
    simp only [idsL, List.mem_append, not_or] at h
    have hb : (m.nid == i) = false := by
      simp only [beq_eq_false_iff_ne, ne_eq]
      exact fun he => h.1 (he ▸ nid_mem_idsN m)
    simp only [removeByIdL, hb, Bool.false_eq_true, if_false]
    rw [remove_id_N m i h.1, remove_id_L rest i h.2]

end

/-! ## Stability: lookups away from the target are unchanged -/

theorem findL_sepOpt (sep : Option DNode) (j : Nat)
    (h : ∀ s, sep = some s → j ∉ idsN s) :
    findL (match sep with | some s => [s] | none => []) j = none := by
  cases sep with
  | none => rfl
  | some s =>
    simp only [findL]
    rw [find_none_of_not_mem_N s j (h s rfl)]

mutual

theorem setAttrs_find_N (t : DNode) (i j : Nat) (a : List (String × String))
    (hij : j ≠ i) (hd : i ∉ descIdsN t j) :
    findN (setAttrsAtN t i a) j = findN t j := by
  cases t with
  | elem b tag at_ cs =>
    by_cases hb : (b == i) = true
    · have hbj : (b == j) = false := by
        simp only [beq_eq_false_iff_ne, ne_eq]
        exact fun he => hij (he.symm.trans (eq_of_beq hb))
      simp [setAttrsAtN, hb, findN, hbj]
    · simp only [setAttrsAtN, hb, Bool.false_eq_true, if_false]
      by_cases hbj : (b == j) = true
      · have hdesc : descIdsN (.elem b tag at_ cs) j = idsN (.elem b tag at_ cs) :=
          descIdsN_eq_some _ _ _ (by simp [findN, hbj])
        rw [hdesc] at hd
        simp only [idsN, List.mem_cons, not_or] at hd
        rw [setAttrs_id_L cs i a hd.2]
      · have hbj2 : (b == j) = false := by simpa using hbj
        simp only [findN, hbj2, Bool.false_eq_true, if_false]
        rw [descIdsN_elem b tag at_ cs j hbj2] at hd
        exact setAttrs_find_L cs i j a hij hd
  | text b s => rfl
  | comment b s => rfl

theorem setAttrs_find_L (cs : List DNode) (i j : Nat) (a : List (String × String))
    (hij : j ≠ i) (hd : i ∉ descIdsL cs j) :
    findL (setAttrsAtL cs i a) j = findL cs j := by
  cases cs with
  | nil => rfl
  | cons m rest =>
    simp only [setAttrsAtL, findL]
    cases hm : findN m j with
    | some r =>
      rw [descIdsL_cons_some m rest j r hm] at hd
      rw [setAttrs_find_N m i j a hij hd, hm]
    | none =>
      have hdm : i ∉ descIdsN m j := by
        rw [descIdsN_none_of_not_found m j hm]
        simp
      rw [setAttrs_find_N m i j a hij hdm, hm]
      rw [descIdsL_cons_none m rest j hm] at hd
      exact setAttrs_find_L rest i j a hij hd

end

mutual

theorem unwrap_find_N (t : DNode) (i j : Nat) (sep : Option DNode)
    (hij : j ≠ i) (hd : i ∉ descIdsN t j)
    (hsep : ∀ s, sep = some s → j ∉ idsN s) :
    findN (unwrapAtN t i sep) j = findN t j := by
  cases t with
  | elem b tag at_ cs =>
    simp only [unwrapAtN]
    by_cases hbj : (b == j) = true
    · have hdesc : descIdsN (.elem b tag at_ cs) j = idsN (.elem b tag at_ cs) :=
        descIdsN_eq_some _ _ _ (by simp [findN, hbj])
      rw [hdesc] at hd
      simp only [idsN, List.mem_cons, not_or] at hd
      rw [unwrap_id_L cs i sep hd.2]
    · have hbj2 : (b == j) = false := by simpa using hbj
      simp only [findN, hbj2, Bool.false_eq_true, if_false]
      rw [descIdsN_elem b tag at_ cs j hbj2] at hd
      exact unwrap_find_L cs i j sep hij hd hsep
  | text b s => rfl
  | comment b s => rfl

theorem unwrap_find_L (cs : List DNode) (i j : Nat) (sep : Option DNode)
    (hij : j ≠ i) (hd : i ∉ descIdsL cs j)
    (hsep : ∀ s, sep = some s → j ∉ idsN s) :
    findL (unwrapAtL cs i sep) j = findL cs j := by
  cases cs with
  | nil => rfl
  | cons m rest =>
    by_cases hb : (m.nid == i) = true
    · simp only [unwrapAtL, hb, if_true]
      have hmj : findN m j =
          findL m.childList j := by
        cases m with
        | elem c tag at_ mcs =>
          have hcj : (c == j) = false := by
            simp only [beq_eq_false_iff_ne, ne_eq]
            intro he
            exact hij (he ▸ (eq_of_beq hb : DNode.nid (.elem c tag at_ mcs) = i))
          simp [findN, DNode.childList, hcj]
        | text c s =>
          have hcj : (c == j) = false := by
            simp only [beq_eq_false_iff_ne, ne_eq]
            intro he
            exact hij (he ▸ (eq_of_beq hb : DNode.nid (.text c s) = i))
          simp [findN, DNode.childList, findL, hcj]
        | comment c s =>
          have hcj : (c == j) = false := by
            simp only [beq_eq_false_iff_ne, ne_eq]
            intro he
            exact hij (he ▸ (eq_of_beq hb : DNode.nid (.comment c s) = i))
          simp [findN, DNode.childList, findL, hcj]
      cases sep with
      | none =>
        simp only [findL_append, findL, hmj]
        cases findL m.childList j with
        | some r => rfl
        | none => rfl
      | some s =>
        simp only [findL_append, findL, hmj, find_none_of_not_mem_N s j (hsep s rfl)]
        cases findL m.childList j with
        | some r => rfl
        | none => rfl
    · have hb2 : (m.nid == i) = false := by simpa using hb
      simp only [unwrapAtL, hb2, Bool.false_eq_true, if_false, findL]
      cases hm : findN m j with
      | some r =>
        rw [descIdsL_cons_some m rest j r hm] at hd
        rw [unwrap_find_N m i j sep hij hd hsep, hm]
      | none =>
        have hdm : i ∉ descIdsN m j := by
          rw [descIdsN_none_of_not_found m j hm]
          simp
        rw [unwrap_find_N m i j sep hij hdm hsep, hm]
        rw [descIdsL_cons_none m rest j hm] at hd
        exact unwrap_find_L rest i j sep hij hd hsep

end

/-! ## How each rewrite changes the id multiset -/

mutual

theorem setAttrs_ids_N (t : DNode) (i : Nat) (a : List (String × String)) :
    idsN (setAttrsAtN t i a) = idsN t := by
  cases t with
  | elem b tag at_ cs =>
    by_cases hb : (b == i) = true
    · simp [setAttrsAtN, hb, idsN]
    · have hb2 : (b == i) = false := by simpa using hb
      simp [setAttrsAtN, hb2, idsN, setAttrs_ids_L cs i a]
  | text b s => rfl
  | comment b s => rfl

theorem setAttrs_ids_L (cs : List DNode) (i : Nat) (a : List (String × String)) :
    idsL (setAttrsAtL cs i a) = idsL cs := by
  cases cs with
  | nil => rfl
  | cons m rest =>
    simp [setAttrsAtL, idsL, setAttrs_ids_N m i a, setAttrs_ids_L rest i a]

end

mutual

theorem remove_ids_sublist_N (t : DNode) (i : Nat) :
    (idsN (removeByIdN t i)).Sublist (idsN t) := by
  cases t with
  | elem b tag at_ cs =>
    simp only [removeByIdN, idsN]
    exact (remove_ids_sublist_L cs i).cons₂ b
  | text b s => exact List.Sublist.refl _
  | comment b s => exact List.Sublist.refl _

theorem remove_ids_sublist_L (cs : List DNode) (i : Nat) :
    (idsL (removeByIdL cs i)).Sublist (idsL cs) := by
  cases cs with
  | nil => exact List.Sublist.refl _
  | cons m rest =>
    by_cases hb : (m.nid == i) = true
    · simp only [removeByIdL, hb, if_true, idsL]
      exact List.sublist_append_right _ _
    · have hb2 : (m.nid == i) = false := by simpa using hb
      simp only [removeByIdL, hb2, Bool.false_eq_true, if_false, idsL]
      exact (remove_ids_sublist_N m i).append (remove_ids_sublist_L rest i)

end

mutual

theorem unwrap_ids_sub_N (t : DNode) (i : Nat) (sep : Option DNode) :
    ∀ x ∈ idsN (unwrapAtN t i sep), x ∈ idsN t ∨ ∃ s, sep = some s ∧ x ∈ idsN s := by
  cases t with
  | elem b tag at_ cs =>
    intro x hx
    simp only [unwrapAtN, idsN, List.mem_cons] at hx
    rcases hx with hx | hx
    · exact Or.inl (by simp [idsN, hx])
    · rcases unwrap_ids_sub_L cs i sep x hx with h | h
      · exact Or.inl (by simp [idsN, h])
      · exact Or.inr h
  | text b s => intro x hx; exact Or.inl hx
  | comment b s => intro x hx; exact Or.inl hx

theorem unwrap_ids_sub_L (cs : List DNode) (i : Nat) (sep : Option DNode) :
    ∀ x ∈ idsL (unwrapAtL cs i sep), x ∈ idsL cs ∨ ∃ s, sep = some s ∧ x ∈ idsN s := by
  cases cs with
  | nil => intro x hx; exact Or.inl hx
  | cons m rest =>
    intro x hx
    by_cases hb : (m.nid == i) = true
    · simp only [unwrapAtL, hb, if_true, idsL_append] at hx
      rcases List.mem_append.mp hx with hx | hx
      · rcases List.mem_append.mp hx with hx | hx
        · exact Or.inl (List.mem_append.mpr (Or.inl
            ((childList_ids_sublist m).subset hx)))
        · cases sep with
          | none => simp [idsL] at hx
          | some s =>
            simp only [idsL, List.append_nil] at hx
            exact Or.inr ⟨s, rfl, hx⟩
      · exact Or.inl (List.mem_append.mpr (Or.inr hx))
    · have hb2 : (m.nid == i) = false := by simpa using hb
      simp only [unwrapAtL, hb2, Bool.false_eq_true, if_false, idsL,
        List.mem_append] at hx
      rcases hx with hx | hx
      · rcases unwrap_ids_sub_N m i sep x hx with h | h
        · exact Or.inl (List.mem_append.mpr (Or.inl h))
        · exact Or.inr h
      · rcases unwrap_ids_sub_L rest i sep x hx with h | h
        · exact Or.inl (List.mem_append.mpr (Or.inr h))
        · exact Or.inr h

end
theorem descIdsL_none_of_not_found (cs : List DNode) (j : Nat)
    (h : findL cs j = none) : descIdsL cs j = [] := by
  simp [descIdsL, h]

theorem findN_elem_ne (i : Nat) (tag : String) (attrs : List (String × String))
    (cs : List DNode) (j : Nat) (h : (i == j) = false) :
    findN (.elem i tag attrs cs) j = findL cs j := by
  simp [findN, h]

mutual

theorem remove_find_N (t : DNode) (i j : Nat)
    (hnd : (idsN t).Nodup)
    (hij : j ≠ i) (hd : i ∉ descIdsN t j) (hdj : j ∉ descIdsN t i) :
    findN (removeByIdN t i) j = findN t j := by
  cases t with
  | elem b tag at_ cs =>
    simp only [removeByIdN]
    simp only [idsN] at hnd
    have hparts := List.nodup_cons.mp hnd
    by_cases hbj : (b == j) = true
    · have hdesc : descIdsN (.elem b tag at_ cs) j = idsN (.elem b tag at_ cs) :=
        descIdsN_eq_some _ _ _ (by simp [findN, hbj])
      rw [hdesc] at hd
      simp only [idsN, List.mem_cons, not_or] at hd
      rw [remove_id_L cs i hd.2]
    · have hbj2 : (b == j) = false := by simpa using hbj
      simp only [findN, hbj2, Bool.false_eq_true, if_false]
      rw [descIdsN_elem b tag at_ cs j hbj2] at hd
      by_cases hbi : (b == i) = true
      · have hdesc : descIdsN (.elem b tag at_ cs) i = idsN (.elem b tag at_ cs) :=
          descIdsN_eq_some _ _ _ (by simp [findN, hbi])
        rw [hdesc] at hdj
        simp only [idsN, List.mem_cons, not_or] at hdj
        rw [find_none_of_not_mem_L (removeByIdL cs i) j
          (fun hm => hdj.2 ((remove_ids_sublist_L cs i).subset hm))]
        rw [find_none_of_not_mem_L cs j hdj.2]
      · have hbi2 : (b == i) = false := by simpa using hbi
        rw [descIdsN_elem b tag at_ cs i hbi2] at hdj
        exact remove_find_L cs i j hparts.2 hij hd hdj
  | text b s => rfl
  | comment b s => rfl

theorem remove_find_L (cs : List DNode) (i j : Nat)
    (hnd : (idsL cs).Nodup)
    (hij : j ≠ i) (hd : i ∉ descIdsL cs j) (hdj : j ∉ descIdsL cs i) :
    findL (removeByIdL cs i) j = findL cs j := by
  cases cs with
  | nil => rfl
  | cons m rest =>
    simp only [idsL] at hnd
    have hparts := List.nodup_append.mp hnd
    by_cases hb : (m.nid == i) = true
    · simp only [removeByIdL, hb, if_true]
      have hfi : findN m i = some m := (eq_of_beq hb) ▸ findN_self m
      rw [descIdsL_cons_some m rest i m hfi, descIdsN_eq_some m i m hfi] at hdj
      simp only [findL, find_none_of_not_mem_N m j hdj]
    · have hb2 : (m.nid == i) = false := by simpa using hb
      simp only [removeByIdL, hb2, Bool.false_eq_true, if_false, findL]
      have hdjm : j ∉ descIdsN m i := by
        cases hmi : findN m i with
        | some q =>
          rw [descIdsL_cons_some m rest i q hmi] at hdj
          exact hdj
        | none =>
          rw [descIdsN_none_of_not_found m i hmi]
          simp
      cases hm : findN m j with
      | some r =>
        rw [descIdsL_cons_some m rest j r hm] at hd
        rw [remove_find_N m i j hparts.1 hij hd hdjm, hm]
      | none =>
        have hdm : i ∉ descIdsN m j := by
          rw [descIdsN_none_of_not_found m j hm]
          simp
        rw [remove_find_N m i j hparts.1 hij hdm hdjm, hm]
        rw [descIdsL_cons_none m rest j hm] at hd
        have hdjrest : j ∉ descIdsL rest i := by
          cases hmi : findN m i with
          | some q =>
            have hir : i ∉ idsL rest :=
              fun hmem => hparts.2.2 (find_some_mem_N m i q hmi) hmem
            rw [descIdsL_none_of_not_found rest i (find_none_of_not_mem_L rest i hir)]
            simp
          | none =>
            rw [descIdsL_cons_none m rest i hmi] at hdj
            exact hdj
        exact remove_find_L rest i j hparts.2.1 hij hd hdjrest

end

/-! ## Rewriting the attributes of the target node -/

mutual

theorem setAttrs_target_N (t : DNode) (i : Nat) (a : List (String × String))
    (tg : String) (at2 : List (String × String)) (cs : List DNode)
    (h : findN t i = some (.elem i tg at2 cs)) :
    findN (setAttrsAtN t i a) i = some (.elem i tg a cs) := by
  cases t with
  | elem b tag bt bcs =>
    by_cases hb : (b == i) = true
    · simp only [findN, hb, if_true] at h
      have h2 := Option.some.inj h
      simp only [DNode.elem.injEq] at h2
      obtain ⟨h3, h4, h5, h6⟩ := h2
      subst h3; subst h4; subst h5; subst h6
      simp [setAttrsAtN, hb, findN]
    · have hb2 : (b == i) = false := by simpa using hb
      simp only [findN, hb2, Bool.false_eq_true, if_false] at h
      simp only [setAttrsAtN, hb2, Bool.false_eq_true, if_false, findN]
      exact setAttrs_target_L bcs i a tg at2 cs h
  | text b s =>
    by_cases hb : (b == i) = true
    · simp [findN, hb] at h
    · simp [findN, hb] at h
  | comment b s =>
    by_cases hb : (b == i) = true
    · simp [findN, hb] at h
    · simp [findN, hb] at h

theorem setAttrs_target_L (l : List DNode) (i : Nat) (a : List (String × String))
    (tg : String) (at2 : List (String × String)) (cs : List DNode)
    (h : findL l i = some (.elem i tg at2 cs)) :
    findL (setAttrsAtL l i a) i = some (.elem i tg a cs) := by
  cases l with
  | nil => simp [findL] at h
  | cons m rest =>
    simp only [findL] at h
    cases hm : findN m i with
    | some r =>
      simp only [hm] at h
      have h2 := Option.some.inj h
      subst h2
      simp only [setAttrsAtL, findL]
      rw [setAttrs_target_N m i a tg at2 cs hm]
    | none =>
      simp only [hm] at h
      have hnm : i ∉ idsN m := by
        intro hmem
        have := mem_find_isSome_N m i hmem
        rw [hm] at this
        simp at this
      simp only [setAttrsAtL, findL, setAttrs_id_N m i a hnm, hm]
      exact setAttrs_target_L rest i a tg at2 cs h

end

/-! ## Unwrapping keeps ids duplicate-free (fresh separator) -/

mutual

theorem unwrap_nodup_N (t : DNode) (i : Nat) (sep : Option DNode)
    (hnd : (idsN t).Nodup)
    (hfresh : ∀ s, sep = some s → ∀ x ∈ idsN s, x ∉ idsN t)
    (hsnd : ∀ s, sep = some s → (idsN s).Nodup) :
    (idsN (unwrapAtN t i sep)).Nodup := by
  cases t with
  | elem b tag at_ cs =>
    simp only [idsN] at hnd
    have hparts := List.nodup_cons.mp hnd
    simp only [unwrapAtN, idsN, List.nodup_cons]
    constructor
    · intro hmem
      rcases unwrap_ids_sub_L cs i sep b hmem with h | ⟨s, hs, hbs⟩
      · exact hparts.1 h
      · exact hfresh s hs b hbs (by simp [idsN])
    · refine unwrap_nodup_L cs i sep hparts.2 ?_ hsnd
      intro s hs x hx hxl
      exact hfresh s hs x hx (by simp [idsN, hxl])
  | text b s => exact hnd
  | comment b s => exact hnd

theorem unwrap_nodup_L (cs : List DNode) (i : Nat) (sep : Option DNode)
    (hnd : (idsL cs).Nodup)
    (hfresh : ∀ s, sep = some s → ∀ x ∈ idsN s, x ∉ idsL cs)
    (hsnd : ∀ s, sep = some s → (idsN s).Nodup) :
    (idsL (unwrapAtL cs i sep)).Nodup := by
  cases cs with
  | nil => simp [unwrapAtL, idsL]
  | cons m rest =>
    simp only [idsL] at hnd
    have hparts := List.nodup_append.mp hnd
    have hclsub : ∀ x ∈ idsL m.childList, x ∈ idsN m :=
      fun x hx => (childList_ids_sublist m).subset hx
    by_cases hb : (m.nid == i) = true
    · simp only [unwrapAtL, hb, if_true]
      cases sep with
      | none =>
        simp only [List.append_nil, idsL_append]
        rw [List.nodup_append]
        refine ⟨(childList_ids_sublist m).nodup hparts.1, hparts.2.1, ?_⟩
        intro x hx hxr
        exact hparts.2.2 (hclsub x hx) hxr
      | some s =>
        simp only [idsL_append, idsL, List.append_nil]
        rw [List.nodup_append]
        refine ⟨?_, hparts.2.1, ?_⟩
        · rw [List.nodup_append]
          refine ⟨(childList_ids_sublist m).nodup hparts.1, hsnd s rfl, ?_⟩
          intro x hx hxs
          exact hfresh s rfl x hxs (by simp [idsL, hclsub x hx])
        · intro x hx hxr
          rcases List.mem_append.mp hx with hx | hx
          · exact hparts.2.2 (hclsub x hx) hxr
          · exact hfresh s rfl x hx (by simp [idsL, hxr])
    · have hb2 : (m.nid == i) = false := by simpa using hb
      simp only [unwrapAtL, hb2, Bool.false_eq_true, if_false, idsL]
      have hfreshm : ∀ s, sep = some s → ∀ x ∈ idsN s, x ∉ idsN m :=
        fun s hs x hx hxm => hfresh s hs x hx (by simp [idsL, hxm])
      have hfreshr : ∀ s, sep = some s → ∀ x ∈ idsN s, x ∉ idsL rest :=
        fun s hs x hx hxr => hfresh s hs x hx (by simp [idsL, hxr])
      rw [List.nodup_append]
      refine ⟨unwrap_nodup_N m i sep hparts.1 hfreshm hsnd,
              unwrap_nodup_L rest i sep hparts.2.1 hfreshr hsnd, ?_⟩
      by_cases hmem : i ∈ idsN m
      · have hir : i ∉ idsL rest := fun hx => hparts.2.2 hmem hx
        rw [unwrap_id_L rest i sep hir]
        intro x hx hxr
        rcases unwrap_ids_sub_N m i sep x hx with h | ⟨s, hs, hxs⟩
        · exact hparts.2.2 h hxr
        · exact hfreshr s hs x hxs hxr
      · rw [unwrap_id_N m i sep hmem]
        intro x hx hxr
        rcases unwrap_ids_sub_L rest i sep x hxr with h | ⟨s, hs, hxs⟩
        · exact hparts.2.2 hx h
        · exact hfreshm s hs x hxs hx

end
/-! ## Invariant preservation, per branch of the loop body -/

theorem BfsInv_skip (t0 : DNode) (st0 : BfsState) (i : Nat) (rest : List Nat)
    (hq : st0.queue = i :: rest) (hinv : BfsInv t0 st0) :
    BfsInv t0 { st0 with queue := rest, dequeued := st0.dequeued ++ [i] } := by
  obtain ⟨ha, hb, hc, hP, hD, hT⟩ := hinv
  rw [hq] at hc hP hD
  have hRij := (List.pairwise_cons.mp hP).1
  refine ⟨ha, hb, ?_, (List.pairwise_cons.mp hP).2, ?_, ?_⟩
  · exact fun j hj => hc j (List.mem_cons_of_mem i hj)
  · intro j hj d hd
    rcases List.mem_append.mp hd with hd | hd
    · exact hD j (List.mem_cons_of_mem i hj) d hd
    · have hdi : d = i := by simpa using hd
      rw [hdi]
      intro hmem
      obtain ⟨ni, hni0⟩ : ∃ ni, findN t0 i = some ni := by
        cases h : findN t0 i with
        | some n => exact ⟨n, rfl⟩
        | none =>
          have := (hc i (List.mem_cons_self i rest)).2
          rw [h] at this
          simp at this
      have himem : i ∈ descIdsN t0 i := by
        rw [descIdsN_eq_some t0 i ni hni0]
        exact (find_nid_N t0 i ni hni0) ▸ nid_mem_idsN ni
      exact hRij j hj i himem hmem
  · intro x hx
    exact List.mem_append.mpr (Or.inl (hT x hx))

theorem bfs_children_facts (t0 : DNode) (hnd0 : (idsN t0).Nodup)
    (i : Nat) (tag : String) (attrs : List (String × String)) (children : List DNode)
    (hni0 : findN t0 i = some (.elem i tag attrs children)) :
    ∀ n ∈ children, findN t0 n.nid = some n ∧ n.nid ≠ i := by
  intro n hn
  have hndni := find_nodup_N t0 i _ hnd0 hni0
  simp only [idsN] at hndni
  have hparts := List.nodup_cons.mp hndni
  have hjcl : n.nid ∈ idsL children := (ids_of_mem children n hn).subset (nid_mem_idsN n)
  have hne : n.nid ≠ i := fun he => hparts.1 (he ▸ hjcl)
  have hjni : n.nid ∈ idsN (DNode.elem i tag attrs children) := by
    simp only [idsN, List.mem_cons]
    exact Or.inr hjcl
  have hloc := find_local_N t0 i _ hnd0 hni0 n.nid hjni
  rw [findN_elem_ne i tag attrs children n.nid (beq_eq_false_iff_ne.mpr (Ne.symm hne)),
      findL_nid_of_mem children hparts.2 n hn] at hloc
  exact ⟨hloc, hne⟩

theorem bfs_queue_inv (t0 : DNode) (hnd0 : (idsN t0).Nodup) (st0 : BfsState)
    (i : Nat) (rest : List Nat) (tag : String) (attrs : List (String × String))
    (children : List DNode)
    (hq : st0.queue = i :: rest) (hinv : BfsInv t0 st0)
    (hni0 : findN t0 i = some (.elem i tag attrs children)) :
    ((rest ++ children.map DNode.nid).Pairwise
      (fun j k => ∀ x, x ∈ descIdsN t0 j → x ∈ descIdsN t0 k → False)) ∧
    (∀ j ∈ rest ++ children.map DNode.nid, ∀ d ∈ st0.dequeued ++ [i],
      d ∉ descIdsN t0 j) := by
  obtain ⟨ha, hb, hc, hP, hD, hT⟩ := hinv
  rw [hq] at hc hP hD
  have hRij := (List.pairwise_cons.mp hP).1
  have hPrest := (List.pairwise_cons.mp hP).2
  have hdesci : descIdsN t0 i = idsN (DNode.elem i tag attrs children) :=
    descIdsN_eq_some t0 i _ hni0
  have himem : i ∈ descIdsN t0 i := by
    rw [hdesci]
    simp [idsN]
  have hndni := find_nodup_N t0 i _ hnd0 hni0
  simp only [idsN] at hndni
  have hpartsni := List.nodup_cons.mp hndni
  have hchf := bfs_children_facts t0 hnd0 i tag attrs children hni0
  have hchdesc : ∀ n ∈ children, descIdsN t0 n.nid = idsN n :=
    fun n hn => descIdsN_eq_some t0 n.nid n (hchf n hn).1
  have hchsub : ∀ n ∈ children, ∀ x, x ∈ idsN n → x ∈ descIdsN t0 i := by
    intro n hn x hx
    rw [hdesci]
    simp only [idsN, List.mem_cons]
    exact Or.inr ((ids_of_mem children n hn).subset hx)
  constructor
  · rw [List.pairwise_append]
    refine ⟨hPrest, ?_, ?_⟩
    · rw [List.pairwise_map]
      have hsib := sibling_ids_disjoint children hpartsni.2
      refine List.Pairwise.imp_of_mem ?_ hsib
      intro n1 n2 h1 h2 hdis x hx1 hx2
      rw [hchdesc n1 h1] at hx1
      rw [hchdesc n2 h2] at hx2
      exact hdis x hx1 hx2
    · intro a hna b hnb x hxa hxb
      obtain ⟨n, hn, hbn⟩ := List.mem_map.mp hnb
      subst hbn
      rw [hchdesc n hn] at hxb
      exact hRij a hna x (hchsub n hn x hxb) hxa
  · intro j hj d hd
    rcases List.mem_append.mp hj with hj | hj
    · rcases List.mem_append.mp hd with hd | hd
      · exact hD j (List.mem_cons_of_mem i hj) d hd
      · have hdi : d = i := by simpa using hd
        rw [hdi]
        exact fun hmem => hRij j hj i himem hmem
    · obtain ⟨n, hn, hbn⟩ := List.mem_map.mp hj
      subst hbn
      rw [hchdesc n hn]
      rcases List.mem_append.mp hd with hd | hd
      · intro hmem
        exact hD i (List.mem_cons_self i rest) d hd (hchsub n hn d hmem)
      · have hdi : d = i := by simpa using hd
        rw [hdi]
        exact fun hmem => hpartsni.1 ((ids_of_mem children n hn).subset hmem)
theorem bfs_rest_facts (t0 : DNode) (st0 : BfsState) (i : Nat) (rest : List Nat)
    (hq : st0.queue = i :: rest) (hinv : BfsInv t0 st0) :
    ∀ j ∈ rest, j ≠ i ∧ i ∉ descIdsN st0.tree j ∧ findN st0.tree j = findN t0 j ∧
      (findN t0 j).isSome = true ∧ j ∈ idsN st0.tree ∧
      (∀ x, x ∈ descIdsN t0 i → x ∈ descIdsN t0 j → False) ∧
      j ∈ descIdsN t0 j := by
  obtain ⟨ha, hb, hc, hP, hD, hT⟩ := hinv
  rw [hq] at hc hP hD
  have hRij := (List.pairwise_cons.mp hP).1
  have hci := hc i (List.mem_cons_self i rest)
  obtain ⟨ni, hni0⟩ : ∃ ni, findN t0 i = some ni := by
    cases h : findN t0 i with
    | some n => exact ⟨n, rfl⟩
    | none => rw [h] at hci; simp at hci
  have himem : i ∈ descIdsN t0 i := by
    rw [descIdsN_eq_some t0 i ni hni0]
    exact (find_nid_N t0 i ni hni0) ▸ nid_mem_idsN ni
  intro j hj
  have hcj := hc j (List.mem_cons_of_mem i hj)
  obtain ⟨nj, hnj0⟩ : ∃ nj, findN t0 j = some nj := by
    cases h : findN t0 j with
    | some n => exact ⟨n, rfl⟩
    | none => rw [h] at hcj; simp at hcj
  have hjdescj : j ∈ descIdsN t0 j := by
    rw [descIdsN_eq_some t0 j nj hnj0]
    exact (find_nid_N t0 j nj hnj0) ▸ nid_mem_idsN nj
  have hij : j ≠ i := by
    intro he
    refine hRij j hj j ?_ hjdescj
    rw [he]
    exact himem
  refine ⟨hij, ?_, hcj.1, hcj.2, ?_, hRij j hj, hjdescj⟩
  · rw [descIdsN_congr st0.tree t0 j hcj.1]
    exact fun hmem => hRij j hj i himem hmem
  · exact find_some_mem_N st0.tree j nj (by rw [hcj.1]; exact hnj0)

theorem bfs_child_facts2 (t0 : DNode) (hnd0 : (idsN t0).Nodup) (st0 : BfsState)
    (i : Nat) (tag : String) (attrs : List (String × String)) (children : List DNode)
    (hndt : (idsN st0.tree).Nodup)
    (hnit : findN st0.tree i = some (.elem i tag attrs children))
    (hni0 : findN t0 i = some (.elem i tag attrs children)) :
    ∀ n ∈ children, n.nid ≠ i ∧ i ∉ descIdsN st0.tree n.nid ∧
      findN st0.tree n.nid = some n ∧ findN t0 n.nid = some n ∧
      n.nid ∈ idsN st0.tree := by
  intro n hn
  have hf0 := bfs_children_facts t0 hnd0 i tag attrs children hni0 n hn
  have hft := bfs_children_facts st0.tree hndt i tag attrs children hnit n hn
  have hndni := find_nodup_N t0 i _ hnd0 hni0
  simp only [idsN] at hndni
  have hpartsni := List.nodup_cons.mp hndni
  refine ⟨hf0.2, ?_, hft.1, hf0.1, find_some_mem_N st0.tree n.nid n hft.1⟩
  rw [descIdsN_eq_some st0.tree n.nid n hft.1]
  exact fun hmem => hpartsni.1 ((ids_of_mem children n hn).subset hmem)

theorem BfsInv_unwrap (t0 : DNode) (hnd0 : (idsN t0).Nodup) (st0 : BfsState)
    (i : Nat) (rest : List Nat) (tag : String) (attrs : List (String × String))
    (children : List DNode) (sep : Option DNode) (u1 u2 u3 u4 : Nat)
    (hq : st0.queue = i :: rest) (hinv : BfsInv t0 st0)
    (hnit : findN st0.tree i = some (.elem i tag attrs children))
    (hni0 : findN t0 i = some (.elem i tag attrs children))
    (hsep : ∀ s, sep = some s → idsN s = [st0.nextId]) :
    BfsInv t0 { st0 with
      tree := unwrapAtN st0.tree i sep,
      nextId := if sep.isSome then st0.nextId + 1 else st0.nextId,
      queue := rest ++ children.map DNode.nid,
      dequeued := st0.dequeued ++ [i],
      touched := st0.touched ++ [i],
      unwrappedNodes := u1, removedNodes := u2, removedAttrs := u3,
      strippedLinks := u4 } := by
  have hqparts := bfs_queue_inv t0 hnd0 st0 i rest tag attrs children hq hinv hni0
  have hrf := bfs_rest_facts t0 st0 i rest hq hinv
  obtain ⟨ha, hb, hc, hP, hD, hT⟩ := hinv
  have hcf := bfs_child_facts2 t0 hnd0 st0 i tag attrs children ha hnit hni0
  have hsepfresh : ∀ s, sep = some s → ∀ x ∈ idsN s, x ∉ idsN st0.tree := by
    intro s hs x hx hxt
    rw [hsep s hs] at hx
    have hxe : x = st0.nextId := by simpa using hx
    subst hxe
    exact lt_irrefl _ (hb _ hxt)
  have hsnd : ∀ s, sep = some s → (idsN s).Nodup := by
    intro s hs
    rw [hsep s hs]
    simp
  have hsepaway : ∀ j, j ∈ idsN st0.tree → ∀ s, sep = some s → j ∉ idsN s := by
    intro j hjmem s hs hjx
    rw [hsep s hs] at hjx
    have hje : j = st0.nextId := by simpa using hjx
    exact lt_irrefl _ (hje ▸ hb j hjmem)
  refine ⟨unwrap_nodup_N st0.tree i sep ha hsepfresh hsnd, ?_, ?_,
    hqparts.1, hqparts.2, ?_⟩
  · intro x hx
    have hle : st0.nextId ≤ (if sep.isSome then st0.nextId + 1 else st0.nextId) := by
      cases sep <;> simp
    rcases unwrap_ids_sub_N st0.tree i sep x hx with h | ⟨s, hs, hxs⟩
    · exact lt_of_lt_of_le (hb x h) hle
    · rw [hsep s hs] at hxs
      have hxe : x = st0.nextId := by simpa using hxs
      subst hxe
      rw [hs]
      simp
  · intro j hj
    rcases List.mem_append.mp hj with hj | hj
    · obtain ⟨hij, hd, hfeq, hsome, hjmem, _⟩ := hrf j hj
      rw [unwrap_find_N st0.tree i j sep hij hd (hsepaway j hjmem)]
      exact ⟨hfeq, hsome⟩
    · obtain ⟨n, hn, hbn⟩ := List.mem_map.mp hj
      subst hbn
      obtain ⟨hij, hd, hft, hf0, hjmem⟩ := hcf n hn
      rw [unwrap_find_N st0.tree i n.nid sep hij hd (hsepaway n.nid hjmem)]
      rw [hft, hf0]
      exact ⟨rfl, rfl⟩
  · intro x hx
    rcases List.mem_append.mp hx with h | h
    · exact List.mem_append.mpr (Or.inl (hT x h))
    · exact List.mem_append.mpr (Or.inr h)
theorem BfsInv_attrs (t0 : DNode) (hnd0 : (idsN t0).Nodup) (st0 : BfsState)
    (i : Nat) (rest : List Nat) (tag : String) (attrs : List (String × String))
    (children : List DNode) (acc : List (String × String)) (u1 u2 u3 u4 : Nat)
    (hq : st0.queue = i :: rest) (hinv : BfsInv t0 st0)
    (hnit : findN st0.tree i = some (.elem i tag attrs children))
    (hni0 : findN t0 i = some (.elem i tag attrs children)) :
    BfsInv t0 { st0 with
      tree := setAttrsAtN st0.tree i acc,
      queue := rest ++ children.map DNode.nid,
      dequeued := st0.dequeued ++ [i],
      touched := st0.touched ++ [i],
      unwrappedNodes := u1, removedNodes := u2, removedAttrs := u3,
      strippedLinks := u4 } := by
  have hqparts := bfs_queue_inv t0 hnd0 st0 i rest tag attrs children hq hinv hni0
  have hrf := bfs_rest_facts t0 st0 i rest hq hinv
  obtain ⟨ha, hb, hc, hP, hD, hT⟩ := hinv
  have hcf := bfs_child_facts2 t0 hnd0 st0 i tag attrs children ha hnit hni0
  refine ⟨?_, ?_, ?_, hqparts.1, hqparts.2, ?_⟩
  · rw [setAttrs_ids_N]
    exact ha
  · intro x hx
    rw [setAttrs_ids_N] at hx
    exact hb x hx
  · intro j hj
    rcases List.mem_append.mp hj with hj | hj
    · obtain ⟨hij, hd, hfeq, hsome, hjmem, _⟩ := hrf j hj
      rw [setAttrs_find_N st0.tree i j acc hij hd]
      exact ⟨hfeq, hsome⟩
    · obtain ⟨n, hn, hbn⟩ := List.mem_map.mp hj
      subst hbn
      obtain ⟨hij, hd, hft, hf0, hjmem⟩ := hcf n hn
      rw [setAttrs_find_N st0.tree i n.nid acc hij hd, hft, hf0]
      exact ⟨rfl, rfl⟩
  · intro x hx
    rcases List.mem_append.mp hx with h | h
    · exact List.mem_append.mpr (Or.inl (hT x h))
    · exact List.mem_append.mpr (Or.inr h)

theorem BfsInv_removeDirect (t0 : DNode) (hnd0 : (idsN t0).Nodup) (st0 : BfsState)
    (i : Nat) (rest : List Nat) (tag : String) (attrs : List (String × String))
    (children : List DNode) (u1 u2 u3 u4 : Nat)
    (hq : st0.queue = i :: rest) (hinv : BfsInv t0 st0)
    (hnit : findN st0.tree i = some (.elem i tag attrs children))
    (hni0 : findN t0 i = some (.elem i tag attrs children)) :
    BfsInv t0 { st0 with
      tree := removeByIdN st0.tree i,
      queue := rest,
      dequeued := st0.dequeued ++ [i],
      touched := st0.touched ++ [i],
      unwrappedNodes := u1, removedNodes := u2, removedAttrs := u3,
      strippedLinks := u4 } := by
  have hrf := bfs_rest_facts t0 st0 i rest hq hinv
  obtain ⟨ha, hb, hc, hP, hD, hT⟩ := hinv
  rw [hq] at hc hP hD
  have hdesci_t : descIdsN st0.tree i = idsN (DNode.elem i tag attrs children) :=
    descIdsN_eq_some st0.tree i _ hnit
  have hdesci_0 : descIdsN t0 i = idsN (DNode.elem i tag attrs children) :=
    descIdsN_eq_some t0 i _ hni0
  have himem : i ∈ descIdsN t0 i := by
    rw [hdesci_0]
    simp [idsN]
  refine ⟨?_, ?_, ?_, (List.pairwise_cons.mp hP).2, ?_, ?_⟩
  · exact (remove_ids_sublist_N st0.tree i).nodup ha
  · intro x hx
    exact hb x ((remove_ids_sublist_N st0.tree i).subset hx)
  · intro j hj
    obtain ⟨hij, hd, hfeq, hsome, hjmem, hR, hjd⟩ := hrf j hj
    have hdj : j ∉ descIdsN st0.tree i := by
      rw [hdesci_t]
      simp only [idsN, List.mem_cons, not_or]
      refine ⟨hij, ?_⟩
      intro hjc
      refine hR j ?_ hjd
      rw [hdesci_0]
      simp only [idsN, List.mem_cons]
      exact Or.inr hjc
    rw [remove_find_N st0.tree i j ha hij hd hdj]
    exact ⟨hfeq, hsome⟩
  · intro j hj d hd
    rcases List.mem_append.mp hd with hd | hd
    · exact hD j (List.mem_cons_of_mem i hj) d hd
    · have hdi : d = i := by simpa using hd
      rw [hdi]
      obtain ⟨_, _, _, _, _, hR, _⟩ := hrf j hj
      exact fun hmem => hR i himem hmem
  · intro x hx
    rcases List.mem_append.mp hx with h | h
    · exact List.mem_append.mpr (Or.inl (hT x h))
    · exact List.mem_append.mpr (Or.inr h)

theorem BfsInv_removeAttrs (t0 : DNode) (hnd0 : (idsN t0).Nodup) (st0 : BfsState)
    (i : Nat) (rest : List Nat) (tag : String) (attrs : List (String × String))
    (children : List DNode) (acc : List (String × String)) (u1 u2 u3 u4 : Nat)
    (hq : st0.queue = i :: rest) (hinv : BfsInv t0 st0)
    (hnit : findN st0.tree i = some (.elem i tag attrs children))
    (hni0 : findN t0 i = some (.elem i tag attrs children)) :
    BfsInv t0 { st0 with
      tree := removeByIdN (setAttrsAtN st0.tree i acc) i,
      queue := rest,
      dequeued := st0.dequeued ++ [i],
      touched := st0.touched ++ [i],
      unwrappedNodes := u1, removedNodes := u2, removedAttrs := u3,
      strippedLinks := u4 } := by
  have hrf := bfs_rest_facts t0 st0 i rest hq hinv
  obtain ⟨ha, hb, hc, hP, hD, hT⟩ := hinv
  rw [hq] at hc hP hD
  have h1i : findN (setAttrsAtN st0.tree i acc) i = some (.elem i tag acc children) :=
    setAttrs_target_N st0.tree i acc tag attrs children hnit
  have h1nd : (idsN (setAttrsAtN st0.tree i acc)).Nodup := by
    rw [setAttrs_ids_N]
    exact ha
  have hdesci_0 : descIdsN t0 i = idsN (DNode.elem i tag attrs children) :=
    descIdsN_eq_some t0 i _ hni0
  have himem : i ∈ descIdsN t0 i := by
    rw [hdesci_0]
    simp [idsN]
  refine ⟨?_, ?_, ?_, (List.pairwise_cons.mp hP).2, ?_, ?_⟩
  · exact (remove_ids_sublist_N _ i).nodup h1nd
  · intro x hx
    have hx2 := (remove_ids_sublist_N _ i).subset hx
    rw [setAttrs_ids_N] at hx2
    exact hb x hx2
  · intro j hj
    obtain ⟨hij, hd, hfeq, hsome, hjmem, hR, hjd⟩ := hrf j hj
    have hstep1 : findN (setAttrsAtN st0.tree i acc) j = findN st0.tree j :=
      setAttrs_find_N st0.tree i j acc hij hd
    have hd1 : i ∉ descIdsN (setAttrsAtN st0.tree i acc) j := by
      rw [descIdsN_congr _ st0.tree j hstep1]
      exact hd
    have hdj1 : j ∉ descIdsN (setAttrsAtN st0.tree i acc) i := by
      rw [descIdsN_eq_some _ i _ h1i]
      simp only [idsN, List.mem_cons, not_or]
      refine ⟨hij, ?_⟩
      intro hjc
      refine hR j ?_ hjd
      rw [hdesci_0]
      simp only [idsN, List.mem_cons]
      exact Or.inr hjc
    rw [remove_find_N _ i j h1nd hij hd1 hdj1, hstep1]
    exact ⟨hfeq, hsome⟩
  · intro j hj d hd
    rcases List.mem_append.mp hd with hd | hd
    · exact hD j (List.mem_cons_of_mem i hj) d hd
    · have hdi : d = i := by simpa using hd
      rw [hdi]
      obtain ⟨_, _, _, _, _, hR, _⟩ := hrf j hj
      exact fun hmem => hR i himem hmem
  · intro x hx
    rcases List.mem_append.mp hx with h | h
    · exact List.mem_append.mpr (Or.inl (hT x h))
    · exact List.mem_append.mpr (Or.inr h)

theorem BfsInv_astrip (t0 : DNode) (hnd0 : (idsN t0).Nodup) (st0 : BfsState)
    (i : Nat) (rest : List Nat) (tag : String) (attrs : List (String × String))
    (children : List DNode) (acc : List (String × String)) (u1 u2 u3 u4 : Nat)
    (hq : st0.queue = i :: rest) (hinv : BfsInv t0 st0)
    (hnit : findN st0.tree i = some (.elem i tag attrs children))
    (hni0 : findN t0 i = some (.elem i tag attrs children)) :
    BfsInv t0 { st0 with
      tree := unwrapAtN (setAttrsAtN st0.tree i acc) i none,
      queue := rest,
      dequeued := st0.dequeued ++ [i],
      touched := st0.touched ++ [i],
      unwrappedNodes := u1, removedNodes := u2, removedAttrs := u3,
      strippedLinks := u4 } := by
  have hrf := bfs_rest_facts t0 st0 i rest hq hinv
  obtain ⟨ha, hb, hc, hP, hD, hT⟩ := hinv
  rw [hq] at hc hP hD
  have h1nd : (idsN (setAttrsAtN st0.tree i acc)).Nodup := by
    rw [setAttrs_ids_N]
    exact ha
  have hdesci_0 : descIdsN t0 i = idsN (DNode.elem i tag attrs children) :=
    descIdsN_eq_some t0 i _ hni0
  have himem : i ∈ descIdsN t0 i := by
    rw [hdesci_0]
    simp [idsN]
  refine ⟨?_, ?_, ?_, (List.pairwise_cons.mp hP).2, ?_, ?_⟩
  · exact unwrap_nodup_N _ i none h1nd (fun s hs => by cases hs) (fun s hs => by cases hs)
  · intro x hx
    rcases unwrap_ids_sub_N _ i none x hx with h | ⟨s, hs, _⟩
    · rw [setAttrs_ids_N] at h
      exact hb x h
    · cases hs
  · intro j hj
    obtain ⟨hij, hd, hfeq, hsome, hjmem, hR, hjd⟩ := hrf j hj
    have hstep1 : findN (setAttrsAtN st0.tree i acc) j = findN st0.tree j :=
      setAttrs_find_N st0.tree i j acc hij hd
    have hd1 : i ∉ descIdsN (setAttrsAtN st0.tree i acc) j := by
      rw [descIdsN_congr _ st0.tree j hstep1]
      exact hd
    rw [unwrap_find_N _ i j none hij hd1 (fun s hs => by cases hs), hstep1]
    exact ⟨hfeq, hsome⟩
  · intro j hj d hd
    rcases List.mem_append.mp hd with hd | hd
    · exact hD j (List.mem_cons_of_mem i hj) d hd
    · have hdi : d = i := by simpa using hd
      rw [hdi]
      obtain ⟨_, _, _, _, _, hR, _⟩ := hrf j hj
      exact fun hmem => hR i himem hmem
  · intro x hx
    rcases List.mem_append.mp hx with h | h
    · exact List.mem_append.mpr (Or.inl (hT x h))
    · exact List.mem_append.mpr (Or.inr h)
theorem bfsTableSep_ids (keepTables : Bool) (tag : String) (nid : Nat) (s : DNode)
    (hs : bfsTableSep keepTables tag nid = some s) : idsN s = [nid] := by
  simp only [bfsTableSep] at hs
  split_ifs at hs <;> cases hs <;> rfl

theorem bfsStep_inv (t0 : DNode) (hnd0 : (idsN t0).Nodup)
    (allowed : List String) (strict keepTables : Bool)
    (i : Nat) (rest : List Nat) (st0 : BfsState)
    (hq : st0.queue = i :: rest) (hinv : BfsInv t0 st0) :
    BfsInv t0 (bfsStep allowed strict keepTables i rest st0) ∧
    (bfsStep allowed strict keepTables i rest st0).dequeued = st0.dequeued ++ [i] := by
  have hskip := BfsInv_skip t0 st0 i rest hq hinv
  have hci := hinv.2.2.1 i (by rw [hq]; exact List.mem_cons_self i rest)
  obtain ⟨ni, hni0⟩ : ∃ ni, findN t0 i = some ni := by
    cases h : findN t0 i with
    | some n => exact ⟨n, rfl⟩
    | none => rw [h] at hci; simp at hci
  have hnit : findN st0.tree i = some ni := by rw [hci.1]; exact hni0
  have hnid := find_nid_N t0 i ni hni0
  cases ni with
  | text b s =>
    simp only [bfsStep, hnit]
    exact ⟨hskip, trivial⟩
  | comment b s =>
    simp only [bfsStep, hnit]
    exact ⟨hskip, trivial⟩
  | elem b tag attrs children =>
    have hbi : b = i := hnid
    rw [hbi] at hnit hni0
    simp only [bfsStep, hnit]
    by_cases hcond : (i != st0.tree.nid && !(allowed.contains tag)) = true
    · rw [if_pos hcond]
      refine ⟨?_, rfl⟩
      exact BfsInv_unwrap t0 hnd0 st0 i rest tag attrs children
        (bfsTableSep keepTables tag st0.nextId) _ _ _ _ hq hinv hnit hni0
        (fun s hs => bfsTableSep_ids keepTables tag st0.nextId s hs)
    · rw [if_neg hcond]
      by_cases hkill :
          ((processAttrs tag strict (allowed.contains "img") attrs).imgKill = true)
      · rw [if_pos hkill]
        exact ⟨BfsInv_removeDirect t0 hnd0 st0 i rest tag attrs children
          _ _ _ _ hq hinv hnit hni0, rfl⟩
      · rw [if_neg hkill]
        by_cases hstrip :
            ((tag == "a" &&
              !(processAttrs tag strict (allowed.contains "img") attrs).keptHref) = true)
        · rw [if_pos hstrip]
          exact ⟨BfsInv_astrip t0 hnd0 st0 i rest tag attrs children
            _ _ _ _ _ hq hinv hnit hni0, rfl⟩
        · rw [if_neg hstrip]
          by_cases himg :
              ((tag == "img" && (!(allowed.contains "img") ||
                !(processAttrs tag strict (allowed.contains "img") attrs).keptSrc)) = true)
          · rw [if_pos himg]
            exact ⟨BfsInv_removeAttrs t0 hnd0 st0 i rest tag attrs children
              _ _ _ _ _ hq hinv hnit hni0, rfl⟩
          · rw [if_neg himg]
            exact ⟨BfsInv_attrs t0 hnd0 st0 i rest tag attrs children
              _ _ _ _ _ hq hinv hnit hni0, rfl⟩

theorem bfsRun_inv (t0 : DNode) (hnd0 : (idsN t0).Nodup)
    (allowed : List String) (strict keepTables : Bool) :
    ∀ (fuel : Nat) (st : BfsState), BfsInv t0 st →
      BfsInv t0 (bfsRun allowed strict keepTables fuel st) ∧
      (bfsRun allowed strict keepTables fuel st).dequeued.length ≤
        st.dequeued.length + fuel := by
  intro fuel
  induction fuel with
  | zero =>
    intro st hinv
    exact ⟨hinv, by simp [bfsRun]⟩
  | succ n ih =>
    intro st hinv
    cases hq : st.queue with
    | nil =>
      simp only [bfsRun, hq]
      exact ⟨hinv, Nat.le_add_right _ _⟩
    | cons i rest =>
      have hstep := bfsStep_inv t0 hnd0 allowed strict keepTables i rest st hq hinv
      have ihx := ih (bfsStep allowed strict keepTables i rest st) hstep.1
      simp only [bfsRun, hq]
      refine ⟨ihx.1, ?_⟩
      have h2 := ihx.2
      rw [hstep.2] at h2
      simp only [List.length_append, List.length_singleton] at h2
      omega

/-- **C4.** Node-processing budget of the unwrap/attribute pass: for every
tree with duplicate-free node ids and every budget `n` (the `maxDepth`
option; the loop guard is `processed++ < maxDepth`), the pass dequeues at
most `n` nodes; every id targeted by a tree mutation was dequeued; and
every id still queued when the loop stopped (the nodes never dequeued,
in particular those cut off by budget exhaustion) still denotes exactly
the same subtree as in the input, so those nodes are left entirely
unchanged.  Termination is by construction: the loop is structural
recursion on the remaining budget.  The id-freshness hypothesis models
the object identity of distinct DOM nodes. -/
theorem c4_node_budget (tree : DNode) (allowed : List String)
    (strict keepTables : Bool) (n : Nat) (hwf : (idsN tree).Nodup) :
    ((bfsRun allowed strict keepTables n (initBfsState tree)).dequeued).length ≤ n ∧
    (∀ x ∈ (bfsRun allowed strict keepTables n (initBfsState tree)).touched,
      x ∈ (bfsRun allowed strict keepTables n (initBfsState tree)).dequeued) ∧
    (∀ j ∈ (bfsRun allowed strict keepTables n (initBfsState tree)).queue,
      findN (bfsRun allowed strict keepTables n (initBfsState tree)).tree j =
        findN tree j ∧ (findN tree j).isSome = true) := by
  have hinit : BfsInv tree (initBfsState tree) := by
    refine ⟨hwf, ?_, ?_, ?_, ?_, ?_⟩
    · intro j hj
      exact Nat.lt_succ_of_le (mem_le_maxId_N tree j hj)
    · intro j hj
      have hje : j = tree.nid := by simpa [initBfsState] using hj
      subst hje
      refine ⟨rfl, ?_⟩
      rw [findN_self]
      rfl
    · simp [initBfsState]
    · intro j hj d hd
      simp [initBfsState] at hd
    · intro x hx
      simp [initBfsState] at hx
  have h := bfsRun_inv tree hwf allowed strict keepTables n (initBfsState tree) hinit
  obtain ⟨⟨ha, hb, hc, hP, hD, hT⟩, hlen⟩ := h
  refine ⟨?_, hT, hc⟩
  simpa [initBfsState] using hlen

/-- **C4, witness.** The budget theorem at the concrete document
`<body><div>x</div></body>` with budget 1 under the default effective
allowed set: only `body` is dequeued and the queued `div` subtree is
untouched. -/
theorem c4_node_budget_witness :
    (idsN budgetDoc).Nodup ∧
    (((bfsRun (effectiveAllowedTags defaultCleanOptions) true false 1
        (initBfsState budgetDoc)).dequeued).length ≤ 1 ∧
     (∀ x ∈ (bfsRun (effectiveAllowedTags defaultCleanOptions) true false 1
        (initBfsState budgetDoc)).touched,
       x ∈ (bfsRun (effectiveAllowedTags defaultCleanOptions) true false 1
        (initBfsState budgetDoc)).dequeued) ∧
     (∀ j ∈ (bfsRun (effectiveAllowedTags defaultCleanOptions) true false 1
        (initBfsState budgetDoc)).queue,
       findN (bfsRun (effectiveAllowedTags defaultCleanOptions) true false 1
        (initBfsState budgetDoc)).tree j = findN budgetDoc j ∧
       (findN budgetDoc j).isSome = true)) :=
  ⟨by decide, c4_node_budget budgetDoc (effectiveAllowedTags defaultCleanOptions)
    true false 1 (by decide)⟩

end DietWise
